import Mathlib

/-!
# Verification of a single-instrument limit order book matching engine

Shallow embedding of `src/cpp/order_book.cpp` (namespace `lob`).

Modelling decisions, each justified against the source:

* **Prices** (`double` in the source) are modelled as `ℚ`.  The engine never
  performs arithmetic on prices — it only compares them (`<=`, `>=`) and uses
  them as exact map keys — so any linearly ordered field with decidable
  comparison is a faithful model of the subset of doubles that actually occurs.
* **Quantities** (`std::int64_t`) are modelled as `Int`.  The only arithmetic
  is `min` and subtraction of a value bounded by the minuend, which cannot
  overflow starting from in-range inputs; signed overflow would be UB in the
  source anyway.
* **`std::priority_queue`** per side is modelled as a best-first sorted
  `List ℚ` (head = top).  Only `top`, `pop` and `push` are used, and entries
  with equal priority are indistinguishable (they are equal prices), so the
  sorted-list presentation is observationally equivalent to any heap.
* **`std::unordered_map`** (price → level, id → info) is modelled as an
  association list with unique keys.  Iteration order is irrelevant: the only
  full iteration (`getDepth`) sorts the keys first.
* The intrusive doubly linked list of `OrderNode`s at a price level is
  modelled as a FIFO `List Order` (head = `level.head`, earliest arrival).
  The `OrderNode*` handle stored in the registry is modelled by looking the
  order up by its (unique) id inside the level.
* `now_ts()` reads a monotonic clock; timestamps are informational only
  (the spec: they "never participate in match ordering"), so the clock read
  is modelled as the constant 0.
* C++ exceptions (`throw std::invalid_argument`) are modelled by returning
  `Except.error` *paired with the state at the throw point*, so that
  "no mutation before the throw" is a provable statement, not an artifact
  of the embedding.
-/

namespace LOB

/-- `enum class Side { Buy, Sell }`. -/
inductive Side : Type
  | Buy : Side
  | Sell : Side
deriving DecidableEq, Repr

/-- `opposite(side)`. -/
def opposite : Side → Side
  | Side.Buy => Side.Sell
  | Side.Sell => Side.Buy

/-- `struct Order { OrderId order_id; Side side; std::optional<Price> price;
Quantity quantity; std::int64_t timestamp; }` — `price` is `none` for market
orders; `quantity` is the remaining quantity, mutated as the order fills. -/
structure Order : Type where
  order_id : Int
  side : Side
  price : Option ℚ
  quantity : Int
  timestamp : Int
deriving DecidableEq, Repr

/-- `struct Trade { buy_order_id; sell_order_id; price; quantity; timestamp }`. -/
structure Trade : Type where
  buy_order_id : Int
  sell_order_id : Int
  price : ℚ
  quantity : Int
  timestamp : Int
deriving DecidableEq, Repr

/-- Registry payload `struct OrderInfo { Side side; Price price; OrderNode* node; }`;
the node handle is recovered by id lookup inside the level. -/
structure OrderInfo : Type where
  side : Side
  price : ℚ
deriving DecidableEq, Repr

/-- A price level: the FIFO queue of resting orders at one price
(`PriceLevel`'s `head`…`tail` chain, head first). -/
abbrev Level : Type := List Order

/-- One side's `std::unordered_map<Price, PriceLevel>`, as an association
list with unique keys. -/
abbrev PriceMap : Type := List (ℚ × Level)

/-- `unordered_map::find` on a price map. -/
def pmFind (bk : PriceMap) (p : ℚ) : Option Level :=
  match bk with
  | [] => none
  | (q, l) :: rest => if q = p then some l else pmFind rest p

/-- `unordered_map::erase(key)` on a price map. -/
def pmErase (bk : PriceMap) (p : ℚ) : PriceMap :=
  match bk with
  | [] => []
  | (q, l) :: rest => if q = p then rest else (q, l) :: pmErase rest p

/-- Replace the level stored at key `p` (the key is assumed present;
models in-place mutation through an `unordered_map` iterator). -/
def pmSet (bk : PriceMap) (p : ℚ) (lvl : Level) : PriceMap :=
  match bk with
  | [] => []
  | (q, l) :: rest => if q = p then (q, lvl) :: rest else (q, l) :: pmSet rest p lvl

/-- The registry `std::unordered_map<OrderId, OrderInfo> order_map_`. -/
abbrev IdMap : Type := List (Int × OrderInfo)

/-- `order_map_.find(id)`. -/
def idFind (m : IdMap) (id : Int) : Option OrderInfo :=
  match m with
  | [] => none
  | (j, info) :: rest => if j = id then some info else idFind rest id

/-- `order_map_.erase(id)`. -/
def idErase (m : IdMap) (id : Int) : IdMap :=
  match m with
  | [] => []
  | (j, info) :: rest => if j = id then rest else (j, info) :: idErase rest id

/-- The whole `OrderBook` object state.  The two heaps are kept best-first
sorted: `bid_heap` descending (max-heap), `ask_heap` ascending (min-heap). -/
structure OrderBook : Type where
  bids : PriceMap
  asks : PriceMap
  bid_heap : List ℚ
  ask_heap : List ℚ
  order_map : IdMap
  trades : List Trade
  next_order_id : Int
deriving DecidableEq, Repr

/-- The freshly constructed, empty order book. -/
def OrderBook.empty : OrderBook :=
  { bids := [], asks := [], bid_heap := [], ask_heap := [],
    order_map := [], trades := [], next_order_id := 1 }

/-- `book(side)`: side selector for the price maps. -/
def OrderBook.book (ob : OrderBook) : Side → PriceMap
  | Side.Buy => ob.bids
  | Side.Sell => ob.asks

/-- Replace one side's price map. -/
def OrderBook.setBook (ob : OrderBook) : Side → PriceMap → OrderBook
  | Side.Buy, bk => { ob with bids := bk }
  | Side.Sell, bk => { ob with asks := bk }

/-- The priority structure of one side. -/
def OrderBook.heap (ob : OrderBook) : Side → List ℚ
  | Side.Buy => ob.bid_heap
  | Side.Sell => ob.ask_heap

/-- Replace one side's priority structure. -/
def OrderBook.setHeap (ob : OrderBook) : Side → List ℚ → OrderBook
  | Side.Buy, h => { ob with bid_heap := h }
  | Side.Sell, h => { ob with ask_heap := h }

/-- The ordering of a side's heap: the bid heap keeps greater prices first,
the ask heap lesser prices first. -/
def heapRel : Side → ℚ → ℚ → Prop
  | Side.Buy => (· ≥ ·)
  | Side.Sell => (· ≤ ·)

instance heapRelDecidable (s : Side) : DecidableRel (heapRel s) := by
  cases s <;> dsimp [heapRel] <;> infer_instance

/-- `pushPrice(price, side)`: push onto the side's priority queue
(ordered insertion keeps the sorted-list presentation). -/
def pushPrice (p : ℚ) (side : Side) (ob : OrderBook) : OrderBook :=
  ob.setHeap side (List.orderedInsert (heapRel side) p (ob.heap side))

/-- `sumLevelQuantity(level)`: total remaining quantity in one level. -/
def sumLevelQuantity (level : Level) : Int :=
  (level.map Order.quantity).sum

/-- Is `p` a currently valid heap entry: present in the map with a non-empty
queue?  (`it != book_side.end() && it->second.head != nullptr`.) -/
def levelAlive (bk : PriceMap) (p : ℚ) : Bool :=
  match pmFind bk p with
  | some level => !level.isEmpty
  | none => false

/-- The scan loop shared by `peekBestPrice`/`popBestPrice`: walk the heap from
the top, discarding stale entries, until a valid price or exhaustion.  Returns
the found price and the heap *with the found entry removed* (`pop` semantics);
`peekBestPrice` re-adds the found entry. -/
def scanPop (bk : PriceMap) : List ℚ → Option ℚ × List ℚ
  | [] => (none, [])
  | p :: rest => if levelAlive bk p then (some p, rest) else scanPop bk rest

/-- `popBestPrice(side)`: pop valid best price, discarding stale entries. -/
def popBestPrice (side : Side) (ob : OrderBook) : Option ℚ × OrderBook :=
  let r := scanPop (ob.book side) (ob.heap side)
  (r.1, ob.setHeap side r.2)

/-- `peekBestPrice(side)`: like `popBestPrice` but the valid entry found stays
on the heap (the source only pops while the top is stale); stale entries above
it are still discarded through the `const_cast`. -/
def peekBestPrice (side : Side) (ob : OrderBook) : Option ℚ × OrderBook :=
  let r := scanPop (ob.book side) (ob.heap side)
  match r.1 with
  | some p => (some p, ob.setHeap side (p :: r.2))
  | none => (none, ob.setHeap side r.2)

/-- `recordTrade(incoming, resting, price, qty)`: build the trade record,
attributing the buy/sell ids by the actual trade direction. -/
def recordTrade (incoming resting : Order) (price : ℚ) (qty : Int) : Trade :=
  { buy_order_id := if incoming.side = Side.Buy then incoming.order_id else resting.order_id
    sell_order_id := if incoming.side = Side.Sell then incoming.order_id else resting.order_id
    price := price
    quantity := qty
    timestamp := 0 }

/-- Result of draining one price level FIFO against an incoming order. -/
structure DrainResult : Type where
  incoming : Order
  level : Level
  trades : List Trade
  removed : List Int
deriving Repr

/-- The inner FIFO loop of `matchIncoming`
(`while (level.head && incoming.quantity > 0)`): fill against the head node,
record a trade at the level's price, unlink fully filled resting orders
(collecting their ids for registry erasure). -/
def drainLevel (inc : Order) (p : ℚ) : Level → DrainResult
  | [] => ⟨inc, [], [], []⟩
  | r :: rest =>
    if inc.quantity ≤ 0 then ⟨inc, r :: rest, [], []⟩
    else
      let qty := min inc.quantity r.quantity
      let t := recordTrade inc r p qty
      let inc' := { inc with quantity := inc.quantity - qty }
      let r' := { r with quantity := r.quantity - qty }
      if r'.quantity = 0 then
        let d := drainLevel inc' p rest
        ⟨d.incoming, d.level, t :: d.trades, r.order_id :: d.removed⟩
      else
        ⟨inc', r' :: rest, [t], []⟩

/-- The `price_ok` lambda: a market order accepts any price; a limit buy
accepts `best_price <= limit`; a limit sell accepts `best_price >= limit`. -/
def priceOk (inc : Order) (best_price : ℚ) : Bool :=
  match inc.price with
  | none => true
  | some limit =>
    match inc.side with
    | Side.Buy => decide (best_price ≤ limit)
    | Side.Sell => decide (best_price ≥ limit)

/-- Erase a batch of ids from the registry (`order_map_.erase` calls made
during the inner loop; batching is equivalent since the loop never reads
the registry). -/
def removeIds (m : IdMap) (ids : List Int) : IdMap :=
  ids.foldl idErase m

/-- Append trades to the trade log (`trades_.push_back` calls of one drain). -/
def appendTrades (ob : OrderBook) (ts : List Trade) : OrderBook :=
  { ob with trades := ob.trades ++ ts }

/-- Erase a batch of registry entries. -/
def eraseIds (ob : OrderBook) (ids : List Int) : OrderBook :=
  { ob with order_map := removeIds ob.order_map ids }

/-- The outer loop of `matchIncoming`: `while (incoming.quantity > 0)`,
popping the best opposite price, checking acceptability (pushing the price
back and stopping when unacceptable), draining the level FIFO, then erasing
an emptied level or pushing a still-liquid price back.

The loop terminates because every iteration pops at least one entry off the
opposite heap and recurses only without pushing one back; the recursion is
phrased structurally on a fuel that `matchIncoming` instantiates with
`heap length + 1`, which therefore always suffices (the `fuel = 0` branch is
unreachable from `matchIncoming`).

When the drained level stays non-empty, the source pushes the price back and
re-tests the loop condition, which then fails because a non-empty remainder
means the incoming order was fully filled (`drainLevel_level_ne_nil` below);
the model returns directly at that point. -/
def matchLoop (fuel : Nat) (inc : Order) (opp : Side) (ob : OrderBook) :
    Order × OrderBook :=
  match fuel with
  | 0 => (inc, ob)
  | fuel + 1 =>
    if inc.quantity ≤ 0 then (inc, ob)
    else
      match scanPop (ob.book opp) (ob.heap opp) with
      | (none, hp) => (inc, ob.setHeap opp hp)
      | (some best_price, hp) =>
        let ob₁ := ob.setHeap opp hp
        if ¬ priceOk inc best_price then (inc, pushPrice best_price opp ob₁)
        else
          match pmFind (ob₁.book opp) best_price with
          | none => matchLoop fuel inc opp ob₁
          | some level =>
            if level.isEmpty then matchLoop fuel inc opp ob₁
            else
              let d := drainLevel inc best_price level
              let ob₂ := eraseIds (appendTrades ob₁ d.trades) d.removed
              if d.level.isEmpty then
                matchLoop fuel d.incoming opp
                  (ob₂.setBook opp (pmErase (ob₂.book opp) best_price))
              else
                (d.incoming, pushPrice best_price opp
                  (ob₂.setBook opp (pmSet (ob₂.book opp) best_price d.level)))

/-- `matchIncoming(incoming)`: run the crossing algorithm against the
opposite side.  The fuel `heap length + 1` bounds the number of loop
iterations: each iteration that continues has consumed at least one heap
entry and pushed none back. -/
def matchIncoming (inc : Order) (ob : OrderBook) : Order × OrderBook :=
  matchLoop ((ob.heap (opposite inc.side)).length + 1) inc (opposite inc.side) ob

/-- `order_map_[order.order_id] = OrderInfo{...}`: insert a fresh registry
entry (the key is new by the uniqueness guarantee, so map insertion is a
cons). -/
def registerOrder (ob : OrderBook) (id : Int) (info : OrderInfo) : OrderBook :=
  { ob with order_map := (id, info) :: ob.order_map }

/-- `addRestingOrder(order)`: get or create the price level (creation pushes
the price onto the side's priority queue), append at the tail, and register.
The source throws `std::runtime_error` for a priceless order; that branch is
unreachable from both call sites (`addLimitOrder` always sets a price and
`addMarketOrder` never rests) and is modelled as the identity. -/
def addRestingOrder (order : Order) (ob : OrderBook) : OrderBook :=
  match order.price with
  | none => ob
  | some p =>
    let bk := ob.book order.side
    match pmFind bk p with
    | some level =>
      registerOrder (ob.setBook order.side (pmSet bk p (level ++ [order])))
        order.order_id ⟨order.side, p⟩
    | none =>
      registerOrder (pushPrice p order.side (ob.setBook order.side ((p, [order]) :: bk)))
        order.order_id ⟨order.side, p⟩

/-- The scan of `nextFreeId` (`while (order_map_.find(next_order_id_) != end) ++next_order_id_`),
with explicit fuel; fuel `order_map.length + 1` always suffices by pigeonhole
(`scanFreeId_isFree` below), so the fuelled form equals the source's loop. -/
def scanFreeId (m : IdMap) : Nat → Int → Int
  | 0, c => c
  | Nat.succ n, c => if (idFind m c).isSome then scanFreeId m n (c + 1) else c

/-- `nextFreeId()`: scan upward from the counter for an unused id; the counter
is left one past the returned id. -/
def nextFreeId (ob : OrderBook) : Int × OrderBook :=
  let id := scanFreeId ob.order_map (ob.order_map.length + 1) ob.next_order_id
  (id, { ob with next_order_id := id + 1 })

/-- `addLimitOrder(side, price, quantity, order_id?, ts_ns?)`.  Explicitly
supplied ids already in the registry raise `std::invalid_argument`, modelled
as `Except.error` paired with the state at the throw point. -/
def addLimitOrder (side : Side) (price : ℚ) (quantity : Int)
    (order_id : Option Int) (ts_ns : Option Int) (ob : OrderBook) :
    Except String Int × OrderBook :=
  match order_id with
  | some id =>
    if (idFind ob.order_map id).isSome then
      (Except.error "Order ID already exists in the order book", ob)
    else
      let ts := ts_ns.getD 0
      let order : Order := ⟨id, side, some price, quantity, ts⟩
      let r := matchIncoming order ob
      (Except.ok id, if 0 < r.1.quantity then addRestingOrder r.1 r.2 else r.2)
  | none =>
    let id := (nextFreeId ob).1
    let ob₀ := (nextFreeId ob).2
    let ts := ts_ns.getD 0
    let order : Order := ⟨id, side, some price, quantity, ts⟩
    let r := matchIncoming order ob₀
    (Except.ok id, if 0 < r.1.quantity then addRestingOrder r.1 r.2 else r.2)

/-- `addMarketOrder(side, quantity, order_id?, ts_ns?)`: same id handling as
`addLimitOrder`; the order has no price and is never rested. -/
def addMarketOrder (side : Side) (quantity : Int)
    (order_id : Option Int) (ts_ns : Option Int) (ob : OrderBook) :
    Except String Int × OrderBook :=
  match order_id with
  | some id =>
    if (idFind ob.order_map id).isSome then
      (Except.error "Order ID already exists in the order book", ob)
    else
      let ts := ts_ns.getD 0
      let order : Order := ⟨id, side, none, quantity, ts⟩
      (Except.ok id, (matchIncoming order ob).2)
  | none =>
    let id := (nextFreeId ob).1
    let ob₀ := (nextFreeId ob).2
    let ts := ts_ns.getD 0
    let order : Order := ⟨id, side, none, quantity, ts⟩
    (Except.ok id, (matchIncoming order ob₀).2)

/-- `order_map_.erase(it)`: drop one registry entry. -/
def unregisterOrder (ob : OrderBook) (id : Int) : OrderBook :=
  { ob with order_map := idErase ob.order_map id }

/-- Unlink the node of the order with the given id from its level's FIFO
(the source unlinks through the stored `OrderNode*`; ids are unique, so
removing the first match is the same operation). -/
def removeById (id : Int) : Level → Level
  | [] => []
  | o :: rest => if o.order_id = id then rest else o :: removeById id rest

/-- `cancelOrder(id)`: registry lookup; absent ids return `false` untouched.
Otherwise unlink the node, erase the map entry if the level emptied, and
erase the registry entry.  (The source also returns `false`, without
cleanup, if the registry names a price absent from the book side — dead
code under the registry invariant, translated faithfully.) -/
def cancelOrder (id : Int) (ob : OrderBook) : Bool × OrderBook :=
  match idFind ob.order_map id with
  | none => (false, ob)
  | some info =>
    let bk := ob.book info.side
    match pmFind bk info.price with
    | none => (false, ob)
    | some level =>
      let level' := removeById id level
      let bk' := if level'.isEmpty then pmErase bk info.price else pmSet bk info.price level'
      (true, unregisterOrder (ob.setBook info.side bk') id)

/-- `bestBid()`: peek the best buy price (lazily pruning the heap through
`const_cast`), then aggregate that level.  `book_side.at(price)` cannot
fail: `peekBestPrice` only returns present, non-empty prices. -/
def bestBid (ob : OrderBook) : Option (ℚ × Int) × OrderBook :=
  match peekBestPrice Side.Buy ob with
  | (none, ob') => (none, ob')
  | (some p, ob') =>
    match pmFind ob'.bids p with
    | some level => (some (p, sumLevelQuantity level), ob')
    | none => (none, ob')

/-- `bestAsk()`: symmetric to `bestBid`. -/
def bestAsk (ob : OrderBook) : Option (ℚ × Int) × OrderBook :=
  match peekBestPrice Side.Sell ob with
  | (none, ob') => (none, ob')
  | (some p, ob') =>
    match pmFind ob'.asks p with
    | some level => (some (p, sumLevelQuantity level), ob')
    | none => (none, ob')

/-- `getDepth(side, levels)`: snapshot the side's live prices from the
authoritative map, sort best-first (`std::greater` for bids, default
ascending for asks; keys are distinct so the sort is unique), truncate to
`levels` entries, and aggregate each level. -/
def getDepth (side : Side) (levels : Nat) (ob : OrderBook) : List (ℚ × Int) :=
  let bk := ob.book side
  if bk = [] ∨ levels = 0 then []
  else
    let prices := (bk.map Prod.fst).insertionSort (heapRel side)
    (prices.take levels).map fun p => (p, sumLevelQuantity ((pmFind bk p).getD []))

/-- `getTrades()`: read access to the trade log. -/
def getTrades (ob : OrderBook) : List Trade :=
  ob.trades

/-- `clear()`: empty both sides, both heaps, the registry and the trade log,
and reset the id counter to 1 — exactly the freshly constructed book. -/
def clear (_ : OrderBook) : OrderBook :=
  OrderBook.empty

/-- Total quantity of a list of trades (used to state conservation). -/
def tradeQtySum (ts : List Trade) : Int :=
  (ts.map Trade.quantity).sum

/-- Total resting quantity over an entire side of the book. -/
def bookTotal (bk : PriceMap) : Int :=
  (bk.map fun e => sumLevelQuantity e.2).sum

/-- All orders resting on one side, level by level. -/
def sideOrders (bk : PriceMap) : List Order :=
  (bk.map Prod.snd).flatten

/-- The ids of all orders resting on one side. -/
def sideIds (bk : PriceMap) : List Int :=
  (sideOrders bk).map Order.order_id

/-- The ids of all resting orders in the book. -/
def allRestingIds (ob : OrderBook) : List Int :=
  sideIds ob.bids ++ sideIds ob.asks

/-- The spec's view of an aggregate: the resting orders of one side at an
exact price, collected over the whole side (compared against the per-level
sums the code computes). -/
def restingOrdersAt (ob : OrderBook) (s : Side) (p : ℚ) : Level :=
  (sideOrders (ob.book s)).filter (fun o => decide (o.price = some p))

/-- The resting-side order id of a trade, given the incoming order's side
(`recordTrade` assigns the ids by trade direction). -/
def restingId (s : Side) (t : Trade) : Int :=
  match s with
  | Side.Buy => t.sell_order_id
  | Side.Sell => t.buy_order_id

/-- An order with the given id is resting: some price level of some side
holds a node for it. -/
def IsResting (ob : OrderBook) (id : Int) : Prop :=
  ∃ s p l, pmFind (ob.book s) p = some l ∧ ∃ o ∈ l, o.order_id = id

/-- Well-formedness of an order-book state: the documented invariants of
the C++ class, all of which hold in every reachable state
(`reachable_wf`). -/
structure WF (ob : OrderBook) : Prop where
  /-- Each side's priority structure is best-first sorted. -/
  heaps_sorted : ∀ s, List.Sorted (heapRel s) (ob.heap s)
  /-- A `Book Side Index` entry exists iff its queue is non-empty:
  emptied levels are erased immediately. -/
  no_empty : ∀ s p l, pmFind (ob.book s) p = some l → l ≠ []
  /-- Each side's map has at most one entry per price. -/
  keys_nodup : ∀ s, ((ob.book s).map Prod.fst).Nodup
  /-- Orders rest on their own side, under their own price, with positive
  remaining quantity. -/
  levels_wf : ∀ s p l, pmFind (ob.book s) p = some l →
      ∀ o ∈ l, o.side = s ∧ o.price = some p ∧ 0 < o.quantity
  /-- Every live price occurs in its side's priority structure (lazy
  invalidation never loses a live level). -/
  heap_complete : ∀ s p l, pmFind (ob.book s) p = some l → p ∈ ob.heap s
  /-- The registry has at most one entry per id. -/
  reg_keys_nodup : (ob.order_map.map Prod.fst).Nodup
  /-- A registry entry points at a live node: its side and price name a level
  holding an order with that id. -/
  reg_resting : ∀ id info, idFind ob.order_map id = some info →
      ∃ l, pmFind (ob.book info.side) info.price = some l ∧
        ∃ o ∈ l, o.order_id = id
  /-- Every resting order is registered under its id, side and price. -/
  resting_reg : ∀ s p l, pmFind (ob.book s) p = some l →
      ∀ o ∈ l, idFind ob.order_map o.order_id = some ⟨s, p⟩
  /-- Within one price level, the queued orders carry distinct ids. -/
  level_ids_nodup : ∀ s p l, pmFind (ob.book s) p = some l →
      (l.map Order.order_id).Nodup

/-- States reachable from a fresh order book through the public interface. -/
inductive Reachable : OrderBook → Prop
  | empty : Reachable OrderBook.empty
  | limit (side : Side) (price : ℚ) (quantity : Int) (oid ts : Option Int)
      {ob : OrderBook} : Reachable ob →
      Reachable (addLimitOrder side price quantity oid ts ob).2
  | market (side : Side) (quantity : Int) (oid ts : Option Int)
      {ob : OrderBook} : Reachable ob →
      Reachable (addMarketOrder side quantity oid ts ob).2
  | cancel (id : Int) {ob : OrderBook} : Reachable ob →
      Reachable (cancelOrder id ob).2
  | bid {ob : OrderBook} : Reachable ob → Reachable (bestBid ob).2
  | ask {ob : OrderBook} : Reachable ob → Reachable (bestAsk ob).2
  | clr {ob : OrderBook} : Reachable ob → Reachable (clear ob)

/-- The book after the four resting submissions of the two-level sweep
scenario: Sell 101.0×100, Sell 102.0×200, Buy 99.0×150, Buy 98.0×250,
all with auto-assigned ids, starting from an empty book. -/
def sweep_ob4 : OrderBook :=
  (addLimitOrder Side.Buy 98 250 none none
    (addLimitOrder Side.Buy 99 150 none none
      (addLimitOrder Side.Sell 102 200 none none
        (addLimitOrder Side.Sell 101 100 none none OrderBook.empty).2).2).2).2

/-- The sweep book after the aggressive Buy 102.0×180 submission. -/
def sweep_ob5 : OrderBook :=
  (addLimitOrder Side.Buy 102 180 none none sweep_ob4).2

/-! ## Basic lemmas about the state accessors -/

@[simp]
theorem book_setHeap (ob : OrderBook) (s s' : Side) (h : List ℚ) :
    (ob.setHeap s h).book s' = ob.book s' := by
  cases s <;> cases s' <;> rfl

@[simp]
theorem trades_setHeap (ob : OrderBook) (s : Side) (h : List ℚ) :
    (ob.setHeap s h).trades = ob.trades := by
  cases s <;> rfl

@[simp]
theorem order_map_setHeap (ob : OrderBook) (s : Side) (h : List ℚ) :
    (ob.setHeap s h).order_map = ob.order_map := by
  cases s <;> rfl

@[simp]
theorem heap_setHeap_self (ob : OrderBook) (s : Side) (h : List ℚ) :
    (ob.setHeap s h).heap s = h := by
  cases s <;> rfl

@[simp]
theorem heap_setBook (ob : OrderBook) (s s' : Side) (bk : PriceMap) :
    (ob.setBook s bk).heap s' = ob.heap s' := by
  cases s <;> cases s' <;> rfl

@[simp]
theorem trades_setBook (ob : OrderBook) (s : Side) (bk : PriceMap) :
    (ob.setBook s bk).trades = ob.trades := by
  cases s <;> rfl

@[simp]
theorem order_map_setBook (ob : OrderBook) (s : Side) (bk : PriceMap) :
    (ob.setBook s bk).order_map = ob.order_map := by
  cases s <;> rfl

@[simp]
theorem book_setBook_self (ob : OrderBook) (s : Side) (bk : PriceMap) :
    (ob.setBook s bk).book s = bk := by
  cases s <;> rfl

theorem book_setBook_ne (ob : OrderBook) {s s' : Side} (bk : PriceMap)
    (h : s ≠ s') : (ob.setBook s bk).book s' = ob.book s' := by
  cases s <;> cases s' <;> first | rfl | exact absurd rfl h

@[simp]
theorem book_appendTrades (ob : OrderBook) (ts : List Trade) (s : Side) :
    (appendTrades ob ts).book s = ob.book s := by
  cases s <;> rfl

@[simp]
theorem heap_appendTrades (ob : OrderBook) (ts : List Trade) (s : Side) :
    (appendTrades ob ts).heap s = ob.heap s := by
  cases s <;> rfl

@[simp]
theorem trades_appendTrades (ob : OrderBook) (ts : List Trade) :
    (appendTrades ob ts).trades = ob.trades ++ ts := rfl

@[simp]
theorem order_map_appendTrades (ob : OrderBook) (ts : List Trade) :
    (appendTrades ob ts).order_map = ob.order_map := rfl

@[simp]
theorem book_eraseIds (ob : OrderBook) (ids : List Int) (s : Side) :
    (eraseIds ob ids).book s = ob.book s := by
  cases s <;> rfl

@[simp]
theorem heap_eraseIds (ob : OrderBook) (ids : List Int) (s : Side) :
    (eraseIds ob ids).heap s = ob.heap s := by
  cases s <;> rfl

@[simp]
theorem trades_eraseIds (ob : OrderBook) (ids : List Int) :
    (eraseIds ob ids).trades = ob.trades := rfl

@[simp]
theorem order_map_eraseIds (ob : OrderBook) (ids : List Int) :
    (eraseIds ob ids).order_map = removeIds ob.order_map ids := rfl

@[simp]
theorem book_registerOrder (ob : OrderBook) (id : Int) (info : OrderInfo)
    (s : Side) : (registerOrder ob id info).book s = ob.book s := by
  cases s <;> rfl

@[simp]
theorem heap_registerOrder (ob : OrderBook) (id : Int) (info : OrderInfo)
    (s : Side) : (registerOrder ob id info).heap s = ob.heap s := by
  cases s <;> rfl

@[simp]
theorem trades_registerOrder (ob : OrderBook) (id : Int) (info : OrderInfo) :
    (registerOrder ob id info).trades = ob.trades := rfl

@[simp]
theorem order_map_registerOrder (ob : OrderBook) (id : Int) (info : OrderInfo) :
    (registerOrder ob id info).order_map = (id, info) :: ob.order_map := rfl

@[simp]
theorem book_unregisterOrder (ob : OrderBook) (id : Int) (s : Side) :
    (unregisterOrder ob id).book s = ob.book s := by
  cases s <;> rfl

@[simp]
theorem heap_unregisterOrder (ob : OrderBook) (id : Int) (s : Side) :
    (unregisterOrder ob id).heap s = ob.heap s := by
  cases s <;> rfl

@[simp]
theorem trades_unregisterOrder (ob : OrderBook) (id : Int) :
    (unregisterOrder ob id).trades = ob.trades := rfl

@[simp]
theorem order_map_unregisterOrder (ob : OrderBook) (id : Int) :
    (unregisterOrder ob id).order_map = idErase ob.order_map id := rfl

@[simp]
theorem book_pushPrice (p : ℚ) (s : Side) (ob : OrderBook) (s' : Side) :
    (pushPrice p s ob).book s' = ob.book s' := by
  simp [pushPrice]

@[simp]
theorem trades_pushPrice (p : ℚ) (s : Side) (ob : OrderBook) :
    (pushPrice p s ob).trades = ob.trades := by
  simp [pushPrice]

@[simp]
theorem order_map_pushPrice (p : ℚ) (s : Side) (ob : OrderBook) :
    (pushPrice p s ob).order_map = ob.order_map := by
  simp [pushPrice]

theorem opposite_ne (s : Side) : opposite s ≠ s := by
  cases s <;> simp [opposite]

@[simp]
theorem tradeQtySum_nil : tradeQtySum [] = 0 := rfl

@[simp]
theorem tradeQtySum_cons (t : Trade) (ts : List Trade) :
    tradeQtySum (t :: ts) = t.quantity + tradeQtySum ts := by
  simp [tradeQtySum]

@[simp]
theorem tradeQtySum_append (ts us : List Trade) :
    tradeQtySum (ts ++ us) = tradeQtySum ts + tradeQtySum us := by
  simp [tradeQtySum]

@[simp]
theorem sumLevelQuantity_nil : sumLevelQuantity [] = 0 := rfl

@[simp]
theorem sumLevelQuantity_cons (o : Order) (l : Level) :
    sumLevelQuantity (o :: l) = o.quantity + sumLevelQuantity l := by
  simp [sumLevelQuantity]

@[simp]
theorem sumLevelQuantity_append (l l' : Level) :
    sumLevelQuantity (l ++ l') = sumLevelQuantity l + sumLevelQuantity l' := by
  simp [sumLevelQuantity]

@[simp]
theorem bookTotal_nil : bookTotal [] = 0 := rfl

@[simp]
theorem bookTotal_cons (q : ℚ) (l : Level) (rest : PriceMap) :
    bookTotal ((q, l) :: rest) = sumLevelQuantity l + bookTotal rest := by
  simp [bookTotal]

theorem bookTotal_pmErase {bk : PriceMap} {p : ℚ} {l : Level}
    (h : pmFind bk p = some l) :
    bookTotal (pmErase bk p) = bookTotal bk - sumLevelQuantity l := by
  induction bk with
  | nil => simp [pmFind] at h
  | cons e rest ih =>
    obtain ⟨q, lvl⟩ := e
    by_cases hq : q = p
    · simp [pmFind, hq] at h
      simp [pmErase, hq, h]
    · simp [pmFind, hq] at h
      simp [pmErase, hq, ih h]
      ring

theorem bookTotal_pmSet {bk : PriceMap} {p : ℚ} {l : Level}
    (h : pmFind bk p = some l) (l' : Level) :
    bookTotal (pmSet bk p l')
      = bookTotal bk - sumLevelQuantity l + sumLevelQuantity l' := by
  induction bk with
  | nil => simp [pmFind] at h
  | cons e rest ih =>
    obtain ⟨q, lvl⟩ := e
    by_cases hq : q = p
    · simp [pmFind, hq] at h
      simp [pmSet, hq, h]
      ring
    · simp [pmFind, hq] at h
      simp [pmSet, hq, ih h]
      ring

theorem scanPop_some_length {bk : PriceMap} :
    ∀ {h : List ℚ} {p : ℚ} {hp : List ℚ},
      scanPop bk h = (some p, hp) → hp.length < h.length := by
  intro h
  induction h with
  | nil => intro p hp hcontra; simp [scanPop] at hcontra
  | cons q rest ih =>
    intro p hp heq
    by_cases halive : levelAlive bk q
    · simp [scanPop, halive] at heq
      simp [heq.2.symm, List.length_cons, Nat.lt_succ_self]
    · simp [scanPop, halive] at heq
      exact Nat.lt_succ_of_lt (ih heq)

/-! ## Association-list lemmas -/

theorem pmFind_eq_none_iff {bk : PriceMap} {p : ℚ} :
    pmFind bk p = none ↔ p ∉ bk.map Prod.fst := by
  induction bk with
  | nil => simp [pmFind]
  | cons e rest ih =>
    obtain ⟨q, l⟩ := e
    by_cases hq : q = p <;> simp [pmFind, hq, ih, Ne.symm]

theorem pmFind_mem {bk : PriceMap} {p : ℚ} {l : Level}
    (h : pmFind bk p = some l) : (p, l) ∈ bk := by
  induction bk with
  | nil => simp [pmFind] at h
  | cons e rest ih =>
    obtain ⟨q, lvl⟩ := e
    by_cases hq : q = p
    · subst hq
      simp [pmFind] at h
      simp [h]
    · simp [pmFind, hq] at h
      simp [ih h]

theorem pmFind_pmErase_ne {bk : PriceMap} {p q : ℚ} (h : q ≠ p) :
    pmFind (pmErase bk p) q = pmFind bk q := by
  induction bk with
  | nil => rfl
  | cons e rest ih =>
    obtain ⟨r, l⟩ := e
    by_cases hr : r = p
    · subst hr
      simp [pmErase, pmFind, Ne.symm h]
    · simp only [pmErase, if_neg hr, pmFind]
      by_cases hq : r = q <;> simp [hq, ih]

theorem pmFind_pmErase_self {bk : PriceMap} {p : ℚ}
    (h : (bk.map Prod.fst).Nodup) : pmFind (pmErase bk p) p = none := by
  induction bk with
  | nil => rfl
  | cons e rest ih =>
    obtain ⟨r, l⟩ := e
    simp only [List.map_cons, List.nodup_cons] at h
    by_cases hr : r = p
    · subst hr
      simp only [pmErase, if_pos rfl]
      rw [pmFind_eq_none_iff]
      exact h.1
    · simp [pmErase, pmFind, hr, ih h.2]

theorem pmFind_pmSet_self {bk : PriceMap} {p : ℚ} {l : Level}
    (h : pmFind bk p = some l) (l' : Level) :
    pmFind (pmSet bk p l') p = some l' := by
  induction bk with
  | nil => simp [pmFind] at h
  | cons e rest ih =>
    obtain ⟨r, lvl⟩ := e
    by_cases hr : r = p
    · simp [pmSet, pmFind, hr]
    · simp [pmSet, pmFind, hr] at h ⊢
      exact ih h

theorem pmFind_pmSet_ne {bk : PriceMap} {p q : ℚ} (l' : Level) (h : q ≠ p) :
    pmFind (pmSet bk p l') q = pmFind bk q := by
  induction bk with
  | nil => rfl
  | cons e rest ih =>
    obtain ⟨r, lvl⟩ := e
    by_cases hr : r = p
    · subst hr
      simp [pmSet, pmFind, Ne.symm h]
    · simp only [pmSet, if_neg hr, pmFind]
      by_cases hq : r = q <;> simp [hq, ih]

theorem pmSet_keys (bk : PriceMap) (p : ℚ) (l' : Level) :
    (pmSet bk p l').map Prod.fst = bk.map Prod.fst := by
  induction bk with
  | nil => rfl
  | cons e rest ih =>
    obtain ⟨r, lvl⟩ := e
    by_cases hr : r = p <;> simp [pmSet, hr, ih]

theorem pmErase_keys_sublist (bk : PriceMap) (p : ℚ) :
    List.Sublist ((pmErase bk p).map Prod.fst) (bk.map Prod.fst) := by
  induction bk with
  | nil => simp [pmErase]
  | cons e rest ih =>
    obtain ⟨r, lvl⟩ := e
    by_cases hr : r = p
    · simp only [pmErase, if_pos hr, List.map_cons]
      exact List.sublist_cons_self _ _
    · simp only [pmErase, if_neg hr, List.map_cons]
      exact ih.cons₂ r

theorem idFind_eq_none_iff {m : IdMap} {j : Int} :
    idFind m j = none ↔ j ∉ m.map Prod.fst := by
  induction m with
  | nil => simp [idFind]
  | cons e rest ih =>
    obtain ⟨i, info⟩ := e
    by_cases hi : i = j <;> simp [idFind, hi, ih, Ne.symm]

theorem idFind_mem {m : IdMap} {j : Int} {info : OrderInfo}
    (h : idFind m j = some info) : (j, info) ∈ m := by
  induction m with
  | nil => simp [idFind] at h
  | cons e rest ih =>
    obtain ⟨i, info'⟩ := e
    by_cases hi : i = j
    · subst hi
      simp [idFind] at h
      simp [h]
    · simp [idFind, hi] at h
      simp [ih h]

theorem idFind_idErase_ne {m : IdMap} {i j : Int} (h : j ≠ i) :
    idFind (idErase m i) j = idFind m j := by
  induction m with
  | nil => rfl
  | cons e rest ih =>
    obtain ⟨k, info⟩ := e
    by_cases hk : k = i
    · subst hk
      simp [idErase, idFind, Ne.symm h]
    · simp only [idErase, if_neg hk, idFind]
      by_cases hj : k = j <;> simp [hj, ih]

theorem idFind_idErase_self {m : IdMap} {i : Int}
    (h : (m.map Prod.fst).Nodup) : idFind (idErase m i) i = none := by
  induction m with
  | nil => rfl
  | cons e rest ih =>
    obtain ⟨k, info⟩ := e
    simp only [List.map_cons, List.nodup_cons] at h
    by_cases hk : k = i
    · subst hk
      simp only [idErase, if_pos rfl]
      rw [idFind_eq_none_iff]
      exact h.1
    · simp [idErase, idFind, hk, ih h.2]

theorem idErase_keys_sublist (m : IdMap) (i : Int) :
    List.Sublist ((idErase m i).map Prod.fst) (m.map Prod.fst) := by
  induction m with
  | nil => simp [idErase]
  | cons e rest ih =>
    obtain ⟨k, info⟩ := e
    by_cases hk : k = i
    · simp only [idErase, if_pos hk, List.map_cons]
      exact List.sublist_cons_self _ _
    · simp only [idErase, if_neg hk, List.map_cons]
      exact ih.cons₂ k

theorem removeIds_keys_sublist (m : IdMap) (ids : List Int) :
    List.Sublist ((removeIds m ids).map Prod.fst) (m.map Prod.fst) := by
  induction ids generalizing m with
  | nil => simp [removeIds]
  | cons i rest ih =>
    exact (ih (idErase m i)).trans (idErase_keys_sublist m i)

theorem idFind_removeIds_not_mem {m : IdMap} {ids : List Int} {j : Int}
    (h : j ∉ ids) : idFind (removeIds m ids) j = idFind m j := by
  induction ids generalizing m with
  | nil => rfl
  | cons i rest ih =>
    simp only [List.mem_cons, not_or] at h
    show idFind (removeIds (idErase m i) rest) j = idFind m j
    rw [ih h.2, idFind_idErase_ne h.1]

theorem idFind_removeIds_mem {m : IdMap} {ids : List Int} {j : Int}
    (hn : (m.map Prod.fst).Nodup) (h : j ∈ ids) :
    idFind (removeIds m ids) j = none := by
  induction ids generalizing m with
  | nil => simp at h
  | cons i rest ih =>
    show idFind (removeIds (idErase m i) rest) j = none
    rcases List.mem_cons.mp h with rfl | hrest
    · by_cases hr : j ∈ rest
      · exact ih (hn.sublist (idErase_keys_sublist m j)) hr
      · rw [idFind_removeIds_not_mem hr]
        exact idFind_idErase_self hn
    · exact ih (hn.sublist (idErase_keys_sublist m i)) hrest

theorem removeById_sublist (id : Int) (l : Level) :
    List.Sublist (removeById id l) l := by
  induction l with
  | nil => simp [removeById]
  | cons o rest ih =>
    by_cases ho : o.order_id = id
    · simp only [removeById, if_pos ho]
      exact List.sublist_cons_self o rest
    · simp only [removeById, if_neg ho]
      exact ih.cons₂ o

theorem removeById_ids (id : Int) (l : Level) :
    (removeById id l).map Order.order_id = (l.map Order.order_id).erase id := by
  induction l with
  | nil => simp [removeById]
  | cons o rest ih =>
    by_cases ho : o.order_id = id
    · simp [removeById, ho, List.erase_cons_head]
    · simp only [removeById, if_neg ho, List.map_cons]
      rw [List.erase_cons_tail, ih]
      simp [ho]

theorem mem_removeById {id : Int} {l : Level} {o : Order}
    (h : o ∈ l) (hne : o.order_id ≠ id) : o ∈ removeById id l := by
  induction l with
  | nil => simp at h
  | cons o' rest ih =>
    by_cases ho : o'.order_id = id
    · simp only [removeById, if_pos ho]
      rcases List.mem_cons.mp h with rfl | hr
      · exact absurd ho hne
      · exact hr
    · simp only [removeById, if_neg ho]
      rcases List.mem_cons.mp h with rfl | hr
      · exact List.mem_cons_self o _
      · exact List.mem_cons_of_mem o' (ih hr)

/-! ## Lemmas about `drainLevel` -/

/-- Draining changes only the incoming order's quantity. -/
theorem drainLevel_incoming (inc : Order) (p : ℚ) (l : Level) :
    ∃ q, (drainLevel inc p l).incoming = { inc with quantity := q } := by
  induction l generalizing inc with
  | nil => exact ⟨inc.quantity, rfl⟩
  | cons r rest ih =>
    by_cases hq : inc.quantity ≤ 0
    · exact ⟨inc.quantity, by simp [drainLevel, hq]⟩
    · by_cases hr : r.quantity - min inc.quantity r.quantity = 0
      · obtain ⟨q, hq'⟩ := ih { inc with quantity := inc.quantity - min inc.quantity r.quantity }
        exact ⟨q, by simp [drainLevel, hq, hr, hq']⟩
      · exact ⟨inc.quantity - min inc.quantity r.quantity, by simp [drainLevel, hq, hr]⟩

/-- The trade quantities of a level drain sum to the quantity removed from
the incoming order. -/
theorem drainLevel_sum_incoming (inc : Order) (p : ℚ) (l : Level) :
    tradeQtySum (drainLevel inc p l).trades
      = inc.quantity - (drainLevel inc p l).incoming.quantity := by
  induction l generalizing inc with
  | nil => simp [drainLevel]
  | cons r rest ih =>
    by_cases hq : inc.quantity ≤ 0
    · simp [drainLevel, hq]
    · by_cases hr : r.quantity - min inc.quantity r.quantity = 0
      · simp [drainLevel, hq, hr, recordTrade,
          ih { inc with quantity := inc.quantity - min inc.quantity r.quantity }]
        ring
      · simp [drainLevel, hq, hr, recordTrade]

/-- The trade quantities of a level drain sum to the quantity removed from
the level's resting orders. -/
theorem drainLevel_sum_level (inc : Order) (p : ℚ) (l : Level) :
    tradeQtySum (drainLevel inc p l).trades
      = sumLevelQuantity l - sumLevelQuantity (drainLevel inc p l).level := by
  induction l generalizing inc with
  | nil => simp [drainLevel]
  | cons r rest ih =>
    by_cases hq : inc.quantity ≤ 0
    · simp [drainLevel, hq]
    · by_cases hr : r.quantity - min inc.quantity r.quantity = 0
      · simp [drainLevel, hq, hr, recordTrade,
          ih { inc with quantity := inc.quantity - min inc.quantity r.quantity }]
        have hmin : inc.quantity ⊓ r.quantity = r.quantity := by omega
        rw [hmin]
        ring
      · simp [drainLevel, hq, hr, recordTrade]

/-- If the drained level is still non-empty, the incoming order was fully
consumed — this is why the source's push-back branch exits the outer loop. -/
theorem drainLevel_level_ne_nil (inc : Order) (p : ℚ) (l : Level)
    (h : (drainLevel inc p l).level ≠ []) :
    (drainLevel inc p l).incoming.quantity ≤ 0 := by
  induction l generalizing inc with
  | nil => simp [drainLevel] at h
  | cons r rest ih =>
    by_cases hq : inc.quantity ≤ 0
    · simp [drainLevel, hq]
    · by_cases hr : r.quantity - min inc.quantity r.quantity = 0
      · simp only [drainLevel, if_neg hq, if_pos hr] at h ⊢
        exact ih _ h
      · simp only [drainLevel, if_neg hq, if_neg hr]
        simp only [not_le] at hq
        have : min inc.quantity r.quantity = inc.quantity := by omega
        simp [this]

/-- The ids of a drained level decompose into the removed ids followed by
the ids of the surviving queue, in order. -/
theorem drainLevel_ids (inc : Order) (p : ℚ) (l : Level) :
    l.map Order.order_id
      = (drainLevel inc p l).removed
        ++ (drainLevel inc p l).level.map Order.order_id := by
  induction l generalizing inc with
  | nil => simp [drainLevel]
  | cons r rest ih =>
    by_cases hq : inc.quantity ≤ 0
    · simp [drainLevel, hq]
    · by_cases hr : r.quantity - min inc.quantity r.quantity = 0
      · simp only [drainLevel, if_neg hq, if_pos hr, List.map_cons]
        rw [ih { inc with quantity := inc.quantity - min inc.quantity r.quantity }]
        simp
      · simp [drainLevel, hq, hr]

/-- Every surviving order of a drained level comes from the original level,
with only its quantity possibly changed. -/
theorem drainLevel_level_mem (inc : Order) (p : ℚ) (l : Level) :
    ∀ o' ∈ (drainLevel inc p l).level, ∃ o ∈ l,
      o'.order_id = o.order_id ∧ o'.side = o.side ∧ o'.price = o.price := by
  induction l generalizing inc with
  | nil => simp [drainLevel]
  | cons r rest ih =>
    by_cases hq : inc.quantity ≤ 0
    · simp only [drainLevel, if_pos hq]
      intro o' ho'
      exact ⟨o', ho', rfl, rfl, rfl⟩
    · by_cases hr : r.quantity - min inc.quantity r.quantity = 0
      · simp only [drainLevel, if_neg hq, if_pos hr]
        intro o' ho'
        obtain ⟨o, ho, h⟩ := ih _ o' ho'
        exact ⟨o, List.mem_cons_of_mem r ho, h⟩
      · simp only [drainLevel, if_neg hq, if_neg hr]
        intro o' ho'
        rcases List.mem_cons.mp ho' with rfl | hmem
        · exact ⟨r, List.mem_cons_self r rest, rfl, rfl, rfl⟩
        · exact ⟨o', List.mem_cons_of_mem r hmem, rfl, rfl, rfl⟩

/-- Surviving orders of a drained level keep a positive remaining quantity. -/
theorem drainLevel_level_pos (inc : Order) (p : ℚ) (l : Level)
    (hl : ∀ o ∈ l, 0 < o.quantity) :
    ∀ o' ∈ (drainLevel inc p l).level, 0 < o'.quantity := by
  induction l generalizing inc with
  | nil => simp [drainLevel]
  | cons r rest ih =>
    by_cases hq : inc.quantity ≤ 0
    · simp only [drainLevel, if_pos hq]
      exact hl
    · by_cases hr : r.quantity - min inc.quantity r.quantity = 0
      · simp only [drainLevel, if_neg hq, if_pos hr]
        exact ih _ fun o ho => hl o (List.mem_cons_of_mem r ho)
      · simp only [drainLevel, if_neg hq, if_neg hr]
        intro o' ho'
        rcases List.mem_cons.mp ho' with rfl | hmem
        · have h1 := hl r (List.mem_cons_self r rest)
          have hminle : min inc.quantity r.quantity ≤ r.quantity :=
            min_le_right inc.quantity r.quantity
          show 0 < r.quantity - min inc.quantity r.quantity
          omega
        · exact hl o' (List.mem_cons_of_mem r hmem)

/-! ## Lemmas about the heap scan -/

theorem scanPop_alive {bk : PriceMap} :
    ∀ {h : List ℚ} {p : ℚ} {hp : List ℚ},
      scanPop bk h = (some p, hp) → levelAlive bk p = true := by
  intro h
  induction h with
  | nil => intro p hp hc; simp [scanPop] at hc
  | cons q rest ih =>
    intro p hp heq
    by_cases halive : levelAlive bk q
    · simp [scanPop, halive] at heq
      rw [← heq.1]
      exact halive
    · simp [scanPop, halive] at heq
      exact ih heq

theorem scanPop_suffix {bk : PriceMap} :
    ∀ {h : List ℚ} {p : ℚ} {hp : List ℚ},
      scanPop bk h = (some p, hp) → (p :: hp).IsSuffix h := by
  intro h
  induction h with
  | nil => intro p hp hc; simp [scanPop] at hc
  | cons q rest ih =>
    intro p hp heq
    by_cases halive : levelAlive bk q
    · simp [scanPop, halive] at heq
      rw [heq.1, heq.2]
    · simp [scanPop, halive] at heq
      exact (ih heq).trans (List.suffix_cons q rest)

theorem scanPop_none {bk : PriceMap} :
    ∀ {h : List ℚ} {hp : List ℚ}, scanPop bk h = (none, hp) →
      hp = [] ∧ ∀ q ∈ h, levelAlive bk q = false := by
  intro h
  induction h with
  | nil =>
    intro hp heq
    simp only [scanPop] at heq
    injection heq with h1 h2
    subst h2
    exact ⟨rfl, by simp⟩
  | cons q rest ih =>
    intro hp heq
    by_cases halive : levelAlive bk q
    · simp [scanPop, halive] at heq
    · simp only [scanPop, halive, Bool.false_eq_true, if_false] at heq
      obtain ⟨h1, h2⟩ := ih heq
      refine ⟨h1, ?_⟩
      intro r hr
      rcases List.mem_cons.mp hr with rfl | hr'
      · simpa using halive
      · exact h2 r hr'

theorem scanPop_keeps_alive {bk : PriceMap} :
    ∀ {h : List ℚ} {p : ℚ} {hp : List ℚ},
      scanPop bk h = (some p, hp) →
      ∀ q ∈ h, levelAlive bk q = true → q ∈ p :: hp := by
  intro h
  induction h with
  | nil => intro p hp hc; simp [scanPop] at hc
  | cons r rest ih =>
    intro p hp heq q hq halive
    by_cases hr : levelAlive bk r
    · simp [scanPop, hr] at heq
      rcases List.mem_cons.mp hq with rfl | hq'
      · rw [← heq.1, ← heq.2]
        exact List.mem_cons_self q rest
      · rw [← heq.2]
        exact List.mem_cons_of_mem p hq'
    · simp [scanPop, hr] at heq
      rcases List.mem_cons.mp hq with rfl | hq'
      · rw [halive] at hr
        exact absurd rfl hr
      · exact ih heq q hq' halive

/-! ## Conservation through the matching loop -/

/-- The matching loop changes only the incoming order's quantity. -/
theorem matchLoop_incoming (fuel : Nat) (inc : Order) (opp : Side)
    (ob : OrderBook) :
    ∃ q, (matchLoop fuel inc opp ob).1 = { inc with quantity := q } := by
  induction fuel generalizing inc ob with
  | zero => exact ⟨inc.quantity, rfl⟩
  | succ fuel ih =>
    rw [matchLoop]
    by_cases hq : inc.quantity ≤ 0
    · exact ⟨inc.quantity, by simp [hq]⟩
    · rw [if_neg hq]
      split
      next hp heq => exact ⟨inc.quantity, rfl⟩
      next best_price hp heq =>
        by_cases hok : priceOk inc best_price
        · rw [if_neg (by simp [hok])]
          split
          next hfind => exact ih inc _
          next level hfind =>
            by_cases hemp : level.isEmpty
            · rw [if_pos hemp]
              exact ih inc _
            · rw [if_neg hemp]
              generalize hd : drainLevel inc best_price level = d
              obtain ⟨q₁, h₁⟩ := drainLevel_incoming inc best_price level
              rw [hd] at h₁
              by_cases hlvl : d.level.isEmpty
              · rw [if_pos hlvl, h₁]
                exact ih _ _
              · rw [if_neg hlvl]
                exact ⟨q₁, h₁⟩
        · exact ⟨inc.quantity, by simp [hok]⟩

/-- Conservation through the matching loop: the appended trades' total
quantity equals both the quantity removed from the incoming order and the
total quantity removed from the opposite side of the book. -/
theorem matchLoop_conservation (fuel : Nat) (inc : Order) (opp : Side)
    (ob : OrderBook) :
    ∃ new,
      (matchLoop fuel inc opp ob).2.trades = ob.trades ++ new ∧
      tradeQtySum new = inc.quantity - (matchLoop fuel inc opp ob).1.quantity ∧
      tradeQtySum new
        = bookTotal (ob.book opp) - bookTotal ((matchLoop fuel inc opp ob).2.book opp) := by
  induction fuel generalizing inc ob with
  | zero => exact ⟨[], by simp [matchLoop]⟩
  | succ fuel ih =>
    rw [matchLoop]
    by_cases hq : inc.quantity ≤ 0
    · exact ⟨[], by simp [hq]⟩
    · rw [if_neg hq]
      split
      next hp heq => exact ⟨[], by simp⟩
      next best_price hp heq =>
        by_cases hok : priceOk inc best_price
        · rw [if_neg (by simp [hok])]
          split
          next hfind => simpa using ih inc (ob.setHeap opp hp)
          next level hfind =>
            by_cases hemp : level.isEmpty
            · rw [if_pos hemp]
              simpa using ih inc (ob.setHeap opp hp)
            · rw [if_neg hemp]
              have hfind' : pmFind (ob.book opp) best_price = some level := by
                simpa using hfind
              generalize hd : drainLevel inc best_price level = d
              have hsum₁ : tradeQtySum d.trades = inc.quantity - d.incoming.quantity := by
                rw [← hd]; exact drainLevel_sum_incoming inc best_price level
              have hsum₂ : tradeQtySum d.trades
                  = sumLevelQuantity level - sumLevelQuantity d.level := by
                rw [← hd]; exact drainLevel_sum_level inc best_price level
              by_cases hlvl : d.level.isEmpty
              · rw [if_pos hlvl]
                obtain ⟨new', h1, h2, h3⟩ := ih d.incoming
                  ((eraseIds (appendTrades (ob.setHeap opp hp) d.trades) d.removed).setBook
                    opp (pmErase ((eraseIds (appendTrades (ob.setHeap opp hp) d.trades)
                      d.removed).book opp) best_price))
                refine ⟨d.trades ++ new', ?_, ?_, ?_⟩
                · rw [h1]; simp
                · rw [tradeQtySum_append, h2, hsum₁]; ring
                · rw [tradeQtySum_append, h3]
                  have hlvl' : d.level = [] := List.isEmpty_iff.mp hlvl
                  rw [hlvl'] at hsum₂
                  simp only [sumLevelQuantity_nil] at hsum₂
                  have herase : bookTotal (pmErase (ob.book opp) best_price)
                      = bookTotal (ob.book opp) - sumLevelQuantity level :=
                    bookTotal_pmErase hfind'
                  simp only [book_setBook_self, book_eraseIds, book_appendTrades,
                    book_setHeap, herase]
                  omega
              · rw [if_neg hlvl]
                refine ⟨d.trades, by simp, hsum₁, ?_⟩
                have hset : bookTotal (pmSet (ob.book opp) best_price d.level)
                    = bookTotal (ob.book opp) - sumLevelQuantity level
                      + sumLevelQuantity d.level :=
                  bookTotal_pmSet hfind' _
                simp only [book_pushPrice, book_setBook_self, book_eraseIds,
                  book_appendTrades, book_setHeap, hset]
                omega
        · exact ⟨[], by simp [hok]⟩

/-! ## Lemmas about the public operations -/

/-- Resting an order never touches the trade log. -/
theorem trades_addRestingOrder (o : Order) (ob : OrderBook) :
    (addRestingOrder o ob).trades = ob.trades := by
  rcases hp : o.price with _ | p
  · simp [addRestingOrder, hp]
  · rcases hfind : pmFind (ob.book o.side) p with _ | level <;>
      simp [addRestingOrder, hp, hfind]

/-- Resting an order never touches the other side's book. -/
theorem book_addRestingOrder_ne (o : Order) (ob : OrderBook) {s : Side}
    (h : o.side ≠ s) : (addRestingOrder o ob).book s = ob.book s := by
  rcases hp : o.price with _ | p
  · simp [addRestingOrder, hp]
  · rcases hfind : pmFind (ob.book o.side) p with _ | level <;>
      simp [addRestingOrder, hp, hfind, book_setBook_ne _ _ h]

@[simp]
theorem book_nextFreeId (ob : OrderBook) (s : Side) :
    (nextFreeId ob).2.book s = ob.book s := by
  cases s <;> rfl

@[simp]
theorem trades_nextFreeId (ob : OrderBook) :
    (nextFreeId ob).2.trades = ob.trades := rfl

@[simp]
theorem order_map_nextFreeId (ob : OrderBook) :
    (nextFreeId ob).2.order_map = ob.order_map := rfl

@[simp]
theorem heap_nextFreeId (ob : OrderBook) (s : Side) :
    (nextFreeId ob).2.heap s = ob.heap s := by
  cases s <;> rfl

/-! ## Well-formedness: prerequisites -/

theorem heap_setHeap_ne (ob : OrderBook) {s s' : Side} (hl : List ℚ)
    (h : s ≠ s') : (ob.setHeap s hl).heap s' = ob.heap s' := by
  cases s <;> cases s' <;> first | rfl | exact absurd rfl h

theorem levelAlive_of_find {bk : PriceMap} {p : ℚ} {l : Level}
    (hf : pmFind bk p = some l) (hne : l ≠ []) : levelAlive bk p = true := by
  simp [levelAlive, hf, List.isEmpty_iff, hne]

theorem levelAlive_elim {bk : PriceMap} {p : ℚ}
    (h : levelAlive bk p = true) : ∃ l, pmFind bk p = some l ∧ l ≠ [] := by
  rcases hf : pmFind bk p with _ | l
  · simp [levelAlive, hf] at h
  · refine ⟨l, rfl, ?_⟩
    simp [levelAlive, hf, List.isEmpty_iff] at h
    exact h

instance heapRelIsTotal (s : Side) : IsTotal ℚ (heapRel s) := by
  cases s
  · exact ⟨fun a b => le_total b a⟩
  · exact ⟨fun a b => le_total a b⟩

instance heapRelIsTrans (s : Side) : IsTrans ℚ (heapRel s) := by
  cases s
  · exact ⟨fun a b c hab hbc => le_trans hbc hab⟩
  · exact ⟨fun a b c hab hbc => le_trans hab hbc⟩

theorem sorted_scanPop_rest {s : Side} {bk : PriceMap} {h hp : List ℚ} {p : ℚ}
    (hs : List.Sorted (heapRel s) h) (heq : scanPop bk h = (some p, hp)) :
    List.Sorted (heapRel s) (p :: hp) :=
  hs.sublist (scanPop_suffix heq).sublist

theorem sorted_pushPrice {s : Side} {h : List ℚ}
    (hs : List.Sorted (heapRel s) h) (p : ℚ) :
    List.Sorted (heapRel s) (List.orderedInsert (heapRel s) p h) :=
  hs.orderedInsert p h

/-- Entries of one level carry pairwise distinct ids from entries of a
different level (side or price differ): immediate from the registry. -/
theorem cross_level_ne {ob : OrderBook} (hwf : WF ob) {s s' : Side} {p p' : ℚ}
    {l l' : Level} (hf : pmFind (ob.book s) p = some l)
    (hf' : pmFind (ob.book s') p' = some l') (hne : s ≠ s' ∨ p ≠ p') :
    ∀ o ∈ l, ∀ o' ∈ l', o.order_id ≠ o'.order_id := by
  intro o ho o' ho' hid
  have h1 := hwf.resting_reg s p l hf o ho
  have h2 := hwf.resting_reg s' p' l' hf' o' ho'
  rw [hid] at h1
  rw [h1] at h2
  have : s = s' ∧ p = p' := by
    have := Option.some.inj h2
    exact ⟨congrArg OrderInfo.side this, congrArg OrderInfo.price this⟩
  rcases hne with h | h
  · exact h this.1
  · exact h this.2

/-! ## Well-formedness through one matching iteration -/

@[simp]
theorem heap_pushPrice_self (p : ℚ) (s : Side) (ob : OrderBook) :
    (pushPrice p s ob).heap s = List.orderedInsert (heapRel s) p (ob.heap s) := by
  simp [pushPrice]

theorem heap_pushPrice_ne (p : ℚ) (s : Side) (ob : OrderBook) {s' : Side}
    (h : s ≠ s') : (pushPrice p s ob).heap s' = ob.heap s' := by
  simp [pushPrice, heap_setHeap_ne _ _ h]

theorem matchStep_erase_wf {ob : OrderBook} {opp : Side} {bp : ℚ}
    {hp : List ℚ} {level : Level} {inc : Order} {d : DrainResult}
    (hwf : WF ob) (hsp : scanPop (ob.book opp) (ob.heap opp) = (some bp, hp))
    (hfind : pmFind (ob.book opp) bp = some level)
    (hd : drainLevel inc bp level = d) (hlvl : d.level = []) :
    WF ((eraseIds (appendTrades (ob.setHeap opp hp) d.trades) d.removed).setBook
        opp (pmErase (ob.book opp) bp)) := by
  have hids : level.map Order.order_id
      = d.removed ++ d.level.map Order.order_id := by
    rw [← hd]; exact drainLevel_ids inc bp level
  have hall : level.map Order.order_id = d.removed := by
    rw [hids, hlvl]; simp
  constructor
  · -- heaps sorted
    intro s
    by_cases hs : s = opp
    · subst hs
      simp only [heap_setBook, heap_eraseIds, heap_appendTrades, heap_setHeap_self]
      exact (sorted_scanPop_rest (hwf.heaps_sorted s) hsp).of_cons
    · simp only [heap_setBook, heap_eraseIds, heap_appendTrades,
        heap_setHeap_ne _ _ (fun h => hs h.symm)]
      exact hwf.heaps_sorted s
  · -- no_empty
    intro s p l hf
    by_cases hs : s = opp
    · subst hs
      simp only [book_setBook_self] at hf
      by_cases hpq : p = bp
      · subst hpq
        rw [pmFind_pmErase_self (hwf.keys_nodup _)] at hf
        exact absurd hf (by simp)
      · rw [pmFind_pmErase_ne hpq] at hf
        exact hwf.no_empty _ _ _ hf
    · rw [book_setBook_ne _ _ (fun h => hs h.symm)] at hf
      simp only [book_eraseIds, book_appendTrades, book_setHeap] at hf
      exact hwf.no_empty _ _ _ hf
  · -- keys_nodup
    intro s
    by_cases hs : s = opp
    · subst hs
      simp only [book_setBook_self, book_eraseIds, book_appendTrades, book_setHeap]
      exact (hwf.keys_nodup s).sublist (pmErase_keys_sublist _ _)
    · rw [book_setBook_ne _ _ (fun h => hs h.symm)]
      simp only [book_eraseIds, book_appendTrades, book_setHeap]
      exact hwf.keys_nodup s
  · -- levels_wf
    intro s p l hf
    by_cases hs : s = opp
    · subst hs
      simp only [book_setBook_self, book_eraseIds, book_appendTrades, book_setHeap] at hf
      by_cases hpq : p = bp
      · subst hpq
        rw [pmFind_pmErase_self (hwf.keys_nodup _)] at hf
        exact absurd hf (by simp)
      · rw [pmFind_pmErase_ne hpq] at hf
        exact hwf.levels_wf _ _ _ hf
    · rw [book_setBook_ne _ _ (fun h => hs h.symm)] at hf
      simp only [book_eraseIds, book_appendTrades, book_setHeap] at hf
      exact hwf.levels_wf _ _ _ hf
  · -- heap_complete
    intro s p l hf
    by_cases hs : s = opp
    · subst hs
      simp only [book_setBook_self, book_eraseIds, book_appendTrades,
        book_setHeap] at hf
      simp only [heap_setBook, heap_eraseIds, heap_appendTrades, heap_setHeap_self]
      by_cases hpq : p = bp
      · subst hpq
        rw [pmFind_pmErase_self (hwf.keys_nodup _)] at hf
        exact absurd hf (by simp)
      · rw [pmFind_pmErase_ne hpq] at hf
        have hmem := hwf.heap_complete _ _ _ hf
        have halive := levelAlive_of_find hf (hwf.no_empty _ _ _ hf)
        have := scanPop_keeps_alive hsp p hmem halive
        rcases List.mem_cons.mp this with rfl | h
        · exact absurd rfl hpq
        · exact h
    · rw [book_setBook_ne _ _ (fun h => hs h.symm)] at hf
      simp only [book_eraseIds, book_appendTrades, book_setHeap] at hf
      simp only [heap_setBook, heap_eraseIds, heap_appendTrades,
        heap_setHeap_ne _ _ (fun h => hs h.symm)]
      exact hwf.heap_complete _ _ _ hf
  · -- reg_keys_nodup
    simp only [order_map_setBook, order_map_eraseIds, order_map_appendTrades,
      order_map_setHeap]
    exact hwf.reg_keys_nodup.sublist (removeIds_keys_sublist _ _)
  · -- reg_resting
    intro j info hf
    simp only [order_map_setBook, order_map_eraseIds, order_map_appendTrades,
      order_map_setHeap] at hf
    have hj : j ∉ d.removed := by
      intro hmem
      rw [idFind_removeIds_mem hwf.reg_keys_nodup hmem] at hf
      exact absurd hf (by simp)
    rw [idFind_removeIds_not_mem hj] at hf
    obtain ⟨l0, hl0, o, ho, hoid⟩ := hwf.reg_resting j info hf
    by_cases hcase : info.side = opp ∧ info.price = bp
    · exfalso
      obtain ⟨h1, h2⟩ := hcase
      rw [h1, h2, hfind] at hl0
      obtain rfl : level = l0 := Option.some.inj hl0
      apply hj
      rw [← hall]
      exact List.mem_map.mpr ⟨o, ho, hoid⟩
    · refine ⟨l0, ?_, o, ho, hoid⟩
      by_cases hside : info.side = opp
      · have hprice : info.price ≠ bp := fun h => hcase ⟨hside, h⟩
        rw [hside]
        simp only [book_setBook_self, book_eraseIds, book_appendTrades, book_setHeap]
        rw [pmFind_pmErase_ne hprice]
        rw [hside] at hl0
        exact hl0
      · rw [book_setBook_ne _ _ (fun h => hside h.symm)]
        simpa only [book_eraseIds, book_appendTrades, book_setHeap] using hl0
  · -- resting_reg
    intro s p l hf o ho
    simp only [order_map_setBook, order_map_eraseIds, order_map_appendTrades,
      order_map_setHeap]
    by_cases hs : s = opp
    · subst hs
      simp only [book_setBook_self, book_eraseIds, book_appendTrades,
        book_setHeap] at hf
      by_cases hpq : p = bp
      · subst hpq
        rw [pmFind_pmErase_self (hwf.keys_nodup _)] at hf
        exact absurd hf (by simp)
      · rw [pmFind_pmErase_ne hpq] at hf
        have hreg := hwf.resting_reg _ _ _ hf o ho
        have hnot : o.order_id ∉ d.removed := by
          intro hmem
          rw [← hall] at hmem
          obtain ⟨o'', ho'', hoid''⟩ := List.mem_map.mp hmem
          exact cross_level_ne hwf hf hfind (Or.inr hpq) o ho o'' ho'' hoid''.symm
        rw [idFind_removeIds_not_mem hnot]
        exact hreg
    · rw [book_setBook_ne _ _ (fun h => hs h.symm)] at hf
      simp only [book_eraseIds, book_appendTrades, book_setHeap] at hf
      have hreg := hwf.resting_reg _ _ _ hf o ho
      have hnot : o.order_id ∉ d.removed := by
        intro hmem
        rw [← hall] at hmem
        obtain ⟨o'', ho'', hoid''⟩ := List.mem_map.mp hmem
        exact cross_level_ne hwf hf hfind (Or.inl hs) o ho o'' ho'' hoid''.symm
      rw [idFind_removeIds_not_mem hnot]
      exact hreg
  · -- level_ids_nodup
    intro s p l hf
    by_cases hs : s = opp
    · subst hs
      simp only [book_setBook_self, book_eraseIds, book_appendTrades,
        book_setHeap] at hf
      by_cases hpq : p = bp
      · subst hpq
        rw [pmFind_pmErase_self (hwf.keys_nodup _)] at hf
        exact absurd hf (by simp)
      · rw [pmFind_pmErase_ne hpq] at hf
        exact hwf.level_ids_nodup _ _ _ hf
    · rw [book_setBook_ne _ _ (fun h => hs h.symm)] at hf
      simp only [book_eraseIds, book_appendTrades, book_setHeap] at hf
      exact hwf.level_ids_nodup _ _ _ hf

theorem matchStep_set_wf {ob : OrderBook} {opp : Side} {bp : ℚ}
    {hp : List ℚ} {level : Level} {inc : Order} {d : DrainResult}
    (hwf : WF ob) (hsp : scanPop (ob.book opp) (ob.heap opp) = (some bp, hp))
    (hfind : pmFind (ob.book opp) bp = some level)
    (hd : drainLevel inc bp level = d) (hlvl : d.level ≠ []) :
    WF (pushPrice bp opp
      ((eraseIds (appendTrades (ob.setHeap opp hp) d.trades) d.removed).setBook
        opp (pmSet (ob.book opp) bp d.level))) := by
  have hids : level.map Order.order_id
      = d.removed ++ d.level.map Order.order_id := by
    rw [← hd]; exact drainLevel_ids inc bp level
  have hnd : (d.removed ++ d.level.map Order.order_id).Nodup := by
    rw [← hids]; exact hwf.level_ids_nodup _ _ _ hfind
  have hdisj : ∀ j ∈ d.level.map Order.order_id, j ∉ d.removed := by
    intro j hj hrem
    exact (List.disjoint_of_nodup_append hnd) hrem hj
  have hremsub : ∀ j ∈ d.removed, j ∈ level.map Order.order_id := by
    intro j hj
    rw [hids]
    exact List.mem_append_left _ hj
  constructor
  · -- heaps sorted
    intro s
    by_cases hs : s = opp
    · subst hs
      rw [heap_pushPrice_self]
      simp only [heap_setBook, heap_eraseIds, heap_appendTrades, heap_setHeap_self]
      exact sorted_pushPrice (sorted_scanPop_rest (hwf.heaps_sorted s) hsp).of_cons bp
    · rw [heap_pushPrice_ne _ _ _ (fun h => hs h.symm)]
      simp only [heap_setBook, heap_eraseIds, heap_appendTrades,
        heap_setHeap_ne _ _ (fun h => hs h.symm)]
      exact hwf.heaps_sorted s
  · -- no_empty
    intro s p l hf
    rw [book_pushPrice] at hf
    by_cases hs : s = opp
    · subst hs
      simp only [book_setBook_self] at hf
      by_cases hpq : p = bp
      · subst hpq
        rw [pmFind_pmSet_self hfind] at hf
        obtain rfl : d.level = l := Option.some.inj hf
        exact hlvl
      · rw [pmFind_pmSet_ne _ hpq] at hf
        exact hwf.no_empty _ _ _ hf
    · rw [book_setBook_ne _ _ (fun h => hs h.symm)] at hf
      simp only [book_eraseIds, book_appendTrades, book_setHeap] at hf
      exact hwf.no_empty _ _ _ hf
  · -- keys_nodup
    intro s
    rw [book_pushPrice]
    by_cases hs : s = opp
    · subst hs
      simp only [book_setBook_self]
      rw [pmSet_keys]
      exact hwf.keys_nodup s
    · rw [book_setBook_ne _ _ (fun h => hs h.symm)]
      simp only [book_eraseIds, book_appendTrades, book_setHeap]
      exact hwf.keys_nodup s
  · -- levels_wf
    intro s p l hf
    rw [book_pushPrice] at hf
    by_cases hs : s = opp
    · subst hs
      simp only [book_setBook_self] at hf
      by_cases hpq : p = bp
      · subst hpq
        rw [pmFind_pmSet_self hfind] at hf
        obtain rfl : d.level = l := Option.some.inj hf
        intro o' ho'
        rw [← hd] at ho'
        obtain ⟨o, ho, hid, hside, hprice⟩ :=
          drainLevel_level_mem inc p level o' ho'
        obtain ⟨h1, h2, h3⟩ := hwf.levels_wf _ _ _ hfind o ho
        refine ⟨hside.trans h1, hprice.trans h2, ?_⟩
        exact drainLevel_level_pos inc p level
          (fun oo hol => (hwf.levels_wf _ _ _ hfind oo hol).2.2) o' ho'
      · rw [pmFind_pmSet_ne _ hpq] at hf
        exact hwf.levels_wf _ _ _ hf
    · rw [book_setBook_ne _ _ (fun h => hs h.symm)] at hf
      simp only [book_eraseIds, book_appendTrades, book_setHeap] at hf
      exact hwf.levels_wf _ _ _ hf
  · -- heap_complete
    intro s p l hf
    rw [book_pushPrice] at hf
    by_cases hs : s = opp
    · subst hs
      simp only [book_setBook_self] at hf
      rw [heap_pushPrice_self]
      simp only [heap_setBook, heap_eraseIds, heap_appendTrades, heap_setHeap_self]
      by_cases hpq : p = bp
      · subst hpq
        rw [List.mem_orderedInsert]
        exact Or.inl rfl
      · rw [pmFind_pmSet_ne _ hpq] at hf
        have hmem := hwf.heap_complete _ _ _ hf
        have halive := levelAlive_of_find hf (hwf.no_empty _ _ _ hf)
        have hkeep := scanPop_keeps_alive hsp p hmem halive
        rw [List.mem_orderedInsert]
        rcases List.mem_cons.mp hkeep with rfl | h
        · exact absurd rfl hpq
        · exact Or.inr h
    · rw [book_setBook_ne _ _ (fun h => hs h.symm)] at hf
      simp only [book_eraseIds, book_appendTrades, book_setHeap] at hf
      rw [heap_pushPrice_ne _ _ _ (fun h => hs h.symm)]
      simp only [heap_setBook, heap_eraseIds, heap_appendTrades,
        heap_setHeap_ne _ _ (fun h => hs h.symm)]
      exact hwf.heap_complete _ _ _ hf
  · -- reg_keys_nodup
    simp only [order_map_pushPrice, order_map_setBook, order_map_eraseIds,
      order_map_appendTrades, order_map_setHeap]
    exact hwf.reg_keys_nodup.sublist (removeIds_keys_sublist _ _)
  · -- reg_resting
    intro j info hf
    simp only [order_map_pushPrice, order_map_setBook, order_map_eraseIds,
      order_map_appendTrades, order_map_setHeap] at hf
    have hj : j ∉ d.removed := by
      intro hmem
      rw [idFind_removeIds_mem hwf.reg_keys_nodup hmem] at hf
      exact absurd hf (by simp)
    rw [idFind_removeIds_not_mem hj] at hf
    obtain ⟨l0, hl0, o, ho, hoid⟩ := hwf.reg_resting j info hf
    by_cases hcase : info.side = opp ∧ info.price = bp
    · obtain ⟨h1, h2⟩ := hcase
      rw [h1, h2, hfind] at hl0
      obtain rfl : level = l0 := Option.some.inj hl0
      have hjid : j ∈ level.map Order.order_id :=
        List.mem_map.mpr ⟨o, ho, hoid⟩
      rw [hids] at hjid
      rcases List.mem_append.mp hjid with hrem | hnew
      · exact absurd hrem hj
      · obtain ⟨o', ho', hoid'⟩ := List.mem_map.mp hnew
        refine ⟨d.level, ?_, o', ho', hoid'⟩
        rw [h1, h2, book_pushPrice, book_setBook_self]
        exact pmFind_pmSet_self hfind d.level
    · refine ⟨l0, ?_, o, ho, hoid⟩
      rw [book_pushPrice]
      by_cases hside : info.side = opp
      · have hprice : info.price ≠ bp := fun h => hcase ⟨hside, h⟩
        rw [hside]
        simp only [book_setBook_self]
        rw [pmFind_pmSet_ne _ hprice]
        rw [hside] at hl0
        exact hl0
      · rw [book_setBook_ne _ _ (fun h => hside h.symm)]
        simpa only [book_eraseIds, book_appendTrades, book_setHeap] using hl0
  · -- resting_reg
    intro s p l hf o ho
    simp only [order_map_pushPrice, order_map_setBook, order_map_eraseIds,
      order_map_appendTrades, order_map_setHeap]
    rw [book_pushPrice] at hf
    by_cases hs : s = opp
    · subst hs
      simp only [book_setBook_self] at hf
      by_cases hpq : p = bp
      · subst hpq
        rw [pmFind_pmSet_self hfind] at hf
        obtain rfl : d.level = l := Option.some.inj hf
        have ho2 := ho
        rw [← hd] at ho2
        obtain ⟨o0, ho0, hid0, _, _⟩ := drainLevel_level_mem inc p level o ho2
        have hreg := hwf.resting_reg _ _ _ hfind o0 ho0
        have hnot : o.order_id ∉ d.removed :=
          hdisj o.order_id (List.mem_map.mpr ⟨o, ho, rfl⟩)
        rw [idFind_removeIds_not_mem hnot, hid0]
        exact hreg
      · rw [pmFind_pmSet_ne _ hpq] at hf
        have hreg := hwf.resting_reg _ _ _ hf o ho
        have hnot : o.order_id ∉ d.removed := by
          intro hmem
          obtain ⟨o'', ho'', hoid''⟩ := List.mem_map.mp (hremsub _ hmem)
          exact cross_level_ne hwf hf hfind (Or.inr hpq) o ho o'' ho'' hoid''.symm
        rw [idFind_removeIds_not_mem hnot]
        exact hreg
    · rw [book_setBook_ne _ _ (fun h => hs h.symm)] at hf
      simp only [book_eraseIds, book_appendTrades, book_setHeap] at hf
      have hreg := hwf.resting_reg _ _ _ hf o ho
      have hnot : o.order_id ∉ d.removed := by
        intro hmem
        obtain ⟨o'', ho'', hoid''⟩ := List.mem_map.mp (hremsub _ hmem)
        exact cross_level_ne hwf hf hfind (Or.inl hs) o ho o'' ho'' hoid''.symm
      rw [idFind_removeIds_not_mem hnot]
      exact hreg
  · -- level_ids_nodup
    intro s p l hf
    rw [book_pushPrice] at hf
    by_cases hs : s = opp
    · subst hs
      simp only [book_setBook_self] at hf
      by_cases hpq : p = bp
      · subst hpq
        rw [pmFind_pmSet_self hfind] at hf
        obtain rfl : d.level = l := Option.some.inj hf
        exact hnd.of_append_right
      · rw [pmFind_pmSet_ne _ hpq] at hf
        exact hwf.level_ids_nodup _ _ _ hf
    · rw [book_setBook_ne _ _ (fun h => hs h.symm)] at hf
      simp only [book_eraseIds, book_appendTrades, book_setHeap] at hf
      exact hwf.level_ids_nodup _ _ _ hf

theorem matchStep_pushback_wf {ob : OrderBook} {opp : Side} {bp : ℚ}
    {hp : List ℚ} (hwf : WF ob)
    (hsp : scanPop (ob.book opp) (ob.heap opp) = (some bp, hp)) :
    WF (pushPrice bp opp (ob.setHeap opp hp)) := by
  constructor
  · intro s
    by_cases hs : s = opp
    · subst hs
      rw [heap_pushPrice_self, heap_setHeap_self]
      exact sorted_pushPrice (sorted_scanPop_rest (hwf.heaps_sorted s) hsp).of_cons bp
    · rw [heap_pushPrice_ne _ _ _ (fun h => hs h.symm),
        heap_setHeap_ne _ _ (fun h => hs h.symm)]
      exact hwf.heaps_sorted s
  · intro s p l hf
    rw [book_pushPrice, book_setHeap] at hf
    exact hwf.no_empty _ _ _ hf
  · intro s
    rw [book_pushPrice, book_setHeap]
    exact hwf.keys_nodup s
  · intro s p l hf
    rw [book_pushPrice, book_setHeap] at hf
    exact hwf.levels_wf _ _ _ hf
  · intro s p l hf
    rw [book_pushPrice, book_setHeap] at hf
    by_cases hs : s = opp
    · subst hs
      rw [heap_pushPrice_self, heap_setHeap_self, List.mem_orderedInsert]
      have hmem := hwf.heap_complete _ _ _ hf
      have halive := levelAlive_of_find hf (hwf.no_empty _ _ _ hf)
      rcases List.mem_cons.mp (scanPop_keeps_alive hsp p hmem halive) with rfl | h
      · exact Or.inl rfl
      · exact Or.inr h
    · rw [heap_pushPrice_ne _ _ _ (fun h => hs h.symm),
        heap_setHeap_ne _ _ (fun h => hs h.symm)]
      exact hwf.heap_complete _ _ _ hf
  · simp only [order_map_pushPrice, order_map_setHeap]
    exact hwf.reg_keys_nodup
  · intro j info hf
    simp only [order_map_pushPrice, order_map_setHeap] at hf
    obtain ⟨l0, hl0, hx⟩ := hwf.reg_resting j info hf
    exact ⟨l0, by rw [book_pushPrice, book_setHeap]; exact hl0, hx⟩
  · intro s p l hf o ho
    rw [book_pushPrice, book_setHeap] at hf
    simp only [order_map_pushPrice, order_map_setHeap]
    exact hwf.resting_reg _ _ _ hf o ho
  · intro s p l hf
    rw [book_pushPrice, book_setHeap] at hf
    exact hwf.level_ids_nodup _ _ _ hf

theorem matchStep_exhaust_wf {ob : OrderBook} {opp : Side} {hp : List ℚ}
    (hwf : WF ob)
    (hsp : scanPop (ob.book opp) (ob.heap opp) = (none, hp)) :
    WF (ob.setHeap opp hp) := by
  obtain ⟨rfl, hstale⟩ := scanPop_none hsp
  constructor
  · intro s
    by_cases hs : s = opp
    · subst hs
      rw [heap_setHeap_self]
      exact List.sorted_nil
    · rw [heap_setHeap_ne _ _ (fun h => hs h.symm)]
      exact hwf.heaps_sorted s
  · intro s p l hf
    rw [book_setHeap] at hf
    exact hwf.no_empty _ _ _ hf
  · intro s
    rw [book_setHeap]
    exact hwf.keys_nodup s
  · intro s p l hf
    rw [book_setHeap] at hf
    exact hwf.levels_wf _ _ _ hf
  · intro s p l hf
    rw [book_setHeap] at hf
    by_cases hs : s = opp
    · subst hs
      exfalso
      have halive := levelAlive_of_find hf (hwf.no_empty _ _ _ hf)
      have := hstale p (hwf.heap_complete _ _ _ hf)
      rw [halive] at this
      simp at this
    · rw [heap_setHeap_ne _ _ (fun h => hs h.symm)]
      exact hwf.heap_complete _ _ _ hf
  · simp only [order_map_setHeap]
    exact hwf.reg_keys_nodup
  · intro j info hf
    simp only [order_map_setHeap] at hf
    obtain ⟨l0, hl0, hx⟩ := hwf.reg_resting j info hf
    exact ⟨l0, by rw [book_setHeap]; exact hl0, hx⟩
  · intro s p l hf o ho
    rw [book_setHeap] at hf
    simp only [order_map_setHeap]
    exact hwf.resting_reg _ _ _ hf o ho
  · intro s p l hf
    rw [book_setHeap] at hf
    exact hwf.level_ids_nodup _ _ _ hf

/-- The matching loop preserves every book invariant. -/
theorem matchLoop_wf (fuel : Nat) (inc : Order) (opp : Side) (ob : OrderBook)
    (hwf : WF ob) : WF (matchLoop fuel inc opp ob).2 := by
  induction fuel generalizing inc ob with
  | zero => exact hwf
  | succ fuel ih =>
    rw [matchLoop]
    by_cases hq : inc.quantity ≤ 0
    · rw [if_pos hq]
      exact hwf
    · rw [if_neg hq]
      split
      next hp heq => exact matchStep_exhaust_wf hwf heq
      next best_price hp heq =>
        by_cases hok : priceOk inc best_price
        · rw [if_neg (by simp [hok])]
          split
          next hfind =>
            exfalso
            obtain ⟨l, hl, -⟩ := levelAlive_elim (scanPop_alive heq)
            rw [book_setHeap] at hfind
            rw [hl] at hfind
            exact Option.noConfusion hfind
          next level hfind =>
            rw [book_setHeap] at hfind
            by_cases hemp : level.isEmpty
            · exfalso
              obtain ⟨l, hl, hlne⟩ := levelAlive_elim (scanPop_alive heq)
              rw [hl] at hfind
              obtain rfl : l = level := Option.some.inj hfind
              exact hlne (List.isEmpty_iff.mp hemp)
            · rw [if_neg hemp]
              generalize hd : drainLevel inc best_price level = d
              by_cases hlvl : d.level.isEmpty
              · rw [if_pos hlvl]
                simp only [book_eraseIds, book_appendTrades, book_setHeap]
                exact ih _ _ (matchStep_erase_wf hwf heq hfind hd
                  (List.isEmpty_iff.mp hlvl))
              · rw [if_neg hlvl]
                simp only [book_eraseIds, book_appendTrades, book_setHeap]
                exact matchStep_set_wf hwf heq hfind hd
                  (fun h => hlvl (List.isEmpty_iff.mpr h))
        · rw [if_pos (by simp [hok])]
          exact matchStep_pushback_wf hwf heq

/-- The matching loop only erases registry entries: an id absent before
stays absent. -/
theorem matchLoop_registry_none (fuel : Nat) (inc : Order) (opp : Side)
    (ob : OrderBook) {j : Int} (hn : (ob.order_map.map Prod.fst).Nodup)
    (h : idFind ob.order_map j = none) :
    idFind (matchLoop fuel inc opp ob).2.order_map j = none := by
  induction fuel generalizing inc ob with
  | zero => exact h
  | succ fuel ih =>
    rw [matchLoop]
    by_cases hq : inc.quantity ≤ 0
    · rw [if_pos hq]; exact h
    · rw [if_neg hq]
      split
      next hp heq => simpa using h
      next best_price hp heq =>
        by_cases hok : priceOk inc best_price
        · rw [if_neg (by simp [hok])]
          split
          next hfind => exact ih _ _ (by simpa using hn) (by simpa using h)
          next level hfind =>
            by_cases hemp : level.isEmpty
            · rw [if_pos hemp]
              exact ih _ _ (by simpa using hn) (by simpa using h)
            · rw [if_neg hemp]
              generalize hd : drainLevel inc best_price level = d
              have hrem : idFind (removeIds ob.order_map d.removed) j = none := by
                by_cases hmem : j ∈ d.removed
                · exact idFind_removeIds_mem hn hmem
                · rw [idFind_removeIds_not_mem hmem]; exact h
              have hn' : ((removeIds ob.order_map d.removed).map Prod.fst).Nodup :=
                hn.sublist (removeIds_keys_sublist _ _)
              by_cases hlvl : d.level.isEmpty
              · rw [if_pos hlvl]
                exact ih _ _ (by simpa using hn') (by simpa using hrem)
              · rw [if_neg hlvl]
                simpa using hrem
        · rw [if_pos (by simp [hok])]
          simpa using h

/-- Resting a fresh, positive-quantity limit order preserves the invariants. -/
theorem addRestingOrder_wf {ob : OrderBook} {o : Order} (p : ℚ)
    (hwf : WF ob) (hp : o.price = some p) (hqty : 0 < o.quantity)
    (hfresh : idFind ob.order_map o.order_id = none) :
    WF (addRestingOrder o ob) := by
  have hnotrest : ∀ s q l', pmFind (ob.book s) q = some l' →
      ∀ o' ∈ l', o'.order_id ≠ o.order_id := by
    intro s q l' hf o' ho' hc
    have := hwf.resting_reg s q l' hf o' ho'
    rw [hc, hfresh] at this
    exact Option.noConfusion this
  have heqn : pmFind (ob.book o.side) p = none →
      addRestingOrder o ob = registerOrder (pushPrice p o.side
        (ob.setBook o.side ((p, [o]) :: ob.book o.side))) o.order_id ⟨o.side, p⟩ := by
    intro h
    simp [addRestingOrder, hp, h]
  have heqs : ∀ level, pmFind (ob.book o.side) p = some level →
      addRestingOrder o ob = registerOrder (ob.setBook o.side
        (pmSet (ob.book o.side) p (level ++ [o]))) o.order_id ⟨o.side, p⟩ := by
    intro level h
    simp [addRestingOrder, hp, h]
  rcases hfind : pmFind (ob.book o.side) p with _ | level
  · rw [heqn hfind]
    constructor
    · intro s
      by_cases hs : s = o.side
      · subst hs
        rw [heap_registerOrder, heap_pushPrice_self, heap_setBook]
        exact sorted_pushPrice (hwf.heaps_sorted _) p
      · rw [heap_registerOrder, heap_pushPrice_ne _ _ _ (fun h => hs h.symm),
          heap_setBook]
        exact hwf.heaps_sorted s
    · intro s q l hf
      rw [book_registerOrder, book_pushPrice] at hf
      by_cases hs : s = o.side
      · subst hs
        rw [book_setBook_self] at hf
        rw [pmFind] at hf
        by_cases hq' : p = q
        · rw [if_pos hq'] at hf
          obtain rfl : [o] = l := Option.some.inj hf
          simp
        · rw [if_neg hq'] at hf
          exact hwf.no_empty _ _ _ hf
      · rw [book_setBook_ne _ _ (fun h => hs h.symm)] at hf
        exact hwf.no_empty _ _ _ hf
    · intro s
      rw [book_registerOrder, book_pushPrice]
      by_cases hs : s = o.side
      · subst hs
        rw [book_setBook_self, List.map_cons]
        exact List.Nodup.cons (pmFind_eq_none_iff.mp hfind) (hwf.keys_nodup _)
      · rw [book_setBook_ne _ _ (fun h => hs h.symm)]
        exact hwf.keys_nodup s
    · intro s q l hf
      rw [book_registerOrder, book_pushPrice] at hf
      by_cases hs : s = o.side
      · subst hs
        rw [book_setBook_self, pmFind] at hf
        by_cases hq' : p = q
        · rw [if_pos hq'] at hf
          obtain rfl : [o] = l := Option.some.inj hf
          intro o' ho'
          obtain rfl : o' = o := by simpa using ho'
          exact ⟨rfl, hq' ▸ hp, hqty⟩
        · rw [if_neg hq'] at hf
          exact hwf.levels_wf _ _ _ hf
      · rw [book_setBook_ne _ _ (fun h => hs h.symm)] at hf
        exact hwf.levels_wf _ _ _ hf
    · intro s q l hf
      rw [book_registerOrder, book_pushPrice] at hf
      by_cases hs : s = o.side
      · subst hs
        rw [book_setBook_self, pmFind] at hf
        rw [heap_registerOrder, heap_pushPrice_self, heap_setBook,
          List.mem_orderedInsert]
        by_cases hq' : p = q
        · exact Or.inl hq'.symm
        · rw [if_neg hq'] at hf
          exact Or.inr (hwf.heap_complete _ _ _ hf)
      · rw [book_setBook_ne _ _ (fun h => hs h.symm)] at hf
        rw [heap_registerOrder, heap_pushPrice_ne _ _ _ (fun h => hs h.symm),
          heap_setBook]
        exact hwf.heap_complete _ _ _ hf
    · rw [order_map_registerOrder, order_map_pushPrice, order_map_setBook,
        List.map_cons]
      exact List.Nodup.cons (idFind_eq_none_iff.mp hfresh) hwf.reg_keys_nodup
    · intro j info hf
      rw [order_map_registerOrder, order_map_pushPrice, order_map_setBook,
        idFind] at hf
      by_cases hj : o.order_id = j
      · rw [if_pos hj] at hf
        obtain rfl : (⟨o.side, p⟩ : OrderInfo) = info := Option.some.inj hf
        refine ⟨[o], ?_, o, List.mem_cons_self o [], hj⟩
        rw [book_registerOrder, book_pushPrice, book_setBook_self, pmFind,
          if_pos rfl]
      · rw [if_neg hj] at hf
        obtain ⟨l0, hl0, o', ho', hoid⟩ := hwf.reg_resting j info hf
        refine ⟨l0, ?_, o', ho', hoid⟩
        rw [book_registerOrder, book_pushPrice]
        by_cases hs : info.side = o.side
        · rw [hs, book_setBook_self, pmFind]
          by_cases hq' : p = info.price
          · exfalso
            have h2 := hl0
            rw [← hq', hs] at h2
            rw [hfind] at h2
            exact Option.noConfusion h2
          · rw [if_neg hq']
            rw [hs] at hl0
            exact hl0
        · rw [book_setBook_ne _ _ (fun h => hs h.symm)]
          exact hl0
    · intro s q l hf o' ho'
      rw [order_map_registerOrder, order_map_pushPrice, order_map_setBook, idFind]
      rw [book_registerOrder, book_pushPrice] at hf
      by_cases hs : s = o.side
      · subst hs
        rw [book_setBook_self, pmFind] at hf
        by_cases hq' : p = q
        · rw [if_pos hq'] at hf
          obtain rfl : [o] = l := Option.some.inj hf
          obtain rfl : o' = o := by simpa using ho'
          rw [if_pos rfl, hq']
        · rw [if_neg hq'] at hf
          rw [if_neg (fun h => hnotrest _ _ _ hf o' ho' h.symm)]
          exact hwf.resting_reg _ _ _ hf o' ho'
      · rw [book_setBook_ne _ _ (fun h => hs h.symm)] at hf
        rw [if_neg (fun h => hnotrest _ _ _ hf o' ho' h.symm)]
        exact hwf.resting_reg _ _ _ hf o' ho'
    · intro s q l hf
      rw [book_registerOrder, book_pushPrice] at hf
      by_cases hs : s = o.side
      · subst hs
        rw [book_setBook_self, pmFind] at hf
        by_cases hq' : p = q
        · rw [if_pos hq'] at hf
          obtain rfl : [o] = l := Option.some.inj hf
          simp
        · rw [if_neg hq'] at hf
          exact hwf.level_ids_nodup _ _ _ hf
      · rw [book_setBook_ne _ _ (fun h => hs h.symm)] at hf
        exact hwf.level_ids_nodup _ _ _ hf
  · rw [heqs level hfind]
    constructor
    · intro s
      rw [heap_registerOrder, heap_setBook]
      exact hwf.heaps_sorted s
    · intro s q l hf
      rw [book_registerOrder] at hf
      by_cases hs : s = o.side
      · subst hs
        rw [book_setBook_self] at hf
        by_cases hq' : q = p
        · subst hq'
          rw [pmFind_pmSet_self hfind] at hf
          obtain rfl : level ++ [o] = l := Option.some.inj hf
          simp
        · rw [pmFind_pmSet_ne _ hq'] at hf
          exact hwf.no_empty _ _ _ hf
      · rw [book_setBook_ne _ _ (fun h => hs h.symm)] at hf
        exact hwf.no_empty _ _ _ hf
    · intro s
      rw [book_registerOrder]
      by_cases hs : s = o.side
      · subst hs
        rw [book_setBook_self, pmSet_keys]
        exact hwf.keys_nodup _
      · rw [book_setBook_ne _ _ (fun h => hs h.symm)]
        exact hwf.keys_nodup s
    · intro s q l hf
      rw [book_registerOrder] at hf
      by_cases hs : s = o.side
      · subst hs
        rw [book_setBook_self] at hf
        by_cases hq' : q = p
        · subst hq'
          rw [pmFind_pmSet_self hfind] at hf
          obtain rfl : level ++ [o] = l := Option.some.inj hf
          intro o' ho'
          rcases List.mem_append.mp ho' with hmem | hmem
          · exact hwf.levels_wf _ _ _ hfind o' hmem
          · obtain rfl : o' = o := by simpa using hmem
            exact ⟨rfl, hp, hqty⟩
        · rw [pmFind_pmSet_ne _ hq'] at hf
          exact hwf.levels_wf _ _ _ hf
      · rw [book_setBook_ne _ _ (fun h => hs h.symm)] at hf
        exact hwf.levels_wf _ _ _ hf
    · intro s q l hf
      rw [book_registerOrder] at hf
      rw [heap_registerOrder, heap_setBook]
      by_cases hs : s = o.side
      · subst hs
        rw [book_setBook_self] at hf
        by_cases hq' : q = p
        · subst hq'
          exact hwf.heap_complete _ _ _ hfind
        · rw [pmFind_pmSet_ne _ hq'] at hf
          exact hwf.heap_complete _ _ _ hf
      · rw [book_setBook_ne _ _ (fun h => hs h.symm)] at hf
        exact hwf.heap_complete _ _ _ hf
    · rw [order_map_registerOrder, order_map_setBook, List.map_cons]
      exact List.Nodup.cons (idFind_eq_none_iff.mp hfresh) hwf.reg_keys_nodup
    · intro j info hf
      rw [order_map_registerOrder, order_map_setBook, idFind] at hf
      by_cases hj : o.order_id = j
      · rw [if_pos hj] at hf
        obtain rfl : (⟨o.side, p⟩ : OrderInfo) = info := Option.some.inj hf
        refine ⟨level ++ [o], ?_, o, List.mem_append_right level
          (List.mem_cons_self o []), hj⟩
        rw [book_registerOrder, book_setBook_self]
        exact pmFind_pmSet_self hfind _
      · rw [if_neg hj] at hf
        obtain ⟨l0, hl0, o', ho', hoid⟩ := hwf.reg_resting j info hf
        rw [book_registerOrder]
        by_cases hs : info.side = o.side
        · by_cases hq' : info.price = p
          · rw [hs, hq'] at hl0
            rw [hfind] at hl0
            obtain rfl : level = l0 := Option.some.inj hl0
            refine ⟨level ++ [o], ?_, o', List.mem_append_left _ ho', hoid⟩
            rw [hs, hq', book_setBook_self]
            exact pmFind_pmSet_self hfind _
          · refine ⟨l0, ?_, o', ho', hoid⟩
            rw [hs, book_setBook_self, pmFind_pmSet_ne _ hq']
            rw [hs] at hl0
            exact hl0
        · refine ⟨l0, ?_, o', ho', hoid⟩
          rw [book_setBook_ne _ _ (fun h => hs h.symm)]
          exact hl0
    · intro s q l hf o' ho'
      rw [order_map_registerOrder, order_map_setBook, idFind]
      rw [book_registerOrder] at hf
      by_cases hs : s = o.side
      · subst hs
        rw [book_setBook_self] at hf
        by_cases hq' : q = p
        · subst hq'
          rw [pmFind_pmSet_self hfind] at hf
          obtain rfl : level ++ [o] = l := Option.some.inj hf
          rcases List.mem_append.mp ho' with hmem | hmem
          · rw [if_neg (fun h => hnotrest _ _ _ hfind o' hmem h.symm)]
            exact hwf.resting_reg _ _ _ hfind o' hmem
          · obtain rfl : o' = o := by simpa using hmem
            rw [if_pos rfl]
        · rw [pmFind_pmSet_ne _ hq'] at hf
          rw [if_neg (fun h => hnotrest _ _ _ hf o' ho' h.symm)]
          exact hwf.resting_reg _ _ _ hf o' ho'
      · rw [book_setBook_ne _ _ (fun h => hs h.symm)] at hf
        rw [if_neg (fun h => hnotrest _ _ _ hf o' ho' h.symm)]
        exact hwf.resting_reg _ _ _ hf o' ho'
    · intro s q l hf
      rw [book_registerOrder] at hf
      by_cases hs : s = o.side
      · subst hs
        rw [book_setBook_self] at hf
        by_cases hq' : q = p
        · subst hq'
          rw [pmFind_pmSet_self hfind] at hf
          obtain rfl : level ++ [o] = l := Option.some.inj hf
          rw [List.map_append]
          rw [List.nodup_append]
          refine ⟨hwf.level_ids_nodup _ _ _ hfind, List.nodup_singleton _, ?_⟩
          intro j hj
          obtain ⟨o', ho', hoid⟩ := List.mem_map.mp hj
          simp only [List.map_cons, List.map_nil, List.mem_singleton]
          intro hc
          exact hnotrest _ _ _ hfind o' ho' (hoid.symm ▸ hc)
        · rw [pmFind_pmSet_ne _ hq'] at hf
          exact hwf.level_ids_nodup _ _ _ hf
      · rw [book_setBook_ne _ _ (fun h => hs h.symm)] at hf
        exact hwf.level_ids_nodup _ _ _ hf

theorem removeById_eq_nil {id : Int} {l : Level}
    (h : removeById id l = []) : l = [] ∨ ∃ o, l = [o] ∧ o.order_id = id := by
  cases l with
  | nil => exact Or.inl rfl
  | cons o rest =>
    by_cases ho : o.order_id = id
    · simp only [removeById, if_pos ho] at h
      subst h
      exact Or.inr ⟨o, rfl, ho⟩
    · simp only [removeById, if_neg ho] at h
      exact absurd h (List.cons_ne_nil o _)

theorem mem_of_mem_removeById {id : Int} {l : Level} {o : Order}
    (h : o ∈ removeById id l) : o ∈ l :=
  (removeById_sublist id l).subset h

theorem removeById_id_ne {id : Int} {l : Level}
    (hn : (l.map Order.order_id).Nodup) :
    ∀ o ∈ removeById id l, o.order_id ≠ id := by
  intro o ho hc
  have : o.order_id ∈ (removeById id l).map Order.order_id :=
    List.mem_map.mpr ⟨o, ho, rfl⟩
  rw [removeById_ids] at this
  rw [hc] at this
  exact ((hn.mem_erase_iff).mp this).1 rfl

/-- `cancelOrder` preserves the invariants. -/
theorem cancelOrder_wf {ob : OrderBook} (id : Int) (hwf : WF ob) :
    WF (cancelOrder id ob).2 := by
  rcases hreg : idFind ob.order_map id with _ | info
  · rw [cancelOrder, hreg]
    exact hwf
  · obtain ⟨level, hfind, o0, ho0, hoid0⟩ := hwf.reg_resting id info hreg
    have hlevnd := hwf.level_ids_nodup _ _ _ hfind
    have hsurv_ne : ∀ o ∈ removeById id level, o.order_id ≠ id :=
      removeById_id_ne hlevnd
    have hother_ne : ∀ s q l', pmFind (ob.book s) q = some l' →
        (s ≠ info.side ∨ q ≠ info.price) → ∀ o ∈ l', o.order_id ≠ id := by
      intro s q l' hf hne o ho hc
      have h1 := hwf.resting_reg s q l' hf o ho
      rw [hc, hreg] at h1
      obtain h2 := Option.some.inj h1
      rcases hne with hne | hne
      · exact hne (congrArg OrderInfo.side h2).symm
      · exact hne (congrArg OrderInfo.price h2).symm
    by_cases hemp : (removeById id level).isEmpty
    -- erased-level case
    · have heq : (cancelOrder id ob).2 = unregisterOrder
          (ob.setBook info.side (pmErase (ob.book info.side) info.price)) id := by
        simp [cancelOrder, hreg, hfind, hemp]
      rw [heq]
      have hnil : removeById id level = [] := List.isEmpty_iff.mp hemp
      constructor
      · intro s
        rw [heap_unregisterOrder, heap_setBook]
        exact hwf.heaps_sorted s
      · intro s q l hf
        by_cases hs : s = info.side
        · subst hs
          rw [book_unregisterOrder, book_setBook_self] at hf
          by_cases hq : q = info.price
          · subst hq
            rw [pmFind_pmErase_self (hwf.keys_nodup _)] at hf
            exact absurd hf (by simp)
          · rw [pmFind_pmErase_ne hq] at hf
            exact hwf.no_empty _ _ _ hf
        · rw [book_unregisterOrder, book_setBook_ne _ _ (fun h => hs h.symm)] at hf
          exact hwf.no_empty _ _ _ hf
      · intro s
        by_cases hs : s = info.side
        · subst hs
          rw [book_unregisterOrder, book_setBook_self]
          exact (hwf.keys_nodup _).sublist (pmErase_keys_sublist _ _)
        · rw [book_unregisterOrder, book_setBook_ne _ _ (fun h => hs h.symm)]
          exact hwf.keys_nodup s
      · intro s q l hf
        by_cases hs : s = info.side
        · subst hs
          rw [book_unregisterOrder, book_setBook_self] at hf
          by_cases hq : q = info.price
          · subst hq
            rw [pmFind_pmErase_self (hwf.keys_nodup _)] at hf
            exact absurd hf (by simp)
          · rw [pmFind_pmErase_ne hq] at hf
            exact hwf.levels_wf _ _ _ hf
        · rw [book_unregisterOrder, book_setBook_ne _ _ (fun h => hs h.symm)] at hf
          exact hwf.levels_wf _ _ _ hf
      · intro s q l hf
        rw [heap_unregisterOrder, heap_setBook]
        by_cases hs : s = info.side
        · subst hs
          rw [book_unregisterOrder, book_setBook_self] at hf
          by_cases hq : q = info.price
          · subst hq
            rw [pmFind_pmErase_self (hwf.keys_nodup _)] at hf
            exact absurd hf (by simp)
          · rw [pmFind_pmErase_ne hq] at hf
            exact hwf.heap_complete _ _ _ hf
        · rw [book_unregisterOrder, book_setBook_ne _ _ (fun h => hs h.symm)] at hf
          exact hwf.heap_complete _ _ _ hf
      · rw [order_map_unregisterOrder, order_map_setBook]
        exact hwf.reg_keys_nodup.sublist (idErase_keys_sublist _ _)
      · intro j info' hf
        rw [order_map_unregisterOrder, order_map_setBook] at hf
        by_cases hj : j = id
        · subst hj
          rw [idFind_idErase_self hwf.reg_keys_nodup] at hf
          exact absurd hf (by simp)
        · rw [idFind_idErase_ne hj] at hf
          obtain ⟨l0, hl0, o', ho', hoid⟩ := hwf.reg_resting j info' hf
          refine ⟨l0, ?_, o', ho', hoid⟩
          by_cases hs : info'.side = info.side
          · rw [hs, book_unregisterOrder, book_setBook_self]
            by_cases hq : info'.price = info.price
            · exfalso
              rw [hs, hq, hfind] at hl0
              obtain rfl : level = l0 := Option.some.inj hl0
              -- the only order in the level is the cancelled one
              rcases removeById_eq_nil hnil with rfl | ⟨o1, rfl, ho1⟩
              · exact absurd ho' (by simp)
              · obtain rfl : o' = o1 := by simpa using ho'
                exact hj (hoid ▸ ho1 ▸ rfl)
            · rw [pmFind_pmErase_ne hq]
              rw [hs] at hl0
              exact hl0
          · rw [book_unregisterOrder, book_setBook_ne _ _ (fun h => hs h.symm)]
            exact hl0
      · intro s q l hf o ho
        rw [order_map_unregisterOrder, order_map_setBook]
        by_cases hs : s = info.side
        · subst hs
          rw [book_unregisterOrder, book_setBook_self] at hf
          by_cases hq : q = info.price
          · subst hq
            rw [pmFind_pmErase_self (hwf.keys_nodup _)] at hf
            exact absurd hf (by simp)
          · rw [pmFind_pmErase_ne hq] at hf
            rw [idFind_idErase_ne (hother_ne _ _ _ hf (Or.inr hq) o ho)]
            exact hwf.resting_reg _ _ _ hf o ho
        · rw [book_unregisterOrder, book_setBook_ne _ _ (fun h => hs h.symm)] at hf
          rw [idFind_idErase_ne (hother_ne _ _ _ hf (Or.inl hs) o ho)]
          exact hwf.resting_reg _ _ _ hf o ho
      · intro s q l hf
        by_cases hs : s = info.side
        · subst hs
          rw [book_unregisterOrder, book_setBook_self] at hf
          by_cases hq : q = info.price
          · subst hq
            rw [pmFind_pmErase_self (hwf.keys_nodup _)] at hf
            exact absurd hf (by simp)
          · rw [pmFind_pmErase_ne hq] at hf
            exact hwf.level_ids_nodup _ _ _ hf
        · rw [book_unregisterOrder, book_setBook_ne _ _ (fun h => hs h.symm)] at hf
          exact hwf.level_ids_nodup _ _ _ hf
    -- level-kept case
    · have heq : (cancelOrder id ob).2 = unregisterOrder
          (ob.setBook info.side
            (pmSet (ob.book info.side) info.price (removeById id level))) id := by
        simp [cancelOrder, hreg, hfind, hemp]
      rw [heq]
      constructor
      · intro s
        rw [heap_unregisterOrder, heap_setBook]
        exact hwf.heaps_sorted s
      · intro s q l hf
        by_cases hs : s = info.side
        · subst hs
          rw [book_unregisterOrder, book_setBook_self] at hf
          by_cases hq : q = info.price
          · subst hq
            rw [pmFind_pmSet_self hfind] at hf
            obtain rfl : removeById id level = l := Option.some.inj hf
            exact fun h => hemp (List.isEmpty_iff.mpr h)
          · rw [pmFind_pmSet_ne _ hq] at hf
            exact hwf.no_empty _ _ _ hf
        · rw [book_unregisterOrder, book_setBook_ne _ _ (fun h => hs h.symm)] at hf
          exact hwf.no_empty _ _ _ hf
      · intro s
        by_cases hs : s = info.side
        · subst hs
          rw [book_unregisterOrder, book_setBook_self, pmSet_keys]
          exact hwf.keys_nodup _
        · rw [book_unregisterOrder, book_setBook_ne _ _ (fun h => hs h.symm)]
          exact hwf.keys_nodup s
      · intro s q l hf
        by_cases hs : s = info.side
        · subst hs
          rw [book_unregisterOrder, book_setBook_self] at hf
          by_cases hq : q = info.price
          · subst hq
            rw [pmFind_pmSet_self hfind] at hf
            obtain rfl : removeById id level = l := Option.some.inj hf
            intro o ho
            exact hwf.levels_wf _ _ _ hfind o (mem_of_mem_removeById ho)
          · rw [pmFind_pmSet_ne _ hq] at hf
            exact hwf.levels_wf _ _ _ hf
        · rw [book_unregisterOrder, book_setBook_ne _ _ (fun h => hs h.symm)] at hf
          exact hwf.levels_wf _ _ _ hf
      · intro s q l hf
        rw [heap_unregisterOrder, heap_setBook]
        by_cases hs : s = info.side
        · subst hs
          rw [book_unregisterOrder, book_setBook_self] at hf
          by_cases hq : q = info.price
          · subst hq
            exact hwf.heap_complete _ _ _ hfind
          · rw [pmFind_pmSet_ne _ hq] at hf
            exact hwf.heap_complete _ _ _ hf
        · rw [book_unregisterOrder, book_setBook_ne _ _ (fun h => hs h.symm)] at hf
          exact hwf.heap_complete _ _ _ hf
      · rw [order_map_unregisterOrder, order_map_setBook]
        exact hwf.reg_keys_nodup.sublist (idErase_keys_sublist _ _)
      · intro j info' hf
        rw [order_map_unregisterOrder, order_map_setBook] at hf
        by_cases hj : j = id
        · subst hj
          rw [idFind_idErase_self hwf.reg_keys_nodup] at hf
          exact absurd hf (by simp)
        · rw [idFind_idErase_ne hj] at hf
          obtain ⟨l0, hl0, o', ho', hoid⟩ := hwf.reg_resting j info' hf
          by_cases hs : info'.side = info.side
          · by_cases hq : info'.price = info.price
            · rw [hs, hq, hfind] at hl0
              obtain rfl : level = l0 := Option.some.inj hl0
              refine ⟨removeById id level, ?_, o', ?_, hoid⟩
              · rw [hs, hq, book_unregisterOrder, book_setBook_self]
                exact pmFind_pmSet_self hfind _
              · exact mem_removeById ho' (fun h => hj (hoid ▸ h ▸ rfl))
            · refine ⟨l0, ?_, o', ho', hoid⟩
              rw [hs, book_unregisterOrder, book_setBook_self, pmFind_pmSet_ne _ hq]
              rw [hs] at hl0
              exact hl0
          · refine ⟨l0, ?_, o', ho', hoid⟩
            rw [book_unregisterOrder, book_setBook_ne _ _ (fun h => hs h.symm)]
            exact hl0
      · intro s q l hf o ho
        rw [order_map_unregisterOrder, order_map_setBook]
        by_cases hs : s = info.side
        · subst hs
          rw [book_unregisterOrder, book_setBook_self] at hf
          by_cases hq : q = info.price
          · subst hq
            rw [pmFind_pmSet_self hfind] at hf
            obtain rfl : removeById id level = l := Option.some.inj hf
            rw [idFind_idErase_ne (hsurv_ne o ho)]
            exact hwf.resting_reg _ _ _ hfind o (mem_of_mem_removeById ho)
          · rw [pmFind_pmSet_ne _ hq] at hf
            rw [idFind_idErase_ne (hother_ne _ _ _ hf (Or.inr hq) o ho)]
            exact hwf.resting_reg _ _ _ hf o ho
        · rw [book_unregisterOrder, book_setBook_ne _ _ (fun h => hs h.symm)] at hf
          rw [idFind_idErase_ne (hother_ne _ _ _ hf (Or.inl hs) o ho)]
          exact hwf.resting_reg _ _ _ hf o ho
      · intro s q l hf
        by_cases hs : s = info.side
        · subst hs
          rw [book_unregisterOrder, book_setBook_self] at hf
          by_cases hq : q = info.price
          · subst hq
            rw [pmFind_pmSet_self hfind] at hf
            obtain rfl : removeById id level = l := Option.some.inj hf
            exact hlevnd.sublist
              (List.Sublist.map Order.order_id (removeById_sublist id level))
          · rw [pmFind_pmSet_ne _ hq] at hf
            exact hwf.level_ids_nodup _ _ _ hf
        · rw [book_unregisterOrder, book_setBook_ne _ _ (fun h => hs h.symm)] at hf
          exact hwf.level_ids_nodup _ _ _ hf

theorem scanFreeId_free_of_exists {m : IdMap} :
    ∀ {fuel : Nat} {c : Int}, (∃ j : Nat, j < fuel ∧ idFind m (c + j) = none) →
      idFind m (scanFreeId m fuel c) = none := by
  intro fuel
  induction fuel with
  | zero =>
    intro c h
    obtain ⟨j, hj, -⟩ := h
    exact absurd hj (Nat.not_lt_zero j)
  | succ n ih =>
    intro c h
    by_cases h0 : (idFind m c).isSome
    · rw [scanFreeId, if_pos h0]
      obtain ⟨j, hj, hfree⟩ := h
      have hj0 : j ≠ 0 := by
        intro hc
        subst hc
        simp only [Nat.cast_zero, add_zero] at hfree
        rw [hfree] at h0
        exact Bool.noConfusion h0
      refine ih ⟨j - 1, by omega, ?_⟩
      have : c + 1 + (↑(j - 1) : Int) = c + j := by
        have : ((j - 1 : Nat) : Int) = (j : Int) - 1 := by omega
        rw [this]; ring
      rw [this]
      exact hfree
    · rw [scanFreeId, if_neg h0]
      exact Option.not_isSome_iff_eq_none.mp h0

/-- Pigeonhole: scanning `order_map.length + 1` candidate ids from any start
always finds one outside the registry. -/
theorem nextFreeId_free (ob : OrderBook) :
    idFind ob.order_map (nextFreeId ob).1 = none := by
  apply scanFreeId_free_of_exists
  by_contra hcon
  push_neg at hcon
  have hall : ∀ j : Nat, j < ob.order_map.length + 1 →
      (ob.next_order_id + j) ∈ ob.order_map.map Prod.fst := by
    intro j hj
    have := hcon j hj
    rcases hf : idFind ob.order_map (ob.next_order_id + j) with _ | info
    · exact absurd hf this
    · exact List.mem_map.mpr ⟨_, idFind_mem hf, rfl⟩
  have hsub : (List.range (ob.order_map.length + 1)).map
      (fun j : Nat => ob.next_order_id + (j : Int)) ⊆ ob.order_map.map Prod.fst := by
    intro x hx
    obtain ⟨j, hj, rfl⟩ := List.mem_map.mp hx
    exact hall j (List.mem_range.mp hj)
  have hnd : ((List.range (ob.order_map.length + 1)).map
      (fun j : Nat => ob.next_order_id + (j : Int))).Nodup := by
    refine List.Nodup.map ?_ (List.nodup_range _)
    intro a b hab
    simpa using hab
  have := (hnd.subperm hsub).length_le
  simp only [List.length_map, List.length_range] at this
  omega

/-- Allocating an id changes no invariant-relevant state. -/
theorem nextFreeId_wf {ob : OrderBook} (hwf : WF ob) : WF (nextFreeId ob).2 := by
  constructor
  · intro s
    rw [heap_nextFreeId]
    exact hwf.heaps_sorted s
  · intro s p l hf
    rw [book_nextFreeId] at hf
    exact hwf.no_empty _ _ _ hf
  · intro s
    rw [book_nextFreeId]
    exact hwf.keys_nodup s
  · intro s p l hf
    rw [book_nextFreeId] at hf
    exact hwf.levels_wf _ _ _ hf
  · intro s p l hf
    rw [book_nextFreeId] at hf
    rw [heap_nextFreeId]
    exact hwf.heap_complete _ _ _ hf
  · rw [order_map_nextFreeId]
    exact hwf.reg_keys_nodup
  · intro j info hf
    rw [order_map_nextFreeId] at hf
    obtain ⟨l0, hl0, hx⟩ := hwf.reg_resting j info hf
    exact ⟨l0, by rw [book_nextFreeId]; exact hl0, hx⟩
  · intro s p l hf o ho
    rw [book_nextFreeId] at hf
    rw [order_map_nextFreeId]
    exact hwf.resting_reg _ _ _ hf o ho
  · intro s p l hf
    rw [book_nextFreeId] at hf
    exact hwf.level_ids_nodup _ _ _ hf

/-- The state left by `peekBestPrice` (lazy pruning only) stays invariant. -/
theorem peekBestPrice_wf (side : Side) (ob : OrderBook) (hwf : WF ob) :
    WF (peekBestPrice side ob).2 := by
  rcases hsp : scanPop (ob.book side) (ob.heap side) with ⟨res, hp⟩
  cases res with
  | none =>
    have heq : (peekBestPrice side ob).2 = ob.setHeap side hp := by
      simp [peekBestPrice, hsp]
    rw [heq]
    exact matchStep_exhaust_wf hwf hsp
  | some p =>
    have heq : (peekBestPrice side ob).2 = ob.setHeap side (p :: hp) := by
      simp [peekBestPrice, hsp]
    rw [heq]
    constructor
    · intro s
      by_cases hs : s = side
      · subst hs
        rw [heap_setHeap_self]
        exact sorted_scanPop_rest (hwf.heaps_sorted s) hsp
      · rw [heap_setHeap_ne _ _ (fun h => hs h.symm)]
        exact hwf.heaps_sorted s
    · intro s q l hf
      rw [book_setHeap] at hf
      exact hwf.no_empty _ _ _ hf
    · intro s
      rw [book_setHeap]
      exact hwf.keys_nodup s
    · intro s q l hf
      rw [book_setHeap] at hf
      exact hwf.levels_wf _ _ _ hf
    · intro s q l hf
      rw [book_setHeap] at hf
      by_cases hs : s = side
      · subst hs
        rw [heap_setHeap_self]
        exact scanPop_keeps_alive hsp q (hwf.heap_complete _ _ _ hf)
          (levelAlive_of_find hf (hwf.no_empty _ _ _ hf))
      · rw [heap_setHeap_ne _ _ (fun h => hs h.symm)]
        exact hwf.heap_complete _ _ _ hf
    · simp only [order_map_setHeap]
      exact hwf.reg_keys_nodup
    · intro j info hf
      simp only [order_map_setHeap] at hf
      obtain ⟨l0, hl0, hx⟩ := hwf.reg_resting j info hf
      exact ⟨l0, by rw [book_setHeap]; exact hl0, hx⟩
    · intro s q l hf o ho
      rw [book_setHeap] at hf
      simp only [order_map_setHeap]
      exact hwf.resting_reg _ _ _ hf o ho
    · intro s q l hf
      rw [book_setHeap] at hf
      exact hwf.level_ids_nodup _ _ _ hf

theorem bestBid_state (ob : OrderBook) :
    (bestBid ob).2 = (peekBestPrice Side.Buy ob).2 := by
  rcases hpk : peekBestPrice Side.Buy ob with ⟨res, ob'⟩
  cases res with
  | none => simp [bestBid, hpk]
  | some p =>
    rcases hf : pmFind ob'.bids p with _ | level <;> simp [bestBid, hpk, hf]

theorem bestAsk_state (ob : OrderBook) :
    (bestAsk ob).2 = (peekBestPrice Side.Sell ob).2 := by
  rcases hpk : peekBestPrice Side.Sell ob with ⟨res, ob'⟩
  cases res with
  | none => simp [bestAsk, hpk]
  | some p =>
    rcases hf : pmFind ob'.asks p with _ | level <;> simp [bestAsk, hpk, hf]

theorem wf_empty : WF OrderBook.empty := by
  refine ⟨?_, ?_, ?_, ?_, ?_, ?_, ?_, ?_, ?_⟩
  · intro s
    cases s <;> exact List.sorted_nil
  · intro s p l hf
    cases s <;> simp [OrderBook.book, OrderBook.empty, pmFind] at hf
  · intro s
    cases s <;> simp [OrderBook.book, OrderBook.empty]
  · intro s p l hf
    cases s <;> simp [OrderBook.book, OrderBook.empty, pmFind] at hf
  · intro s p l hf
    cases s <;> simp [OrderBook.book, OrderBook.empty, pmFind] at hf
  · simp [OrderBook.empty]
  · intro j info hf
    simp [OrderBook.empty, idFind] at hf
  · intro s p l hf
    cases s <;> simp [OrderBook.book, OrderBook.empty, pmFind] at hf
  · intro s p l hf
    cases s <;> simp [OrderBook.book, OrderBook.empty, pmFind] at hf

/-- `addLimitOrder` preserves the invariants. -/
theorem addLimitOrder_wf (side : Side) (price : ℚ) (qty : Int)
    (oid ts : Option Int) (ob : OrderBook) (hwf : WF ob) :
    WF (addLimitOrder side price qty oid ts ob).2 := by
  cases oid with
  | some id =>
    by_cases hex : (idFind ob.order_map id).isSome
    · simp only [addLimitOrder, hex, if_true]
      exact hwf
    · have hfresh : idFind ob.order_map id = none :=
        Option.not_isSome_iff_eq_none.mp hex
      simp only [addLimitOrder, hex, Bool.false_eq_true, if_false, matchIncoming]
      set F := (ob.heap (opposite side)).length + 1 with hF
      set inc : Order := ⟨id, side, some price, qty, ts.getD 0⟩ with hinc
      have hwf' : WF (matchLoop F inc (opposite side) ob).2 :=
        matchLoop_wf F inc (opposite side) ob hwf
      by_cases hq : 0 < (matchLoop F inc (opposite side) ob).1.quantity
      · rw [if_pos hq]
        obtain ⟨q, hq'⟩ := matchLoop_incoming F inc (opposite side) ob
        refine addRestingOrder_wf price hwf' ?_ ?_ ?_
        · rw [hq']
        · exact hq
        · rw [hq']
          exact matchLoop_registry_none F inc (opposite side) ob
            hwf.reg_keys_nodup hfresh
      · rw [if_neg hq]
        exact hwf'
  | none =>
    have hfresh : idFind (nextFreeId ob).2.order_map (nextFreeId ob).1 = none := by
      rw [order_map_nextFreeId]
      exact nextFreeId_free ob
    have hwf0 : WF (nextFreeId ob).2 := nextFreeId_wf hwf
    simp only [addLimitOrder, matchIncoming]
    set ob₀ := (nextFreeId ob).2 with hob₀
    set F := (ob₀.heap (opposite side)).length + 1 with hF
    set inc : Order := ⟨(nextFreeId ob).1, side, some price, qty, ts.getD 0⟩
      with hinc
    have hwf' : WF (matchLoop F inc (opposite side) ob₀).2 :=
      matchLoop_wf F inc (opposite side) ob₀ hwf0
    by_cases hq : 0 < (matchLoop F inc (opposite side) ob₀).1.quantity
    · rw [if_pos hq]
      obtain ⟨q, hq'⟩ := matchLoop_incoming F inc (opposite side) ob₀
      refine addRestingOrder_wf price hwf' ?_ ?_ ?_
      · rw [hq']
      · exact hq
      · rw [hq']
        exact matchLoop_registry_none F inc (opposite side) ob₀
          (by rw [order_map_nextFreeId]; exact hwf.reg_keys_nodup) hfresh
    · rw [if_neg hq]
      exact hwf'

/-- `addMarketOrder` preserves the invariants. -/
theorem addMarketOrder_wf (side : Side) (qty : Int)
    (oid ts : Option Int) (ob : OrderBook) (hwf : WF ob) :
    WF (addMarketOrder side qty oid ts ob).2 := by
  cases oid with
  | some id =>
    by_cases hex : (idFind ob.order_map id).isSome
    · simp only [addMarketOrder, hex, if_true]
      exact hwf
    · simp only [addMarketOrder, hex, Bool.false_eq_true, if_false, matchIncoming]
      exact matchLoop_wf _ _ _ _ hwf
  | none =>
    simp only [addMarketOrder, matchIncoming]
    exact matchLoop_wf _ _ _ _ (nextFreeId_wf hwf)

/-- Every state reachable through the public interface is well formed. -/
theorem reachable_wf {ob : OrderBook} (h : Reachable ob) : WF ob := by
  induction h with
  | empty => exact wf_empty
  | limit side price quantity oid ts hr ih => exact addLimitOrder_wf _ _ _ _ _ _ ih
  | market side quantity oid ts hr ih => exact addMarketOrder_wf _ _ _ _ _ ih
  | cancel id hr ih => exact cancelOrder_wf id ih
  | bid hr ih => exact bestBid_state _ ▸ peekBestPrice_wf Side.Buy _ ih
  | ask hr ih => exact bestAsk_state _ ▸ peekBestPrice_wf Side.Sell _ ih
  | clr hr ih => exact wf_empty

/-! ## Theorems -/

/-- C9: starting from an empty book, submitting Sell 101.0×100, Sell 102.0×200,
Buy 99.0×150, Buy 98.0×250 produces no trades and yields
`bestBid() = (99.0, 150)` and `bestAsk() = (101.0, 100)`; then submitting
Buy 102.0×180 appends exactly two trades, (price 101.0, qty 100) against the
first sell (id 1) followed by (price 102.0, qty 80) against the second sell
(id 2), after which `bestAsk() = (102.0, 120)` and `bestBid()` is unchanged
at `(99.0, 150)`. -/
theorem scenario_two_level_sweep :
    sweep_ob4.trades = [] ∧
    (bestBid sweep_ob4).1 = some (99, 150) ∧
    (bestAsk sweep_ob4).1 = some (101, 100) ∧
    sweep_ob5.trades = [⟨5, 1, 101, 100, 0⟩, ⟨5, 2, 102, 80, 0⟩] ∧
    (bestAsk sweep_ob5).1 = some (102, 120) ∧
    (bestBid sweep_ob5).1 = some (99, 150) := by
  decide

/-- C8: `addLimitOrder` and `addMarketOrder` called with an explicitly
supplied id already present in the book raise the invalid-argument error,
and the returned state — every component of the `OrderBook` — is exactly the
state before the call: the check precedes any construction or mutation. -/
theorem add_order_existing_id_rejected (side : Side) (price : ℚ) (qty : Int)
    (ts : Option Int) (id : Int) (ob : OrderBook)
    (h : (idFind ob.order_map id).isSome = true) :
    addLimitOrder side price qty (some id) ts ob
      = (Except.error "Order ID already exists in the order book", ob) ∧
    addMarketOrder side qty (some id) ts ob
      = (Except.error "Order ID already exists in the order book", ob) := by
  constructor <;> simp [addLimitOrder, addMarketOrder, h]

/-- C3: for every call to `addLimitOrder` or `addMarketOrder`, the trades it
appends form a suffix of the trade log whose quantities sum to the total
quantity removed from the opposite (resting) side of the book, and the
matching pass (`matchIncoming`) run by such a call removes exactly that sum
from the incoming order: submitted quantity minus its remaining quantity
when matching stops. -/
theorem quantity_conservation (side : Side) (price : ℚ) (qty : Int)
    (id ts : Int) (oid : Option Int) (ots : Option Int) (ob : OrderBook) :
    (∀ pr : Option ℚ,
      ∃ new,
        (matchIncoming ⟨id, side, pr, qty, ts⟩ ob).2.trades = ob.trades ++ new ∧
        tradeQtySum new
          = qty - (matchIncoming ⟨id, side, pr, qty, ts⟩ ob).1.quantity ∧
        tradeQtySum new
          = bookTotal (ob.book (opposite side))
            - bookTotal ((matchIncoming ⟨id, side, pr, qty, ts⟩ ob).2.book (opposite side))) ∧
    (∃ new,
      (addLimitOrder side price qty oid ots ob).2.trades = ob.trades ++ new ∧
      tradeQtySum new
        = bookTotal (ob.book (opposite side))
          - bookTotal ((addLimitOrder side price qty oid ots ob).2.book (opposite side))) ∧
    (∃ new,
      (addMarketOrder side qty oid ots ob).2.trades = ob.trades ++ new ∧
      tradeQtySum new
        = bookTotal (ob.book (opposite side))
          - bookTotal ((addMarketOrder side qty oid ots ob).2.book (opposite side))) := by
  refine ⟨?_, ?_, ?_⟩
  · intro pr
    simpa [matchIncoming] using
      matchLoop_conservation ((ob.heap (opposite side)).length + 1)
        ⟨id, side, pr, qty, ts⟩ (opposite side) ob
  · cases oid with
    | some id' =>
      by_cases hex : (idFind ob.order_map id').isSome
      · exact ⟨[], by simp [addLimitOrder, hex], by simp [addLimitOrder, hex]⟩
      · obtain ⟨new, h1, h2, h3⟩ :=
          matchLoop_conservation ((ob.heap (opposite side)).length + 1)
            ⟨id', side, some price, qty, ots.getD 0⟩ (opposite side) ob
        obtain ⟨q, hq⟩ := matchLoop_incoming ((ob.heap (opposite side)).length + 1)
            ⟨id', side, some price, qty, ots.getD 0⟩ (opposite side) ob
        have hside : (matchLoop ((ob.heap (opposite side)).length + 1)
            ⟨id', side, some price, qty, ots.getD 0⟩ (opposite side) ob).1.side
            ≠ opposite side := by
          rw [hq]
          exact Ne.symm (opposite_ne side)
        refine ⟨new, ?_, ?_⟩
        · simp only [addLimitOrder, hex, Bool.false_eq_true, if_false, matchIncoming]
          split
          · rw [trades_addRestingOrder]
            exact h1
          · exact h1
        · simp only [addLimitOrder, hex, Bool.false_eq_true, if_false, matchIncoming]
          split
          · rw [book_addRestingOrder_ne _ _ hside]
            exact h3
          · exact h3
    | none =>
      obtain ⟨new, h1, h2, h3⟩ :=
        matchLoop_conservation ((ob.heap (opposite side)).length + 1)
          ⟨(nextFreeId ob).1, side, some price, qty, ots.getD 0⟩ (opposite side)
          (nextFreeId ob).2
      obtain ⟨q, hq⟩ := matchLoop_incoming ((ob.heap (opposite side)).length + 1)
          ⟨(nextFreeId ob).1, side, some price, qty, ots.getD 0⟩ (opposite side)
          (nextFreeId ob).2
      have hside : (matchLoop ((ob.heap (opposite side)).length + 1)
          ⟨(nextFreeId ob).1, side, some price, qty, ots.getD 0⟩ (opposite side)
          (nextFreeId ob).2).1.side ≠ opposite side := by
        rw [hq]
        exact Ne.symm (opposite_ne side)
      simp only [trades_nextFreeId, book_nextFreeId] at h1 h3
      refine ⟨new, ?_, ?_⟩
      · simp only [addLimitOrder, matchIncoming, heap_nextFreeId]
        split
        · rw [trades_addRestingOrder]
          exact h1
        · exact h1
      · simp only [addLimitOrder, matchIncoming, heap_nextFreeId]
        split
        · rw [book_addRestingOrder_ne _ _ hside]
          exact h3
        · exact h3
  · cases oid with
    | some id' =>
      by_cases hex : (idFind ob.order_map id').isSome
      · exact ⟨[], by simp [addMarketOrder, hex], by simp [addMarketOrder, hex]⟩
      · obtain ⟨new, h1, h2, h3⟩ :=
          matchLoop_conservation ((ob.heap (opposite side)).length + 1)
            ⟨id', side, none, qty, ots.getD 0⟩ (opposite side) ob
        exact ⟨new, by simp only [addMarketOrder, hex, Bool.false_eq_true, if_false,
          matchIncoming]; exact h1,
          by simp only [addMarketOrder, hex, Bool.false_eq_true, if_false,
            matchIncoming]; exact h3⟩
    | none =>
      obtain ⟨new, h1, h2, h3⟩ :=
        matchLoop_conservation ((ob.heap (opposite side)).length + 1)
          ⟨(nextFreeId ob).1, side, none, qty, ots.getD 0⟩ (opposite side)
          (nextFreeId ob).2
      simp only [trades_nextFreeId, book_nextFreeId] at h1 h3
      exact ⟨new, by simp only [addMarketOrder, matchIncoming, heap_nextFreeId]; exact h1,
        by simp only [addMarketOrder, matchIncoming, heap_nextFreeId]; exact h3⟩

/-- Witness for `add_order_existing_id_rejected`: a book where id 7 rests. -/
theorem add_order_existing_id_rejected_witness :
    addLimitOrder Side.Buy 5 10 (some 7) none
        { OrderBook.empty with order_map := [(7, ⟨Side.Buy, 5⟩)] }
      = (Except.error "Order ID already exists in the order book",
         { OrderBook.empty with order_map := [(7, ⟨Side.Buy, 5⟩)] }) ∧
    addMarketOrder Side.Buy 10 (some 7) none
        { OrderBook.empty with order_map := [(7, ⟨Side.Buy, 5⟩)] }
      = (Except.error "Order ID already exists in the order book",
         { OrderBook.empty with order_map := [(7, ⟨Side.Buy, 5⟩)] }) :=
  add_order_existing_id_rejected Side.Buy 5 10 none 7
    { OrderBook.empty with order_map := [(7, ⟨Side.Buy, 5⟩)] } (by decide)

theorem not_resting_of_unregistered {ob : OrderBook} {id : Int} (hwf : WF ob)
    (h : idFind ob.order_map id = none) : ¬ IsResting ob id := by
  rintro ⟨s, p, l, hf, o, ho, hoid⟩
  have := hwf.resting_reg s p l hf o ho
  rw [hoid, h] at this
  exact Option.noConfusion this

/-- C10: in every reachable state, every price with a non-empty level occurs
in its side's priority heap: a live price level can never become
undiscoverable by the lazy scans. -/
theorem live_price_in_heap {ob : OrderBook} (h : Reachable ob) :
    ∀ s p l, pmFind (ob.book s) p = some l → l ≠ [] → p ∈ ob.heap s := by
  intro s p l hf _
  exact (reachable_wf h).heap_complete s p l hf

/-- Witness for `live_price_in_heap` at a concrete reachable state. -/
theorem live_price_in_heap_witness :
    (5 : ℚ) ∈ ((addLimitOrder Side.Buy 5 10 none none OrderBook.empty).2).heap
      Side.Buy :=
  live_price_in_heap
    (Reachable.limit Side.Buy 5 10 none none Reachable.empty)
    Side.Buy 5 [⟨1, Side.Buy, some 5, 10, 0⟩] (by decide) (by decide)

/-- C6: in every reachable state an id is registered iff it is resting, and
`addMarketOrder` never leaves its returned id registered or resting,
regardless of how much of its quantity was satisfied: an order fully
consumed during matching is removed from the registry. -/
theorem registry_iff_resting {ob : OrderBook} (h : Reachable ob) :
    (∀ id, (idFind ob.order_map id).isSome = true ↔ IsResting ob id) ∧
    (∀ side qty oid ts idr,
      (addMarketOrder side qty oid ts ob).1 = Except.ok idr →
      idFind (addMarketOrder side qty oid ts ob).2.order_map idr = none ∧
      ¬ IsResting (addMarketOrder side qty oid ts ob).2 idr) := by
  have hwf := reachable_wf h
  constructor
  · intro id
    constructor
    · intro hs
      rcases hreg : idFind ob.order_map id with _ | info
      · rw [hreg] at hs
        exact Bool.noConfusion hs
      · obtain ⟨l, hl, o, ho, hoid⟩ := hwf.reg_resting id info hreg
        exact ⟨info.side, info.price, l, hl, o, ho, hoid⟩
    · rintro ⟨s, p, l, hf, o, ho, hoid⟩
      have := hwf.resting_reg s p l hf o ho
      rw [hoid] at this
      rw [this]
      rfl
  · intro side qty oid ts idr hok
    have hwf' : WF (addMarketOrder side qty oid ts ob).2 :=
      addMarketOrder_wf side qty oid ts ob hwf
    suffices hnone :
        idFind (addMarketOrder side qty oid ts ob).2.order_map idr = none by
      exact ⟨hnone, not_resting_of_unregistered hwf' hnone⟩
    cases oid with
    | some id =>
      by_cases hex : (idFind ob.order_map id).isSome
      · simp only [addMarketOrder, hex, if_true] at hok
        exact Except.noConfusion hok
      · simp only [addMarketOrder, hex, Bool.false_eq_true, if_false] at hok
        obtain rfl : id = idr := Except.ok.inj hok
        simp only [addMarketOrder, hex, Bool.false_eq_true, if_false,
          matchIncoming]
        exact matchLoop_registry_none _ _ _ _ hwf.reg_keys_nodup
          (Option.not_isSome_iff_eq_none.mp hex)
    | none =>
      simp only [addMarketOrder] at hok
      obtain rfl : (nextFreeId ob).1 = idr := Except.ok.inj hok
      simp only [addMarketOrder, matchIncoming]
      refine matchLoop_registry_none _ _ _ _ ?_ ?_
      · rw [order_map_nextFreeId]
        exact hwf.reg_keys_nodup
      · rw [order_map_nextFreeId]
        exact nextFreeId_free ob

/-- Witness for `registry_iff_resting` at a concrete reachable state. -/
theorem registry_iff_resting_witness :
    (∀ id, (idFind ((addLimitOrder Side.Buy 5 10 none none
        OrderBook.empty).2).order_map id).isSome = true ↔
      IsResting ((addLimitOrder Side.Buy 5 10 none none OrderBook.empty).2) id) ∧
    (∀ side qty oid ts idr,
      (addMarketOrder side qty oid ts ((addLimitOrder Side.Buy 5 10 none none
        OrderBook.empty).2)).1 = Except.ok idr →
      idFind (addMarketOrder side qty oid ts ((addLimitOrder Side.Buy 5 10 none
        none OrderBook.empty).2)).2.order_map idr = none ∧
      ¬ IsResting (addMarketOrder side qty oid ts ((addLimitOrder Side.Buy 5 10
        none none OrderBook.empty).2)).2 idr) :=
  registry_iff_resting (Reachable.limit Side.Buy 5 10 none none Reachable.empty)

/-- C7: `cancelOrder` is total; an unknown id returns `false` with the book
untouched; a resting id returns `true`, unlinks the node from its level,
erases the side's map entry if the queue emptied, removes the registry
entry, and leaves the opposite side untouched — and a second cancel of the
same id then returns `false` and changes nothing, so `cancelOrder` returns
`true` exactly once for a given resting id. -/
theorem cancelOrder_spec {ob : OrderBook} (h : Reachable ob) (id : Int) :
    (idFind ob.order_map id = none → cancelOrder id ob = (false, ob)) ∧
    (∀ info, idFind ob.order_map id = some info →
      (cancelOrder id ob).1 = true ∧
      (cancelOrder id ob).2.order_map = idErase ob.order_map id ∧
      idFind (cancelOrder id ob).2.order_map id = none ∧
      (∃ level, pmFind (ob.book info.side) info.price = some level ∧
        (∃ o ∈ level, o.order_id = id) ∧
        (cancelOrder id ob).2.book info.side
          = (if (removeById id level).isEmpty
             then pmErase (ob.book info.side) info.price
             else pmSet (ob.book info.side) info.price (removeById id level))) ∧
      (cancelOrder id ob).2.book (opposite info.side)
        = ob.book (opposite info.side) ∧
      cancelOrder id (cancelOrder id ob).2
        = (false, (cancelOrder id ob).2)) := by
  have hwf := reachable_wf h
  constructor
  · intro hreg
    rw [cancelOrder, hreg]
  · intro info hreg
    obtain ⟨level, hfind, o0, ho0, hoid0⟩ := hwf.reg_resting id info hreg
    have heq : cancelOrder id ob = (true, unregisterOrder
        (ob.setBook info.side
          (if (removeById id level).isEmpty
           then pmErase (ob.book info.side) info.price
           else pmSet (ob.book info.side) info.price (removeById id level)))
        id) := by
      by_cases hemp : (removeById id level).isEmpty <;>
        simp [cancelOrder, hreg, hfind, hemp]
    rw [heq]
    have herase : idFind (idErase ob.order_map id) id = none :=
      idFind_idErase_self hwf.reg_keys_nodup
    refine ⟨rfl, by rw [order_map_unregisterOrder, order_map_setBook], ?_,
      ⟨level, hfind, ⟨o0, ho0, hoid0⟩, ?_⟩, ?_, ?_⟩
    · rw [order_map_unregisterOrder, order_map_setBook]
      exact herase
    · rw [book_unregisterOrder, book_setBook_self]
    · rw [book_unregisterOrder, book_setBook_ne _ _ (opposite_ne info.side).symm]
    · have : idFind (unregisterOrder
          (ob.setBook info.side
            (if (removeById id level).isEmpty
             then pmErase (ob.book info.side) info.price
             else pmSet (ob.book info.side) info.price
               (removeById id level))) id).order_map id = none := by
        rw [order_map_unregisterOrder, order_map_setBook]
        exact herase
      rw [cancelOrder, this]

/-- Witness for `cancelOrder_spec` at a concrete reachable state. -/
theorem cancelOrder_spec_witness :
    (idFind ((addLimitOrder Side.Buy 5 10 none none
        OrderBook.empty).2).order_map 1 = none →
      cancelOrder 1 ((addLimitOrder Side.Buy 5 10 none none OrderBook.empty).2)
        = (false, (addLimitOrder Side.Buy 5 10 none none OrderBook.empty).2)) ∧
    (∀ info, idFind ((addLimitOrder Side.Buy 5 10 none none
        OrderBook.empty).2).order_map 1 = some info →
      (cancelOrder 1 ((addLimitOrder Side.Buy 5 10 none none
        OrderBook.empty).2)).1 = true ∧
      (cancelOrder 1 ((addLimitOrder Side.Buy 5 10 none none
        OrderBook.empty).2)).2.order_map
        = idErase ((addLimitOrder Side.Buy 5 10 none none
            OrderBook.empty).2).order_map 1 ∧
      idFind (cancelOrder 1 ((addLimitOrder Side.Buy 5 10 none none
        OrderBook.empty).2)).2.order_map 1 = none ∧
      (∃ level, pmFind (((addLimitOrder Side.Buy 5 10 none none
          OrderBook.empty).2).book info.side) info.price = some level ∧
        (∃ o ∈ level, o.order_id = 1) ∧
        (cancelOrder 1 ((addLimitOrder Side.Buy 5 10 none none
          OrderBook.empty).2)).2.book info.side
          = (if (removeById 1 level).isEmpty
             then pmErase (((addLimitOrder Side.Buy 5 10 none none
               OrderBook.empty).2).book info.side) info.price
             else pmSet (((addLimitOrder Side.Buy 5 10 none none
               OrderBook.empty).2).book info.side) info.price
               (removeById 1 level))) ∧
      (cancelOrder 1 ((addLimitOrder Side.Buy 5 10 none none
        OrderBook.empty).2)).2.book (opposite info.side)
        = ((addLimitOrder Side.Buy 5 10 none none OrderBook.empty).2).book
            (opposite info.side) ∧
      cancelOrder 1 (cancelOrder 1 ((addLimitOrder Side.Buy 5 10 none none
        OrderBook.empty).2)).2
        = (false, (cancelOrder 1 ((addLimitOrder Side.Buy 5 10 none none
            OrderBook.empty).2)).2)) :=
  cancelOrder_spec (Reachable.limit Side.Buy 5 10 none none Reachable.empty) 1

@[simp]
theorem bids_setHeap (ob : OrderBook) (s : Side) (h : List ℚ) :
    (ob.setHeap s h).bids = ob.bids := by
  cases s <;> rfl

@[simp]
theorem asks_setHeap (ob : OrderBook) (s : Side) (h : List ℚ) :
    (ob.setHeap s h).asks = ob.asks := by
  cases s <;> rfl

theorem heapRel_refl (s : Side) (p : ℚ) : heapRel s p p := by
  cases s <;> exact le_refl p

theorem mem_sideOrders {bk : PriceMap} {o : Order} :
    o ∈ sideOrders bk ↔ ∃ e ∈ bk, o ∈ e.2 := by
  simp only [sideOrders, List.mem_flatten, List.mem_map]
  constructor
  · rintro ⟨l, ⟨e, he, rfl⟩, ho⟩
    exact ⟨e, he, ho⟩
  · rintro ⟨e, he, ho⟩
    exact ⟨e.2, ⟨e, he, rfl⟩, ho⟩

theorem sideOrders_cons (e : ℚ × Level) (rest : PriceMap) :
    sideOrders (e :: rest) = e.2 ++ sideOrders rest := by
  simp [sideOrders]

theorem pmFind_of_mem_nodup {bk : PriceMap}
    (hnd : (bk.map Prod.fst).Nodup) {e : ℚ × Level} (he : e ∈ bk) :
    pmFind bk e.1 = some e.2 := by
  induction bk with
  | nil => simp at he
  | cons f rest ih =>
    obtain ⟨q, l⟩ := f
    simp only [List.map_cons, List.nodup_cons] at hnd
    rcases List.mem_cons.mp he with rfl | hmem
    · simp [pmFind]
    · have hq : q ≠ e.1 := by
        intro hc
        exact hnd.1 (hc ▸ List.mem_map.mpr ⟨e, hmem, rfl⟩)
      simp only [pmFind, if_neg hq]
      exact ih hnd.2 hmem

theorem sideOrders_eq_nil_iff {bk : PriceMap}
    (hne : ∀ e ∈ bk, e.2 ≠ []) : sideOrders bk = [] ↔ bk = [] := by
  constructor
  · intro h
    cases bk with
    | nil => rfl
    | cons e rest =>
      rw [sideOrders_cons] at h
      obtain ⟨h1, -⟩ := List.append_eq_nil.mp h
      exact absurd h1 (hne e (List.mem_cons_self e rest))
  · intro h
    subst h
    rfl

theorem filter_price_eq {bk : PriceMap} {p : ℚ} {l : Level}
    (hnd : (bk.map Prod.fst).Nodup)
    (hprop : ∀ e ∈ bk, ∀ o ∈ e.2, o.price = some e.1)
    (hfind : pmFind bk p = some l) :
    (sideOrders bk).filter (fun o => decide (o.price = some p)) = l := by
  induction bk with
  | nil => simp [pmFind] at hfind
  | cons e rest ih =>
    obtain ⟨q, lvl⟩ := e
    simp only [List.map_cons, List.nodup_cons] at hnd
    rw [sideOrders_cons, List.filter_append]
    by_cases hq : q = p
    · subst hq
      simp only [pmFind, if_pos rfl] at hfind
      obtain rfl : lvl = l := Option.some.inj hfind
      have h1 : lvl.filter (fun o => decide (o.price = some q)) = lvl :=
        List.filter_eq_self.mpr fun o ho => by
          simp [hprop (q, lvl) (List.mem_cons_self _ _) o ho]
      have h2 : (sideOrders rest).filter
          (fun o => decide (o.price = some q)) = [] := by
        rw [List.filter_eq_nil_iff]
        intro o ho
        obtain ⟨e', he', hoe⟩ := mem_sideOrders.mp ho
        have hq' : e'.1 ≠ q := by
          intro hc
          exact hnd.1 (hc ▸ List.mem_map.mpr ⟨e', he', rfl⟩)
        simp [hprop e' (List.mem_cons_of_mem _ he') o hoe, hq']
      rw [h1, h2, List.append_nil]
    · simp only [pmFind, if_neg hq] at hfind
      have h1 : lvl.filter (fun o => decide (o.price = some p)) = [] := by
        rw [List.filter_eq_nil_iff]
        intro o ho
        simp [hprop (q, lvl) (List.mem_cons_self _ _) o ho, hq]
      rw [h1, List.nil_append]
      exact ih hnd.2 (fun e he => hprop e (List.mem_cons_of_mem _ he)) hfind

theorem restingOrdersAt_eq_level {ob : OrderBook} {s : Side} {p : ℚ} {l : Level}
    (hwf : WF ob) (hfind : pmFind (ob.book s) p = some l) :
    restingOrdersAt ob s p = l := by
  refine filter_price_eq (hwf.keys_nodup s) ?_ hfind
  intro e he o ho
  exact (hwf.levels_wf s e.1 e.2
    (pmFind_of_mem_nodup (hwf.keys_nodup s) he) o ho).2.1

theorem peekBestPrice_none_iff {side : Side} {ob : OrderBook} (hwf : WF ob) :
    (peekBestPrice side ob).1 = none ↔ ob.book side = [] := by
  rcases hsp : scanPop (ob.book side) (ob.heap side) with ⟨res, hp⟩
  cases res with
  | none =>
    have hval : (peekBestPrice side ob).1 = none := by
      simp [peekBestPrice, hsp]
    rw [hval]
    simp only [true_iff]
    obtain ⟨-, hstale⟩ := scanPop_none hsp
    rcases hbk : ob.book side with _ | ⟨⟨q, l⟩, rest⟩
    · rfl
    · exfalso
      have hfind : pmFind (ob.book side) q = some l := by
        rw [hbk, pmFind, if_pos rfl]
      have halive := levelAlive_of_find hfind (hwf.no_empty _ _ _ hfind)
      have hmem := hwf.heap_complete _ _ _ hfind
      have := hstale q hmem
      rw [halive] at this
      simp at this
  | some p =>
    have hval : (peekBestPrice side ob).1 = some p := by
      simp [peekBestPrice, hsp]
    rw [hval]
    constructor
    · intro hc
      exact absurd hc (by simp)
    · intro hbk
      obtain ⟨l, hl, -⟩ := levelAlive_elim (scanPop_alive hsp)
      rw [hbk] at hl
      exact absurd hl (by simp [pmFind])

theorem peekBestPrice_best {side : Side} {ob : OrderBook} {p : ℚ}
    (hwf : WF ob) (hpk : (peekBestPrice side ob).1 = some p) :
    ∃ l, pmFind (ob.book side) p = some l ∧ l ≠ [] ∧
      ∀ q l', pmFind (ob.book side) q = some l' → heapRel side p q := by
  rcases hsp : scanPop (ob.book side) (ob.heap side) with ⟨res, hp⟩
  cases res with
  | none => simp [peekBestPrice, hsp] at hpk
  | some p' =>
    have : p' = p := by simpa [peekBestPrice, hsp] using hpk
    subst this
    obtain ⟨l, hl, hlne⟩ := levelAlive_elim (scanPop_alive hsp)
    refine ⟨l, hl, hlne, ?_⟩
    intro q l' hl'
    have halive := levelAlive_of_find hl' (hwf.no_empty _ _ _ hl')
    have hmem := hwf.heap_complete _ _ _ hl'
    rcases List.mem_cons.mp (scanPop_keeps_alive hsp q hmem halive) with rfl | hq
    · exact heapRel_refl side q
    · exact List.rel_of_sorted_cons
        (sorted_scanPop_rest (hwf.heaps_sorted side) hsp) q hq



theorem peek_bids (side : Side) (ob : OrderBook) :
    (peekBestPrice side ob).2.bids = ob.bids := by
  rcases hsp : scanPop (ob.book side) (ob.heap side) with ⟨res, hp⟩
  cases res <;> simp [peekBestPrice, hsp]

theorem peek_asks (side : Side) (ob : OrderBook) :
    (peekBestPrice side ob).2.asks = ob.asks := by
  rcases hsp : scanPop (ob.book side) (ob.heap side) with ⟨res, hp⟩
  cases res <;> simp [peekBestPrice, hsp]

theorem bestBid_val_none {ob : OrderBook}
    (hpk : (peekBestPrice Side.Buy ob).1 = none) : (bestBid ob).1 = none := by
  rcases hp : peekBestPrice Side.Buy ob with ⟨res, ob'⟩
  rw [hp] at hpk
  simp only at hpk
  subst hpk
  simp [bestBid, hp]

theorem bestBid_val_some {ob : OrderBook} {p : ℚ} {l : Level}
    (hpk : (peekBestPrice Side.Buy ob).1 = some p)
    (hfind : pmFind ob.bids p = some l) :
    (bestBid ob).1 = some (p, sumLevelQuantity l) := by
  rcases hp : peekBestPrice Side.Buy ob with ⟨res, ob'⟩
  rw [hp] at hpk
  simp only at hpk
  subst hpk
  have hb : ob'.bids = ob.bids := by
    have := peek_bids Side.Buy ob
    rw [hp] at this
    exact this
  simp [bestBid, hp, hb, hfind]

theorem bestAsk_val_none {ob : OrderBook}
    (hpk : (peekBestPrice Side.Sell ob).1 = none) : (bestAsk ob).1 = none := by
  rcases hp : peekBestPrice Side.Sell ob with ⟨res, ob'⟩
  rw [hp] at hpk
  simp only at hpk
  subst hpk
  simp [bestAsk, hp]

theorem bestAsk_val_some {ob : OrderBook} {p : ℚ} {l : Level}
    (hpk : (peekBestPrice Side.Sell ob).1 = some p)
    (hfind : pmFind ob.asks p = some l) :
    (bestAsk ob).1 = some (p, sumLevelQuantity l) := by
  rcases hp : peekBestPrice Side.Sell ob with ⟨res, ob'⟩
  rw [hp] at hpk
  simp only at hpk
  subst hpk
  have hb : ob'.asks = ob.asks := by
    have := peek_asks Side.Sell ob
    rw [hp] at this
    exact this
  simp [bestAsk, hp, hb, hfind]

/-- C4: in every reachable state, `bestBid` returns `none` iff no buy order
rests, and otherwise the maximum resting buy price paired with the total
remaining quantity of all resting buy orders at that price; `bestAsk` is the
mirror image with the minimum resting sell price. -/
theorem best_quote_spec (ob : OrderBook) (h : Reachable ob) :
    ((bestBid ob).1 = none ↔ sideOrders ob.bids = []) ∧
    (∀ p q, (bestBid ob).1 = some (p, q) →
      (∃ o ∈ sideOrders ob.bids, o.price = some p) ∧
      (∀ o ∈ sideOrders ob.bids, ∀ r : ℚ, o.price = some r → r ≤ p) ∧
      q = sumLevelQuantity (restingOrdersAt ob Side.Buy p)) ∧
    ((bestAsk ob).1 = none ↔ sideOrders ob.asks = []) ∧
    (∀ p q, (bestAsk ob).1 = some (p, q) →
      (∃ o ∈ sideOrders ob.asks, o.price = some p) ∧
      (∀ o ∈ sideOrders ob.asks, ∀ r : ℚ, o.price = some r → p ≤ r) ∧
      q = sumLevelQuantity (restingOrdersAt ob Side.Sell p)) := by
  have hwf := reachable_wf h
  have hno : ∀ s : Side, ∀ e ∈ ob.book s, (e : ℚ × Level).2 ≠ [] := by
    intro s e he
    exact hwf.no_empty s e.1 e.2 (pmFind_of_mem_nodup (hwf.keys_nodup s) he)
  refine ⟨?_, ?_, ?_, ?_⟩
  · constructor
    · intro hn
      rcases hpk : (peekBestPrice Side.Buy ob).1 with _ | p
      · exact (sideOrders_eq_nil_iff (hno Side.Buy)).mpr
          ((peekBestPrice_none_iff hwf).mp hpk)
      · obtain ⟨l, hl, -, -⟩ := peekBestPrice_best hwf hpk
        rw [bestBid_val_some hpk hl] at hn
        exact Option.noConfusion hn
    · intro hempty
      have hbk : ob.book Side.Buy = [] :=
        (sideOrders_eq_nil_iff (hno Side.Buy)).mp hempty
      exact bestBid_val_none ((peekBestPrice_none_iff hwf).mpr hbk)
  · intro p q hsome
    rcases hpk : (peekBestPrice Side.Buy ob).1 with _ | p'
    · rw [bestBid_val_none hpk] at hsome
      exact Option.noConfusion hsome
    · obtain ⟨l, hl, hlne, hbest⟩ := peekBestPrice_best hwf hpk
      rw [bestBid_val_some hpk hl] at hsome
      obtain ⟨rfl, rfl⟩ : p' = p ∧ sumLevelQuantity l = q := by
        have := Option.some.inj hsome
        exact ⟨congrArg Prod.fst this, congrArg Prod.snd this⟩
      obtain ⟨o, ho⟩ := List.exists_mem_of_ne_nil l hlne
      refine ⟨⟨o, mem_sideOrders.mpr ⟨(p', l), pmFind_mem hl, ho⟩,
        (hwf.levels_wf _ _ _ hl o ho).2.1⟩, ?_, ?_⟩
      · intro o' ho' r hr
        obtain ⟨e, he, hoe⟩ := mem_sideOrders.mp ho'
        have hfind' := pmFind_of_mem_nodup (hwf.keys_nodup Side.Buy) he
        have := (hwf.levels_wf _ _ _ hfind' o' hoe).2.1
        rw [hr] at this
        obtain rfl : r = e.1 := Option.some.inj this
        exact hbest e.1 e.2 hfind'
      · rw [restingOrdersAt_eq_level hwf hl]
  · constructor
    · intro hn
      rcases hpk : (peekBestPrice Side.Sell ob).1 with _ | p
      · exact (sideOrders_eq_nil_iff (hno Side.Sell)).mpr
          ((peekBestPrice_none_iff hwf).mp hpk)
      · obtain ⟨l, hl, -, -⟩ := peekBestPrice_best hwf hpk
        rw [bestAsk_val_some hpk hl] at hn
        exact Option.noConfusion hn
    · intro hempty
      have hbk : ob.book Side.Sell = [] :=
        (sideOrders_eq_nil_iff (hno Side.Sell)).mp hempty
      exact bestAsk_val_none ((peekBestPrice_none_iff hwf).mpr hbk)
  · intro p q hsome
    rcases hpk : (peekBestPrice Side.Sell ob).1 with _ | p'
    · rw [bestAsk_val_none hpk] at hsome
      exact Option.noConfusion hsome
    · obtain ⟨l, hl, hlne, hbest⟩ := peekBestPrice_best hwf hpk
      rw [bestAsk_val_some hpk hl] at hsome
      obtain ⟨rfl, rfl⟩ : p' = p ∧ sumLevelQuantity l = q := by
        have := Option.some.inj hsome
        exact ⟨congrArg Prod.fst this, congrArg Prod.snd this⟩
      obtain ⟨o, ho⟩ := List.exists_mem_of_ne_nil l hlne
      refine ⟨⟨o, mem_sideOrders.mpr ⟨(p', l), pmFind_mem hl, ho⟩,
        (hwf.levels_wf _ _ _ hl o ho).2.1⟩, ?_, ?_⟩
      · intro o' ho' r hr
        obtain ⟨e, he, hoe⟩ := mem_sideOrders.mp ho'
        have hfind' := pmFind_of_mem_nodup (hwf.keys_nodup Side.Sell) he
        have := (hwf.levels_wf _ _ _ hfind' o' hoe).2.1
        rw [hr] at this
        obtain rfl : r = e.1 := Option.some.inj this
        exact hbest e.1 e.2 hfind'
      · rw [restingOrdersAt_eq_level hwf hl]

/-- Witness for `best_quote_spec` at a concrete reachable state. -/
theorem best_quote_spec_witness :
    ((bestBid ((addLimitOrder Side.Buy 5 10 none none OrderBook.empty).2)).1
        = none ↔
      sideOrders ((addLimitOrder Side.Buy 5 10 none none
        OrderBook.empty).2).bids = []) ∧
    (∀ p q, (bestBid ((addLimitOrder Side.Buy 5 10 none none
        OrderBook.empty).2)).1 = some (p, q) →
      (∃ o ∈ sideOrders ((addLimitOrder Side.Buy 5 10 none none
        OrderBook.empty).2).bids, o.price = some p) ∧
      (∀ o ∈ sideOrders ((addLimitOrder Side.Buy 5 10 none none
        OrderBook.empty).2).bids, ∀ r : ℚ, o.price = some r → r ≤ p) ∧
      q = sumLevelQuantity (restingOrdersAt
        ((addLimitOrder Side.Buy 5 10 none none OrderBook.empty).2)
        Side.Buy p)) ∧
    ((bestAsk ((addLimitOrder Side.Buy 5 10 none none OrderBook.empty).2)).1
        = none ↔
      sideOrders ((addLimitOrder Side.Buy 5 10 none none
        OrderBook.empty).2).asks = []) ∧
    (∀ p q, (bestAsk ((addLimitOrder Side.Buy 5 10 none none
        OrderBook.empty).2)).1 = some (p, q) →
      (∃ o ∈ sideOrders ((addLimitOrder Side.Buy 5 10 none none
        OrderBook.empty).2).asks, o.price = some p) ∧
      (∀ o ∈ sideOrders ((addLimitOrder Side.Buy 5 10 none none
        OrderBook.empty).2).asks, ∀ r : ℚ, o.price = some r → p ≤ r) ∧
      q = sumLevelQuantity (restingOrdersAt
        ((addLimitOrder Side.Buy 5 10 none none OrderBook.empty).2)
        Side.Sell p)) :=
  best_quote_spec ((addLimitOrder Side.Buy 5 10 none none OrderBook.empty).2)
    (Reachable.limit Side.Buy 5 10 none none Reachable.empty)

/-- C5: for every reachable state, every side and every depth bound,
`getDepth` returns exactly the live prices of the side best-first
(descending bids, ascending asks), truncated to the first `levels` entries,
each paired with the total remaining quantity resting at that exact price;
the result never depends on the (possibly stale) priority heaps. -/
theorem getDepth_spec (ob : OrderBook) (h : Reachable ob) (side : Side)
    (levels : Nat) :
    ∃ ps : List ℚ,
      ps.Nodup ∧
      List.Sorted (heapRel side) ps ∧
      (∀ p, p ∈ ps ↔ ∃ o ∈ sideOrders (ob.book side), o.price = some p) ∧
      getDepth side levels ob
        = (ps.take levels).map
            (fun p => (p, sumLevelQuantity (restingOrdersAt ob side p))) ∧
      (∀ h₁ h₂ : List ℚ,
        getDepth side levels { ob with bid_heap := h₁, ask_heap := h₂ }
          = getDepth side levels ob) := by
  have hwf := reachable_wf h
  set bk := ob.book side with hbk
  refine ⟨(bk.map Prod.fst).insertionSort (heapRel side), ?_, ?_, ?_, ?_, ?_⟩
  · exact ((List.perm_insertionSort _ _).nodup_iff).mpr (hwf.keys_nodup side)
  · exact List.sorted_insertionSort _ _
  · intro p
    rw [(List.perm_insertionSort (heapRel side) (bk.map Prod.fst)).mem_iff]
    constructor
    · intro hp
      obtain ⟨e, he, rfl⟩ := List.mem_map.mp hp
      have hfind := pmFind_of_mem_nodup (hwf.keys_nodup side) he
      obtain ⟨o, ho⟩ := List.exists_mem_of_ne_nil e.2 (hwf.no_empty _ _ _ hfind)
      exact ⟨o, mem_sideOrders.mpr ⟨e, he, ho⟩,
        (hwf.levels_wf _ _ _ hfind o ho).2.1⟩
    · rintro ⟨o, ho, hop⟩
      obtain ⟨e, he, hoe⟩ := mem_sideOrders.mp ho
      have hfind := pmFind_of_mem_nodup (hwf.keys_nodup side) he
      have := (hwf.levels_wf _ _ _ hfind o hoe).2.1
      rw [hop] at this
      obtain rfl : p = e.1 := Option.some.inj this
      exact List.mem_map.mpr ⟨e, he, rfl⟩
  · by_cases hcase : bk = [] ∨ levels = 0
    · have hleft : getDepth side levels ob = [] := by
        rw [getDepth]
        rw [if_pos hcase]
      rw [hleft]
      rcases hcase with hnil | hzero
      · rw [hnil]
        simp [List.insertionSort]
      · rw [hzero]
        simp
    · have hleft : getDepth side levels ob
          = (((bk.map Prod.fst).insertionSort (heapRel side)).take levels).map
              (fun p => (p, sumLevelQuantity ((pmFind bk p).getD []))) := by
        rw [getDepth]
        rw [if_neg hcase]
      rw [hleft]
      refine List.map_congr_left ?_
      intro p hp
      have hmem : p ∈ bk.map Prod.fst :=
        (List.perm_insertionSort (heapRel side) (bk.map Prod.fst)).mem_iff.mp
          (List.mem_of_mem_take hp)
      obtain ⟨e, he, rfl⟩ := List.mem_map.mp hmem
      have hfind := pmFind_of_mem_nodup (hwf.keys_nodup side) he
      show (e.1, sumLevelQuantity ((pmFind bk e.1).getD []))
        = (e.1, sumLevelQuantity (restingOrdersAt ob side e.1))
      rw [restingOrdersAt_eq_level hwf hfind]
      rw [show pmFind bk e.1 = some e.2 from hfind]
      rfl
  · intro h₁ h₂
    have hb : ({ ob with bid_heap := h₁, ask_heap := h₂ } : OrderBook).book side
        = ob.book side := by
      cases side <;> rfl
    rw [getDepth, getDepth, hb]

/-- Witness for `getDepth_spec` at a concrete reachable state. -/
theorem getDepth_spec_witness :
    ∃ ps : List ℚ,
      ps.Nodup ∧
      List.Sorted (heapRel Side.Buy) ps ∧
      (∀ p, p ∈ ps ↔ ∃ o ∈ sideOrders (((addLimitOrder Side.Buy 5 10 none none
        OrderBook.empty).2).book Side.Buy), o.price = some p) ∧
      getDepth Side.Buy 3 ((addLimitOrder Side.Buy 5 10 none none
          OrderBook.empty).2)
        = (ps.take 3).map
            (fun p => (p, sumLevelQuantity (restingOrdersAt
              ((addLimitOrder Side.Buy 5 10 none none OrderBook.empty).2)
              Side.Buy p))) ∧
      (∀ h₁ h₂ : List ℚ,
        getDepth Side.Buy 3 { (addLimitOrder Side.Buy 5 10 none none
            OrderBook.empty).2 with bid_heap := h₁, ask_heap := h₂ }
          = getDepth Side.Buy 3 ((addLimitOrder Side.Buy 5 10 none none
              OrderBook.empty).2)) :=
  getDepth_spec ((addLimitOrder Side.Buy 5 10 none none OrderBook.empty).2)
    (Reachable.limit Side.Buy 5 10 none none Reachable.empty) Side.Buy 3

theorem drainLevel_trades_price (inc : Order) (p : ℚ) (l : Level) :
    ∀ t ∈ (drainLevel inc p l).trades, t.price = p := by
  induction l generalizing inc with
  | nil => simp [drainLevel]
  | cons r rest ih =>
    by_cases hq : inc.quantity ≤ 0
    · simp [drainLevel, hq]
    · by_cases hr : r.quantity - min inc.quantity r.quantity = 0
      · simp only [drainLevel, if_neg hq, if_pos hr]
        intro t ht
        rcases List.mem_cons.mp ht with rfl | hmem
        · rfl
        · exact ih _ t hmem
      · simp only [drainLevel, if_neg hq, if_neg hr]
        intro t ht
        obtain rfl : t = recordTrade inc r p (min inc.quantity r.quantity) := by
          simpa using ht
        rfl

theorem drainLevel_trades_resting (inc : Order) (p : ℚ) (l : Level) :
    ∀ t ∈ (drainLevel inc p l).trades,
      ∃ o ∈ l, o.order_id = restingId inc.side t := by
  induction l generalizing inc with
  | nil => simp [drainLevel]
  | cons r rest ih =>
    by_cases hq : inc.quantity ≤ 0
    · simp [drainLevel, hq]
    · by_cases hr : r.quantity - min inc.quantity r.quantity = 0
      · simp only [drainLevel, if_neg hq, if_pos hr]
        intro t ht
        rcases List.mem_cons.mp ht with rfl | hmem
        · refine ⟨r, List.mem_cons_self r rest, ?_⟩
          cases hs : inc.side <;> simp [restingId, recordTrade, hs]
        · obtain ⟨o, ho, hid⟩ := ih _ t hmem
          exact ⟨o, List.mem_cons_of_mem r ho, hid⟩
      · simp only [drainLevel, if_neg hq, if_neg hr]
        intro t ht
        obtain rfl : t = recordTrade inc r p (min inc.quantity r.quantity) := by
          simpa using ht
        refine ⟨r, List.mem_cons_self r rest, ?_⟩
        cases hs : inc.side <;> simp [restingId, recordTrade, hs]

/-- Every trade the loop appends is priced at a level of the pre-match book
that held the resting counterparty, and its price was accepted by the
incoming order's `price_ok` check. -/
theorem matchLoop_trades_bounds (fuel : Nat) (inc : Order) (opp : Side)
    (ob : OrderBook) (hwf : WF ob) :
    ∃ new, (matchLoop fuel inc opp ob).2.trades = ob.trades ++ new ∧
      ∀ t ∈ new,
        (∃ l, pmFind (ob.book opp) t.price = some l ∧
          ∃ o ∈ l, o.order_id = restingId inc.side t) ∧
        priceOk inc t.price = true := by
  induction fuel generalizing inc ob with
  | zero => exact ⟨[], by simp [matchLoop], by simp⟩
  | succ fuel ih =>
    rw [matchLoop]
    by_cases hq : inc.quantity ≤ 0
    · exact ⟨[], by simp [hq], by simp⟩
    · rw [if_neg hq]
      split
      next hp heq => exact ⟨[], by simp, by simp⟩
      next best_price hp heq =>
        by_cases hok : priceOk inc best_price
        · rw [if_neg (by simp [hok])]
          split
          next hfind =>
            exfalso
            obtain ⟨l, hl, -⟩ := levelAlive_elim (scanPop_alive heq)
            rw [book_setHeap, hl] at hfind
            exact Option.noConfusion hfind
          next level hfind =>
            rw [book_setHeap] at hfind
            by_cases hemp : level.isEmpty
            · exfalso
              obtain ⟨l, hl, hlne⟩ := levelAlive_elim (scanPop_alive heq)
              rw [hl] at hfind
              obtain rfl : l = level := Option.some.inj hfind
              exact hlne (List.isEmpty_iff.mp hemp)
            · rw [if_neg hemp]
              generalize hd : drainLevel inc best_price level = d
              have hdprice : ∀ t ∈ d.trades, t.price = best_price := by
                rw [← hd]; exact drainLevel_trades_price inc best_price level
              have hdrest : ∀ t ∈ d.trades,
                  ∃ o ∈ level, o.order_id = restingId inc.side t := by
                rw [← hd]; exact drainLevel_trades_resting inc best_price level
              have hdinc : ∃ q', d.incoming = { inc with quantity := q' } := by
                rw [← hd]; exact drainLevel_incoming inc best_price level
              obtain ⟨q', hq'⟩ := hdinc
              by_cases hlvl : d.level.isEmpty
              · rw [if_pos hlvl]
                have hwf' := matchStep_erase_wf hwf heq hfind hd
                  (List.isEmpty_iff.mp hlvl)
                obtain ⟨new', h1, h2⟩ := ih d.incoming
                  ((eraseIds (appendTrades (ob.setHeap opp hp) d.trades)
                    d.removed).setBook opp (pmErase (ob.book opp) best_price))
                  hwf'
                refine ⟨d.trades ++ new', ?_, ?_⟩
                · rw [show ((eraseIds (appendTrades (ob.setHeap opp hp)
                      d.trades) d.removed).setBook opp
                      (pmErase ((eraseIds (appendTrades (ob.setHeap opp hp)
                        d.trades) d.removed).book opp) best_price))
                      = ((eraseIds (appendTrades (ob.setHeap opp hp)
                      d.trades) d.removed).setBook opp
                      (pmErase (ob.book opp) best_price)) by
                      simp only [book_eraseIds, book_appendTrades, book_setHeap]]
                  rw [h1]
                  simp [List.append_assoc]
                · intro t ht
                  rcases List.mem_append.mp ht with hmem | hmem
                  · refine ⟨⟨level, ?_, hdrest t hmem⟩, ?_⟩
                    · rw [hdprice t hmem]
                      exact hfind
                    · rw [hdprice t hmem]
                      exact hok
                  · obtain ⟨⟨l', hl', o', ho', hid'⟩, hok'⟩ := h2 t hmem
                    simp only [book_setBook_self, book_eraseIds,
                      book_appendTrades, book_setHeap] at hl'
                    have hne : t.price ≠ best_price := by
                      intro hc
                      rw [hc, pmFind_pmErase_self (hwf.keys_nodup opp)] at hl'
                      exact Option.noConfusion hl'
                    rw [pmFind_pmErase_ne hne] at hl'
                    have hid'' : o'.order_id = restingId inc.side t := by
                      rw [hid', hq']
                    have hok'' : priceOk inc t.price = true := by
                      rw [hq'] at hok'
                      exact hok'
                    exact ⟨⟨l', hl', o', ho', hid''⟩, hok''⟩
              · rw [if_neg hlvl]
                refine ⟨d.trades, by simp, ?_⟩
                intro t ht
                refine ⟨⟨level, ?_, hdrest t ht⟩, ?_⟩
                · rw [hdprice t ht]
                  exact hfind
                · rw [hdprice t ht]
                  exact hok
        · rw [if_pos (by simp [hok])]
          exact ⟨[], by simp, by simp⟩



theorem priceOk_buy {inc : Order} {bp limit : ℚ} (hp : inc.price = some limit)
    (hs : inc.side = Side.Buy) (hok : priceOk inc bp = true) : bp ≤ limit := by
  simp [priceOk, hp, hs] at hok
  exact hok

theorem priceOk_sell {inc : Order} {bp limit : ℚ} (hp : inc.price = some limit)
    (hs : inc.side = Side.Sell) (hok : priceOk inc bp = true) : limit ≤ bp := by
  simp [priceOk, hp, hs] at hok
  exact hok

/-- C2: every appended trade executes at the price of a level of the
pre-match book in which its resting counterparty was queued with that exact
limit (never at the incoming order's limit), and the incoming side's limit
is respected: an incoming limit buy never trades above its limit, an
incoming limit sell never below, and market orders are unconstrained.  The
same holds through the public `addLimitOrder`/`addMarketOrder` calls. -/
theorem trade_price_spec (ob : OrderBook) (h : Reachable ob) :
    (∀ inc : Order,
      ∃ new, (matchIncoming inc ob).2.trades = ob.trades ++ new ∧
        ∀ t ∈ new,
          (∃ l, pmFind (ob.book (opposite inc.side)) t.price = some l ∧
            ∃ o ∈ l, o.order_id = restingId inc.side t ∧
              o.price = some t.price) ∧
          (∀ limit : ℚ, inc.price = some limit →
            (inc.side = Side.Buy → t.price ≤ limit) ∧
            (inc.side = Side.Sell → limit ≤ t.price))) ∧
    (∀ side (price : ℚ) (qty : Int) oid ots,
      ∃ new, (addLimitOrder side price qty oid ots ob).2.trades
          = ob.trades ++ new ∧
        ∀ t ∈ new,
          (∃ l, pmFind (ob.book (opposite side)) t.price = some l ∧
            ∃ o ∈ l, o.price = some t.price) ∧
          (side = Side.Buy → t.price ≤ price) ∧
          (side = Side.Sell → price ≤ t.price)) ∧
    (∀ side (qty : Int) oid ots,
      ∃ new, (addMarketOrder side qty oid ots ob).2.trades
          = ob.trades ++ new ∧
        ∀ t ∈ new,
          ∃ l, pmFind (ob.book (opposite side)) t.price = some l ∧
            ∃ o ∈ l, o.price = some t.price) := by
  have hwf := reachable_wf h
  have hcore : ∀ inc : Order,
      ∃ new, (matchIncoming inc ob).2.trades = ob.trades ++ new ∧
        ∀ t ∈ new,
          (∃ l, pmFind (ob.book (opposite inc.side)) t.price = some l ∧
            ∃ o ∈ l, o.order_id = restingId inc.side t ∧
              o.price = some t.price) ∧
          (∀ limit : ℚ, inc.price = some limit →
            (inc.side = Side.Buy → t.price ≤ limit) ∧
            (inc.side = Side.Sell → limit ≤ t.price)) := by
    intro inc
    obtain ⟨new, h1, h2⟩ := matchLoop_trades_bounds
      ((ob.heap (opposite inc.side)).length + 1) inc (opposite inc.side) ob hwf
    refine ⟨new, by simpa [matchIncoming] using h1, ?_⟩
    intro t ht
    obtain ⟨⟨l, hl, o, ho, hid⟩, hok⟩ := h2 t ht
    refine ⟨⟨l, hl, o, ho, hid, ?_⟩, ?_⟩
    · exact (hwf.levels_wf _ _ _ hl o ho).2.1
    · intro limit hlim
      exact ⟨fun hs => priceOk_buy hlim hs hok,
        fun hs => priceOk_sell hlim hs hok⟩
  refine ⟨hcore, ?_, ?_⟩
  · intro side price qty oid ots
    have hmk : ∀ (id' ts' : Int) (ob₀ : OrderBook), WF ob₀ →
        ob₀.book (opposite side) = ob.book (opposite side) →
        ob₀.heap (opposite side) = ob.heap (opposite side) →
        ob₀.trades = ob.trades →
        ∃ new,
          (matchLoop ((ob₀.heap (opposite side)).length + 1)
            ⟨id', side, some price, qty, ts'⟩ (opposite side) ob₀).2.trades
            = ob.trades ++ new ∧
          ∀ t ∈ new,
            (∃ l, pmFind (ob.book (opposite side)) t.price = some l ∧
              ∃ o ∈ l, o.price = some t.price) ∧
            (side = Side.Buy → t.price ≤ price) ∧
            (side = Side.Sell → price ≤ t.price) := by
      intro id' ts' ob₀ hwf₀ hbook hheap htr
      obtain ⟨new, h1, h2⟩ := matchLoop_trades_bounds
        ((ob₀.heap (opposite side)).length + 1)
        ⟨id', side, some price, qty, ts'⟩ (opposite side) ob₀ hwf₀
      refine ⟨new, by rw [h1, htr], ?_⟩
      intro t ht
      obtain ⟨⟨l, hl, o, ho, hid⟩, hok⟩ := h2 t ht
      rw [hbook] at hl
      refine ⟨⟨l, hl, o, ho, (hwf.levels_wf _ _ _ hl o ho).2.1⟩,
        fun hs => priceOk_buy rfl hs hok,
        fun hs => priceOk_sell rfl hs hok⟩
    cases oid with
    | some id' =>
      by_cases hex : (idFind ob.order_map id').isSome
      · exact ⟨[], by simp [addLimitOrder, hex], by simp⟩
      · obtain ⟨new, h1, h2⟩ := hmk id' (ots.getD 0) ob hwf rfl rfl rfl
        refine ⟨new, ?_, h2⟩
        simp only [addLimitOrder, hex, Bool.false_eq_true, if_false,
          matchIncoming]
        split
        · rw [trades_addRestingOrder]
          exact h1
        · exact h1
    | none =>
      obtain ⟨new, h1, h2⟩ := hmk (nextFreeId ob).1 (ots.getD 0)
        (nextFreeId ob).2 (nextFreeId_wf hwf) (book_nextFreeId ob _)
        (heap_nextFreeId ob _) (trades_nextFreeId ob)
      refine ⟨new, ?_, h2⟩
      simp only [addLimitOrder, matchIncoming]
      split
      · rw [trades_addRestingOrder]
        exact h1
      · exact h1
  · intro side qty oid ots
    have hmk : ∀ (id' ts' : Int) (ob₀ : OrderBook), WF ob₀ →
        ob₀.book (opposite side) = ob.book (opposite side) →
        ob₀.trades = ob.trades →
        ∃ new,
          (matchLoop ((ob₀.heap (opposite side)).length + 1)
            ⟨id', side, none, qty, ts'⟩ (opposite side) ob₀).2.trades
            = ob.trades ++ new ∧
          ∀ t ∈ new,
            ∃ l, pmFind (ob.book (opposite side)) t.price = some l ∧
              ∃ o ∈ l, o.price = some t.price := by
      intro id' ts' ob₀ hwf₀ hbook htr
      obtain ⟨new, h1, h2⟩ := matchLoop_trades_bounds
        ((ob₀.heap (opposite side)).length + 1)
        ⟨id', side, none, qty, ts'⟩ (opposite side) ob₀ hwf₀
      refine ⟨new, by rw [h1, htr], ?_⟩
      intro t ht
      obtain ⟨⟨l, hl, o, ho, hid⟩, -⟩ := h2 t ht
      rw [hbook] at hl
      exact ⟨l, hl, o, ho, (hwf.levels_wf _ _ _ hl o ho).2.1⟩
    cases oid with
    | some id' =>
      by_cases hex : (idFind ob.order_map id').isSome
      · exact ⟨[], by simp [addMarketOrder, hex], by simp⟩
      · obtain ⟨new, h1, h2⟩ := hmk id' (ots.getD 0) ob hwf rfl rfl
        refine ⟨new, ?_, h2⟩
        simp only [addMarketOrder, hex, Bool.false_eq_true, if_false,
          matchIncoming]
        exact h1
    | none =>
      obtain ⟨new, h1, h2⟩ := hmk (nextFreeId ob).1 (ots.getD 0)
        (nextFreeId ob).2 (nextFreeId_wf hwf) (book_nextFreeId ob _)
        (trades_nextFreeId ob)
      refine ⟨new, ?_, h2⟩
      simp only [addMarketOrder, matchIncoming]
      exact h1



/-- Witness for `trade_price_spec` at a concrete reachable state. -/
theorem trade_price_spec_witness :
    (∀ inc : Order,
      ∃ new, (matchIncoming inc OrderBook.empty).2.trades
          = OrderBook.empty.trades ++ new ∧
        ∀ t ∈ new,
          (∃ l, pmFind (OrderBook.empty.book (opposite inc.side)) t.price
              = some l ∧
            ∃ o ∈ l, o.order_id = restingId inc.side t ∧
              o.price = some t.price) ∧
          (∀ limit : ℚ, inc.price = some limit →
            (inc.side = Side.Buy → t.price ≤ limit) ∧
            (inc.side = Side.Sell → limit ≤ t.price))) ∧
    (∀ side (price : ℚ) (qty : Int) oid ots,
      ∃ new, (addLimitOrder side price qty oid ots OrderBook.empty).2.trades
          = OrderBook.empty.trades ++ new ∧
        ∀ t ∈ new,
          (∃ l, pmFind (OrderBook.empty.book (opposite side)) t.price
              = some l ∧
            ∃ o ∈ l, o.price = some t.price) ∧
          (side = Side.Buy → t.price ≤ price) ∧
          (side = Side.Sell → price ≤ t.price)) ∧
    (∀ side (qty : Int) oid ots,
      ∃ new, (addMarketOrder side qty oid ots OrderBook.empty).2.trades
          = OrderBook.empty.trades ++ new ∧
        ∀ t ∈ new,
          ∃ l, pmFind (OrderBook.empty.book (opposite side)) t.price
              = some l ∧
            ∃ o ∈ l, o.price = some t.price) :=
  trade_price_spec OrderBook.empty Reachable.empty

theorem heapRel_antisymm {s : Side} {p q : ℚ} (h1 : heapRel s p q)
    (h2 : heapRel s q p) : p = q := by
  cases s
  · exact le_antisymm h2 h1
  · exact le_antisymm h1 h2

theorem sorted_of_all_eq {r : ℚ → ℚ → Prop} (hr : ∀ x, r x x) {l : List ℚ}
    {c : ℚ} (h : ∀ x ∈ l, x = c) : l.Sorted r := by
  induction l with
  | nil => exact List.sorted_nil
  | cons x rest ih =>
    rw [List.sorted_cons]
    refine ⟨?_, ih fun y hy => h y (List.mem_cons_of_mem x hy)⟩
    intro y hy
    rw [h x (List.mem_cons_self x rest), h y (List.mem_cons_of_mem x hy)]
    exact hr c

theorem restingId_recordTrade (inc r : Order) (p : ℚ) (qty : Int) :
    restingId inc.side (recordTrade inc r p qty) = r.order_id := by
  cases hs : inc.side <;> simp [restingId, recordTrade, hs]

/-- The resting counterparties of a level drain are exactly the first
`trades.length` queued orders, in queue order. -/
theorem drainLevel_trades_take (inc : Order) (p : ℚ) (l : Level) :
    (drainLevel inc p l).trades.map (restingId inc.side)
      = (l.map Order.order_id).take (drainLevel inc p l).trades.length := by
  induction l generalizing inc with
  | nil => simp [drainLevel]
  | cons r rest ih =>
    by_cases hq : inc.quantity ≤ 0
    · simp [drainLevel, hq]
    · by_cases hr : r.quantity - min inc.quantity r.quantity = 0
      · simp only [drainLevel, if_neg hq, if_pos hr, List.map_cons,
          List.length_cons, List.take_succ_cons]
        rw [restingId_recordTrade]
        have := ih { inc with quantity := inc.quantity - min inc.quantity r.quantity }
        exact congrArg (r.order_id :: ·) this
      · simp only [drainLevel, if_neg hq, if_neg hr, List.map_cons,
          List.length_cons, List.take_succ_cons]
        rw [restingId_recordTrade]
        simp

/-- When a drain empties the level, every queued order traded. -/
theorem drainLevel_nil_length (inc : Order) (p : ℚ) (l : Level)
    (h : (drainLevel inc p l).level = []) :
    (drainLevel inc p l).trades.length = l.length := by
  induction l generalizing inc with
  | nil => simp [drainLevel]
  | cons r rest ih =>
    by_cases hq : inc.quantity ≤ 0
    · rw [drainLevel] at h
      rw [if_pos hq] at h
      exact absurd h (List.cons_ne_nil r rest)
    · by_cases hr : r.quantity - min inc.quantity r.quantity = 0
      · simp only [drainLevel, if_neg hq, if_pos hr] at h ⊢
        rw [List.length_cons, List.length_cons, ih _ h]
      · simp only [drainLevel, if_neg hq, if_neg hr] at h
        exact absurd h (List.cons_ne_nil _ rest)

/-- A fully drained level's trades run through the entire queue in order. -/
theorem drainLevel_nil_trades_ids (inc : Order) (p : ℚ) (l : Level)
    (h : (drainLevel inc p l).level = []) :
    (drainLevel inc p l).trades.map (restingId inc.side)
      = l.map Order.order_id := by
  rw [drainLevel_trades_take, drainLevel_nil_length inc p l h]
  exact List.take_of_length_le (by rw [List.length_map])

/-- Price–time priority through the matching loop: appended trades hit live
entry-book levels best-price-first, and within each price they consume the
resting queue from the head, draining a level completely before any
strictly worse level trades. -/
theorem matchLoop_priority (fuel : Nat) (inc : Order) (opp : Side)
    (ob : OrderBook) (hwf : WF ob) :
    ∃ new, (matchLoop fuel inc opp ob).2.trades = ob.trades ++ new ∧
      (∀ t ∈ new, ∃ l, pmFind (ob.book opp) t.price = some l ∧ l ≠ []) ∧
      ((new.map Trade.price).Sorted (heapRel opp)) ∧
      (∀ p l, pmFind (ob.book opp) p = some l →
        (new.filter (fun t => decide (t.price = p))).map (restingId inc.side)
          = (l.map Order.order_id).take
              ((new.filter (fun t => decide (t.price = p))).length)) ∧
      (∀ p l, pmFind (ob.book opp) p = some l →
        (∃ t ∈ new, heapRel opp p t.price ∧ t.price ≠ p) →
        (new.filter (fun t => decide (t.price = p))).map (restingId inc.side)
          = l.map Order.order_id) := by
  induction fuel generalizing inc ob with
  | zero =>
    refine ⟨[], by simp [matchLoop], by simp, List.sorted_nil, ?_, ?_⟩
    · intro p l hf
      simp
    · intro p l hf hex
      simp at hex
  | succ fuel ih =>
    rw [matchLoop]
    by_cases hq : inc.quantity ≤ 0
    · refine ⟨[], by simp [hq], by simp, List.sorted_nil, ?_, ?_⟩
      · intro p l hf
        simp
      · intro p l hf hex
        simp at hex
    · rw [if_neg hq]
      split
      next hp heq =>
        refine ⟨[], by simp, by simp, List.sorted_nil, ?_, ?_⟩
        · intro p l hf
          simp
        · intro p l hf hex
          simp at hex
      next best_price hp heq =>
        have hsorted := sorted_scanPop_rest (hwf.heaps_sorted opp) heq
        by_cases hok : priceOk inc best_price
        · rw [if_neg (by simp [hok])]
          split
          next hfind =>
            exfalso
            obtain ⟨l, hl, -⟩ := levelAlive_elim (scanPop_alive heq)
            rw [book_setHeap, hl] at hfind
            exact Option.noConfusion hfind
          next level hfind =>
            rw [book_setHeap] at hfind
            by_cases hemp : level.isEmpty
            · exfalso
              obtain ⟨l, hl, hlne⟩ := levelAlive_elim (scanPop_alive heq)
              rw [hl] at hfind
              obtain rfl : l = level := Option.some.inj hfind
              exact hlne (List.isEmpty_iff.mp hemp)
            · rw [if_neg hemp]
              generalize hd : drainLevel inc best_price level = d
              have htiprice : ∀ t ∈ d.trades, t.price = best_price := by
                rw [← hd]; exact drainLevel_trades_price inc best_price level
              obtain ⟨q', hq'⟩ : ∃ q', d.incoming = { inc with quantity := q' } := by
                rw [← hd]; exact drainLevel_incoming inc best_price level
              have hqside : d.incoming.side = inc.side := by rw [hq']
              have hlive_mem : ∀ p l, pmFind (ob.book opp) p = some l →
                  p ∈ best_price :: hp := by
                intro p l hf
                exact scanPop_keeps_alive heq p (hwf.heap_complete _ _ _ hf)
                  (levelAlive_of_find hf (hwf.no_empty _ _ _ hf))
              have hno_worse : ∀ p l, pmFind (ob.book opp) p = some l →
                  heapRel opp p best_price → p ≠ best_price → False := by
                intro p l hf hrel hne
                rcases List.mem_cons.mp (hlive_mem p l hf) with rfl | hmem
                · exact hne rfl
                · exact hne (heapRel_antisymm hrel
                    (List.rel_of_sorted_cons hsorted p hmem))
              by_cases hlvl : d.level.isEmpty
              · -- level fully drained and erased
                rw [if_pos hlvl]
                have hnil : d.level = [] := List.isEmpty_iff.mp hlvl
                have hwf' := matchStep_erase_wf hwf heq hfind hd hnil
                obtain ⟨new', i1, i2, i3, i4, i5⟩ := ih d.incoming
                  ((eraseIds (appendTrades (ob.setHeap opp hp) d.trades)
                    d.removed).setBook opp (pmErase (ob.book opp) best_price))
                  hwf'
                rw [hqside] at i4 i5
                have hids : d.trades.map (restingId inc.side)
                    = level.map Order.order_id := by
                  have := drainLevel_nil_trades_ids inc best_price level
                    (by rw [hd]; exact hnil)
                  rw [hd] at this
                  exact this
                have hlen : d.trades.length = level.length := by
                  have := drainLevel_nil_length inc best_price level
                    (by rw [hd]; exact hnil)
                  rw [hd] at this
                  exact this
                have htransfer : ∀ t' ∈ new',
                    ∃ l, pmFind (ob.book opp) t'.price = some l ∧ l ≠ [] ∧
                      t'.price ≠ best_price := by
                  intro t' ht'
                  obtain ⟨l', hl', hlne⟩ := i2 t' ht'
                  simp only [book_setBook_self, book_eraseIds,
                    book_appendTrades, book_setHeap] at hl'
                  have hne : t'.price ≠ best_price := by
                    intro hc
                    rw [hc, pmFind_pmErase_self (hwf.keys_nodup opp)] at hl'
                    exact Option.noConfusion hl'
                  rw [pmFind_pmErase_ne hne] at hl'
                  exact ⟨l', hl', hlne, hne⟩
                have hworse : ∀ t' ∈ new', heapRel opp best_price t'.price := by
                  intro t' ht'
                  obtain ⟨l', hl', hlne⟩ := i2 t' ht'
                  have hmem := hwf'.heap_complete _ _ _ hl'
                  have hheap : ((eraseIds (appendTrades (ob.setHeap opp hp)
                      d.trades) d.removed).setBook opp
                      (pmErase (ob.book opp) best_price)).heap opp = hp := by
                    simp only [heap_setBook, heap_eraseIds, heap_appendTrades,
                      heap_setHeap_self]
                  rw [hheap] at hmem
                  exact List.rel_of_sorted_cons hsorted t'.price hmem
                have hSfind : ∀ p l, pmFind (ob.book opp) p = some l →
                    p ≠ best_price →
                    pmFind (((eraseIds (appendTrades (ob.setHeap opp hp)
                      d.trades) d.removed).setBook opp
                      (pmErase (ob.book opp) best_price)).book opp) p
                      = some l := by
                  intro p l hf hne
                  simp only [book_setBook_self, book_eraseIds,
                    book_appendTrades, book_setHeap]
                  rw [pmFind_pmErase_ne hne]
                  exact hf
                refine ⟨d.trades ++ new', ?_, ?_, ?_, ?_, ?_⟩
                · rw [show ((eraseIds (appendTrades (ob.setHeap opp hp)
                      d.trades) d.removed).setBook opp
                      (pmErase ((eraseIds (appendTrades (ob.setHeap opp hp)
                        d.trades) d.removed).book opp) best_price))
                      = ((eraseIds (appendTrades (ob.setHeap opp hp)
                      d.trades) d.removed).setBook opp
                      (pmErase (ob.book opp) best_price)) by
                      simp only [book_eraseIds, book_appendTrades, book_setHeap]]
                  rw [i1]
                  simp [List.append_assoc]
                · intro t ht
                  rcases List.mem_append.mp ht with hmem | hmem
                  · refine ⟨level, ?_, hwf.no_empty _ _ _ hfind⟩
                    rw [htiprice t hmem]
                    exact hfind
                  · obtain ⟨l', hl', hlne, -⟩ := htransfer t hmem
                    exact ⟨l', hl', hlne⟩
                · rw [List.map_append]
                  refine List.pairwise_append.mpr
                    ⟨@sorted_of_all_eq (heapRel opp) (heapRel_refl opp) _
                      best_price ?_, i3, ?_⟩
                  · intro x hx
                    obtain ⟨t, ht, rfl⟩ := List.mem_map.mp hx
                    exact htiprice t ht
                  · intro x hx y hy
                    obtain ⟨t, ht, rfl⟩ := List.mem_map.mp hx
                    obtain ⟨t', ht', rfl⟩ := List.mem_map.mp hy
                    rw [htiprice t ht]
                    exact hworse t' ht'
                · intro p l hf
                  rw [List.filter_append]
                  by_cases hpb : p = best_price
                  · subst hpb
                    rw [hfind] at hf
                    obtain rfl : level = l := Option.some.inj hf
                    have hfd : d.trades.filter
                        (fun t => decide (t.price = p)) = d.trades :=
                      List.filter_eq_self.mpr fun t ht => by
                        simp [htiprice t ht]
                    have hfn : new'.filter
                        (fun t => decide (t.price = p)) = [] := by
                      rw [List.filter_eq_nil_iff]
                      intro t' ht'
                      obtain ⟨l', -, -, hne⟩ := htransfer t' ht'
                      simp [hne]
                    rw [hfd, hfn, List.append_nil, hids, hlen]
                    rw [List.take_of_length_le (by rw [List.length_map])]
                  · have hfd : d.trades.filter
                        (fun t => decide (t.price = p)) = [] := by
                      rw [List.filter_eq_nil_iff]
                      intro t ht
                      simp [htiprice t ht, Ne.symm hpb]
                    rw [hfd, List.nil_append]
                    exact i4 p l (hSfind p l hf hpb)
                · intro p l hf hex
                  rw [List.filter_append]
                  by_cases hpb : p = best_price
                  · subst hpb
                    rw [hfind] at hf
                    obtain rfl : level = l := Option.some.inj hf
                    have hfd : d.trades.filter
                        (fun t => decide (t.price = p)) = d.trades :=
                      List.filter_eq_self.mpr fun t ht => by
                        simp [htiprice t ht]
                    have hfn : new'.filter
                        (fun t => decide (t.price = p)) = [] := by
                      rw [List.filter_eq_nil_iff]
                      intro t' ht'
                      obtain ⟨l', -, -, hne⟩ := htransfer t' ht'
                      simp [hne]
                    rw [hfd, hfn, List.append_nil, hids]
                  · have hfd : d.trades.filter
                        (fun t => decide (t.price = p)) = [] := by
                      rw [List.filter_eq_nil_iff]
                      intro t ht
                      simp [htiprice t ht, Ne.symm hpb]
                    rw [hfd, List.nil_append]
                    obtain ⟨t, ht, hrel, hne⟩ := hex
                    rcases List.mem_append.mp ht with hmem | hmem
                    · exfalso
                      rw [htiprice t hmem] at hrel
                      exact hno_worse p l hf hrel hpb
                    · exact i5 p l (hSfind p l hf hpb) ⟨t, hmem, hrel, hne⟩
              · -- partial drain, price pushed back, loop exits
                rw [if_neg hlvl]
                have htake : d.trades.map (restingId inc.side)
                    = (level.map Order.order_id).take d.trades.length := by
                  have := drainLevel_trades_take inc best_price level
                  rw [hd] at this
                  exact this
                refine ⟨d.trades, by simp, ?_, ?_, ?_, ?_⟩
                · intro t ht
                  refine ⟨level, ?_, hwf.no_empty _ _ _ hfind⟩
                  rw [htiprice t ht]
                  exact hfind
                · refine @sorted_of_all_eq (heapRel opp) (heapRel_refl opp) _
                    best_price ?_
                  intro x hx
                  obtain ⟨t, ht, rfl⟩ := List.mem_map.mp hx
                  exact htiprice t ht
                · intro p l hf
                  by_cases hpb : p = best_price
                  · subst hpb
                    rw [hfind] at hf
                    obtain rfl : level = l := Option.some.inj hf
                    have hfd : d.trades.filter
                        (fun t => decide (t.price = p)) = d.trades :=
                      List.filter_eq_self.mpr fun t ht => by
                        simp [htiprice t ht]
                    rw [hfd]
                    exact htake
                  · have hfd : d.trades.filter
                        (fun t => decide (t.price = p)) = [] := by
                      rw [List.filter_eq_nil_iff]
                      intro t ht
                      simp [htiprice t ht, Ne.symm hpb]
                    rw [hfd]
                    simp
                · intro p l hf hex
                  obtain ⟨t, ht, hrel, hne⟩ := hex
                  exfalso
                  rw [htiprice t ht] at hrel hne
                  by_cases hpb : p = best_price
                  · exact hne hpb.symm
                  · exact hno_worse p l hf hrel hpb
        · rw [if_pos (by simp [hok])]
          refine ⟨[], by simp, by simp, List.sorted_nil, ?_, ?_⟩
          · intro p l hf
            simp
          · intro p l hf hex
            simp at hex




/-- C1: price–time priority.  For any reachable book and any single
incoming order, the newly appended trades (a suffix of the trade log)
execute at non-decreasing prices for an incoming buy and non-increasing
prices for an incoming sell; at every pre-match price level of the
opposite book the counterparties hit are an initial prefix of the level's
FIFO queue (head first); and whenever any trade occurred at a strictly
worse price than a live level, that better level was drained completely
first.  Arrival order within a level is queue order: a newly rested order
is appended at the tail of its price level. -/
theorem price_time_priority (ob : OrderBook) (h : Reachable ob) :
    (∀ inc : Order,
      ∃ new, (matchIncoming inc ob).2.trades = ob.trades ++ new ∧
        (inc.side = Side.Buy → (new.map Trade.price).Sorted (· ≤ ·)) ∧
        (inc.side = Side.Sell →
          (new.map Trade.price).Sorted (fun a b => b ≤ a)) ∧
        (∀ p l, pmFind (ob.book (opposite inc.side)) p = some l →
          List.IsPrefix
            ((new.filter (fun t => decide (t.price = p))).map
              (restingId inc.side))
            (l.map Order.order_id)) ∧
        (∀ p l, pmFind (ob.book (opposite inc.side)) p = some l →
          (∃ t ∈ new, (inc.side = Side.Buy → p < t.price) ∧
            (inc.side = Side.Sell → t.price < p)) →
          (new.filter (fun t => decide (t.price = p))).map
              (restingId inc.side)
            = l.map Order.order_id)) ∧
    (∀ (o : Order) (p : ℚ) (l : Level), o.price = some p →
      pmFind (ob.book o.side) p = some l →
      pmFind ((addRestingOrder o ob).book o.side) p = some (l ++ [o])) := by
  have hwf := reachable_wf h
  constructor
  · intro inc
    obtain ⟨new, n1, n2, n3, n4, n5⟩ := matchLoop_priority
      ((ob.heap (opposite inc.side)).length + 1) inc (opposite inc.side)
      ob hwf
    refine ⟨new, by simpa [matchIncoming] using n1, ?_, ?_, ?_, ?_⟩
    · intro hs
      rw [hs] at n3
      exact n3
    · intro hs
      rw [hs] at n3
      exact n3
    · intro p l hf
      rw [n4 p l hf]
      exact List.take_prefix _ _
    · intro p l hf hex
      obtain ⟨t, ht, hb, hsell⟩ := hex
      have hrel : heapRel (opposite inc.side) p t.price ∧ t.price ≠ p := by
        cases hss : inc.side with
        | Buy =>
          have hlt := hb hss
          exact ⟨le_of_lt hlt, hlt.ne'⟩
        | Sell =>
          have hlt := hsell hss
          exact ⟨le_of_lt hlt, hlt.ne⟩
      exact n5 p l hf ⟨t, ht, hrel.1, hrel.2⟩
  · intro o p l hp hfind
    have hb : (addRestingOrder o ob).book o.side
        = pmSet (ob.book o.side) p (l ++ [o]) := by
      simp [addRestingOrder, hp, hfind]
    rw [hb]
    exact pmFind_pmSet_self hfind (l ++ [o])

/-- Witness for `price_time_priority` at a concrete reachable state. -/
theorem price_time_priority_witness :
    (∀ inc : Order,
      ∃ new, (matchIncoming inc OrderBook.empty).2.trades
          = OrderBook.empty.trades ++ new ∧
        (inc.side = Side.Buy → (new.map Trade.price).Sorted (· ≤ ·)) ∧
        (inc.side = Side.Sell →
          (new.map Trade.price).Sorted (fun a b => b ≤ a)) ∧
        (∀ p l,
          pmFind (OrderBook.empty.book (opposite inc.side)) p = some l →
          List.IsPrefix
            ((new.filter (fun t => decide (t.price = p))).map
              (restingId inc.side))
            (l.map Order.order_id)) ∧
        (∀ p l,
          pmFind (OrderBook.empty.book (opposite inc.side)) p = some l →
          (∃ t ∈ new, (inc.side = Side.Buy → p < t.price) ∧
            (inc.side = Side.Sell → t.price < p)) →
          (new.filter (fun t => decide (t.price = p))).map
              (restingId inc.side)
            = l.map Order.order_id)) ∧
    (∀ (o : Order) (p : ℚ) (l : Level), o.price = some p →
      pmFind (OrderBook.empty.book o.side) p = some l →
      pmFind ((addRestingOrder o OrderBook.empty).book o.side) p
        = some (l ++ [o])) :=
  price_time_priority OrderBook.empty Reachable.empty

end LOB
